import Mathlib


/-!
# glue_schema_converter: scanner, recursive-descent parser and serializers

A shallow embedding of `main.go`.  Go strings and rune slices are lists of
characters, Go `int` values are integers, a Go map is an association list with
unique keys kept in first-insertion order, and every call yields an `Outcome`:
a value, a Go `error`, or a run-time panic.
-/

namespace GlueSchema

/-- Text: a Go `string` or `[]rune`, as its sequence of runes. -/
abbrev Str := List Char

/-- The error values the program creates or passes on. -/
inductive GoError where
  | EOF
  | ErrInvalidUnreadRune
  | cannotUnread
  | expected (expected actual : Str) (position line : Int) (context : Str)
  | notApproved (typ : Str)
  deriving DecidableEq, Repr

/-- Result of a Go call on receiver state `σ`: a returned value, a returned
error, a run-time panic, or (for the bounded loops of the model only) an
exhausted iteration budget. -/
inductive Outcome (σ α : Type) where
  | ok (a : α) (s : σ)
  | error (e : GoError) (s : σ)
  | panic
  | outOfFuel
  deriving DecidableEq, Repr

/-- Go index expression `xs[i]`: `none` stands for the index-out-of-range panic. -/
def goIndex {α : Type} (xs : List α) (i : Int) : Option α :=
  if 0 ≤ i then xs[i.toNat]? else none

/-! ## Package `unicode` -/

/-- Range tables `unicode.Letter` and `unicode.Digit` for code points above
Latin-1.  Their contents depend on the Unicode version of the toolchain and are
not part of the repository, so they are a parameter of the lexer. -/
structure UnicodeTables where
  Letter : Char → Bool
  Digit : Char → Bool

/-- The tables with no entry above Latin-1, used to evaluate ASCII inputs. -/
def latin1Tables : UnicodeTables := ⟨fun _ => false, fun _ => false⟩

def MaxLatin1 : Nat := 0xFF

/-- Range table `unicode.White_Space` above Latin-1. -/
def whiteSpaceTable (r : Char) : Bool :=
  r.toNat == 0x1680 || (0x2000 ≤ r.toNat && r.toNat ≤ 0x200A) || r.toNat == 0x2028 ||
    r.toNat == 0x2029 || r.toNat == 0x202F || r.toNat == 0x205F || r.toNat == 0x3000

/-- Go `unicode.IsSpace`. -/
def unicodeIsSpace (r : Char) : Bool :=
  if r.toNat ≤ MaxLatin1 then
    r.toNat == 0x09 || r.toNat == 0x0A || r.toNat == 0x0B || r.toNat == 0x0C ||
      r.toNat == 0x0D || r.toNat == 0x20 || r.toNat == 0x85 || r.toNat == 0xA0
  else whiteSpaceTable r

/-- Letters of Latin-1 (the `pLmask` bits of `unicode.properties`). -/
def latin1Letter (r : Char) : Bool :=
  (0x41 ≤ r.toNat && r.toNat ≤ 0x5A) || (0x61 ≤ r.toNat && r.toNat ≤ 0x7A) ||
    r.toNat == 0xAA || r.toNat == 0xB5 || r.toNat == 0xBA ||
    (0xC0 ≤ r.toNat && r.toNat ≤ 0xD6) || (0xD8 ≤ r.toNat && r.toNat ≤ 0xF6) ||
    (0xF8 ≤ r.toNat && r.toNat ≤ 0xFF)

/-- Go `unicode.IsLetter`. -/
def unicodeIsLetter (T : UnicodeTables) (r : Char) : Bool :=
  if r.toNat ≤ MaxLatin1 then latin1Letter r else T.Letter r

/-- Go `unicode.IsDigit`. -/
def unicodeIsDigit (T : UnicodeTables) (r : Char) : Bool :=
  if r.toNat ≤ MaxLatin1 then (0x30 ≤ r.toNat && r.toNat ≤ 0x39) else T.Digit r

/-! ## Character source -/

structure RuneReader where
  Contents : List Char
  ContentLen : Int
  RunePos : Int
  LineNo : Int
  deriving DecidableEq, Repr

def RuneReader.ReadRune (self : RuneReader) : Outcome RuneReader Char :=
  if self.RunePos < self.ContentLen then
    match goIndex self.Contents self.RunePos with
    | none => .panic
    | some toret =>
      let self1 := if toret = '\n' then { self with LineNo := self.LineNo + 1 } else self
      .ok toret { self1 with RunePos := self1.RunePos + 1 }
  else .error .EOF self

def RuneReader.UnreadRune (self : RuneReader) : Outcome RuneReader Unit :=
  if self.RunePos = 0 then .error .ErrInvalidUnreadRune self
  else
    let self1 := { self with RunePos := self.RunePos - 1 }
    match goIndex self1.Contents self1.RunePos with
    | none => .panic
    | some c =>
      if c = '\n' then .ok () { self1 with LineNo := self1.LineNo - 1 } else .ok () self1

/-- The reader over the runes of the whole input (`bytes.Runes` of what
`ioutil.ReadAll` returned). -/
def NewRuneReader (contents : List Char) : RuneReader :=
  { Contents := contents, ContentLen := contents.length, RunePos := 0, LineNo := 1 }

def isIdent (T : UnicodeTables) (r : Char) : Bool :=
  if unicodeIsLetter T r then true
  else if unicodeIsDigit T r then true
  else if r = '_' then true
  else false

/-! ## Lexer -/

structure ScanUnit where
  BraceLevel : Int
  LineNo : Int
  Value : Str
  deriving DecidableEq, Repr

/-- What `BuildScanUnit` reads and writes: the reader and the package-level
variable `braceLev`. -/
structure LexState where
  rr : RuneReader
  braceLev : Int
  deriving DecidableEq, Repr

/-- The closure `setReturn` of `BuildScanUnit`. -/
def setReturn (st : LexState) (buf : Str) : ScanUnit :=
  { BraceLevel := st.braceLev, LineNo := st.rr.LineNo, Value := buf }

/-- The `for` loop of the `unicode.IsSpace(ch)` case, followed by the final
`return setReturn(), nil` once the loop breaks. -/
def spaceLoop : Nat → LexState → Str → Outcome LexState ScanUnit
  | 0, _, _ => .outOfFuel
  | fuel + 1, st, buf =>
    match st.rr.ReadRune with
    | .error e rr1 =>
      if e = .EOF then .ok (setReturn { st with rr := rr1 } buf) { st with rr := rr1 }
      else .error e { st with rr := rr1 }
    | .panic => .panic
    | .outOfFuel => .outOfFuel
    | .ok ch rr1 =>
      if !unicodeIsSpace ch then
        match rr1.UnreadRune with
        | .ok _ rr2 => .ok (setReturn { st with rr := rr2 } buf) { st with rr := rr2 }
        | .error _ rr2 => .ok (setReturn { st with rr := rr2 } buf) { st with rr := rr2 }
        | .panic => .panic
        | .outOfFuel => .outOfFuel
      else spaceLoop fuel { st with rr := rr1 } (buf ++ [ch])

/-- The `for` loop of the `isIdent(ch)` case, followed by the final
`return setReturn(), nil` once the loop breaks. -/
def identLoop (T : UnicodeTables) : Nat → LexState → Str → Outcome LexState ScanUnit
  | 0, _, _ => .outOfFuel
  | fuel + 1, st, buf =>
    match st.rr.ReadRune with
    | .error e rr1 =>
      if e = .EOF then .ok (setReturn { st with rr := rr1 } buf) { st with rr := rr1 }
      else .error e { st with rr := rr1 }
    | .panic => .panic
    | .outOfFuel => .outOfFuel
    | .ok ch rr1 =>
      if !isIdent T ch then
        match rr1.UnreadRune with
        | .ok _ rr2 => .ok (setReturn { st with rr := rr2 } buf) { st with rr := rr2 }
        | .error _ rr2 => .ok (setReturn { st with rr := rr2 } buf) { st with rr := rr2 }
        | .panic => .panic
        | .outOfFuel => .outOfFuel
      else identLoop T fuel { st with rr := rr1 } (buf ++ [ch])

/-- Iteration budget of one grouping loop: one pass per rune still unread, and
the pass that meets the end of the input. -/
def loopFuel (rr : RuneReader) : Nat := (rr.ContentLen - rr.RunePos).toNat + 1

def BuildScanUnit (T : UnicodeTables) (st : LexState) : Outcome LexState ScanUnit :=
  match st.rr.ReadRune with
  | .error e rr1 => .error e { st with rr := rr1 }
  | .panic => .panic
  | .outOfFuel => .outOfFuel
  | .ok ch rr1 =>
    let st1 : LexState := { st with rr := rr1 }
    let buf : Str := [ch]
    if unicodeIsSpace ch then spaceLoop (loopFuel rr1) st1 buf
    else if isIdent T ch then identLoop T (loopFuel rr1) st1 buf
    else if ch = '<' then
      let st2 : LexState := { st1 with braceLev := st1.braceLev + 1 }
      .ok (setReturn st2 buf) st2
    else if ch = '>' then
      let st2 : LexState := { st1 with braceLev := st1.braceLev - 1 }
      .ok (setReturn st2 buf) st2
    else .ok (setReturn st1 buf) st1

/-! ## Unit cursor -/

structure SvcScanner where
  BraceLevel : Int
  Buf : List ScanUnit
  UnitPos : Int
  lineNo : Int
  deriving DecidableEq, Repr

/-- The `for` loop of `NewSvcScanner`: append units until `BuildScanUnit`
returns an error. -/
def scanLoop (T : UnicodeTables) : Nat → LexState → List ScanUnit →
    Outcome LexState (List ScanUnit)
  | 0, _, _ => .outOfFuel
  | fuel + 1, st, b =>
    match BuildScanUnit T st with
    | .ok unit st1 => scanLoop T fuel st1 (b ++ [unit])
    | .error _ st1 => .ok b st1
    | .panic => .panic
    | .outOfFuel => .outOfFuel

/-- Go `NewSvcScanner` on the runes `r` of the input.  The state threaded
through is the package-level `braceLev`, which the constructor does not reset. -/
def NewSvcScanner (T : UnicodeTables) (braceLev : Int) (r : List Char) :
    Outcome Int SvcScanner :=
  match scanLoop T (r.length + 1) { rr := NewRuneReader r, braceLev := braceLev } [] with
  | .ok b st => .ok { BraceLevel := 0, Buf := b, UnitPos := 0, lineNo := 0 } st.braceLev
  | .error e st => .error e st.braceLev
  | .panic => .panic
  | .outOfFuel => .outOfFuel

def SvcScanner.ReadUnit (self : SvcScanner) : Outcome SvcScanner Str :=
  if self.UnitPos < self.Buf.length then
    match goIndex self.Buf self.UnitPos with
    | none => .panic
    | some unit =>
      .ok unit.Value
        { self with BraceLevel := unit.BraceLevel, lineNo := unit.LineNo,
                    UnitPos := self.UnitPos + 1 }
  else .error .EOF self

def SvcScanner.UnreadUnit (self : SvcScanner) : Outcome SvcScanner Unit :=
  if self.UnitPos = 0 then .error .cannotUnread self
  else
    let self1 : SvcScanner :=
      if self.UnitPos = 1 then { self with UnitPos := 0, BraceLevel := 0, lineNo := 0 }
      else self
    let self2 : SvcScanner := { self1 with UnitPos := self1.UnitPos - 1 }
    match goIndex self2.Buf (self2.UnitPos - 1) with
    | none => .panic
    | some unit => .ok () { self2 with BraceLevel := unit.BraceLevel, lineNo := unit.LineNo }

def SvcScanner.GetLineNumber (self : SvcScanner) : Int := self.lineNo

def peak (scn : SvcScanner) : Outcome SvcScanner Str :=
  match scn.ReadUnit with
  | .error e s1 => .error e s1
  | .panic => .panic
  | .outOfFuel => .outOfFuel
  | .ok unit s1 =>
    match unit with
    | [] => .panic
    | u0 :: _ =>
      let str : Str :=
        if unicodeIsSpace u0 then (if unit.contains '\n' then ['\n'] else [' ']) else unit
      match s1.UnreadUnit with
      | .error e s2 => .error e s2
      | .panic => .panic
      | .outOfFuel => .outOfFuel
      | .ok _ s2 => .ok str s2

/-! ## Type tree -/

/-- Go `SchemaType`.  `Fields` is `none` for the nil map of a node built as
`&SchemaType{Typ: str}`; a non-nil map is the list of its entries, keys unique.
`FieldOrder` does not tell a nil slice from an empty one. -/
inductive SchemaType where
  | mk (Typ : Str) (Fields : Option (List (Str × SchemaType))) (FieldOrder : List Str)

instance : Inhabited SchemaType := ⟨.mk [] none []⟩

def SchemaType.Typ : SchemaType → Str
  | .mk typ _ _ => typ

def SchemaType.Fields : SchemaType → Option (List (Str × SchemaType))
  | .mk _ fields _ => fields

def SchemaType.FieldOrder : SchemaType → List Str
  | .mk _ _ order => order

mutual
/-- Equality of trees is decidable (Go `reflect.DeepEqual` on the model). -/
def SchemaType.decEq : (a b : SchemaType) → Decidable (a = b)
  | .mk t1 f1 o1, .mk t2 f2 o2 =>
    if ht : t1 = t2 then
      if ho : o1 = o2 then
        match decEqFields f1 f2 with
        | isTrue hf => isTrue (by rw [ht, ho, hf])
        | isFalse hf => isFalse (fun h => hf (by injection h))
      else isFalse (fun h => ho (by injection h))
    else isFalse (fun h => ht (by injection h))
/-- Equality of two `Fields` values is decidable. -/
def decEqFields : (a b : Option (List (Str × SchemaType))) → Decidable (a = b)
  | none, none => isTrue rfl
  | none, some _ => isFalse (fun h => by cases h)
  | some _, none => isFalse (fun h => by cases h)
  | some a, some b =>
    match decEqEntries a b with
    | isTrue h => isTrue (by rw [h])
    | isFalse h => isFalse (fun h1 => h (by injection h1))
/-- Equality of two lists of map entries is decidable. -/
def decEqEntries : (a b : List (Str × SchemaType)) → Decidable (a = b)
  | [], [] => isTrue rfl
  | [], _ :: _ => isFalse (fun h => by cases h)
  | _ :: _, [] => isFalse (fun h => by cases h)
  | (k1, v1) :: r1, (k2, v2) :: r2 =>
    if hk : k1 = k2 then
      match SchemaType.decEq v1 v2 with
      | isTrue hv =>
        match decEqEntries r1 r2 with
        | isTrue hr => isTrue (by rw [hk, hv, hr])
        | isFalse hr => isFalse (fun h => hr (by injection h))
      | isFalse hv => isFalse (fun h => hv (by injection h with h1 h2; injection h1))
    else isFalse (fun h => hk (by injection h with h1 h2; injection h1))
end

instance : DecidableEq SchemaType := SchemaType.decEq

/-- Go map read `m[key]`; `none` is the zero value returned for an absent key. -/
def mapGet {β : Type} : List (Str × β) → Str → Option β
  | [], _ => none
  | (k, v) :: rest, key => if k = key then some v else mapGet rest key

/-- Go map write `m[key] = v`: replaces the entry of `key`, or adds one. -/
def mapSet {β : Type} : List (Str × β) → Str → β → List (Str × β)
  | [], key, v => [(key, v)]
  | (k, w) :: rest, key, v =>
    if k = key then (key, v) :: rest else (k, w) :: mapSet rest key v

/-- Go `AddField`; `none` is the panic of a write to a nil map. -/
def SchemaType.AddField (st : SchemaType) (name : Str) (s : SchemaType) : Option SchemaType :=
  match st with
  | .mk typ (some m) order => some (.mk typ (some (mapSet m name s)) (order ++ [name]))
  | .mk _ none _ => none

/-- Go `strings.Join`. -/
def stringsJoin : List Str → Str → Str
  | [], _ => []
  | [a], _ => a
  | a :: b :: rest, sep => a ++ sep ++ stringsJoin (b :: rest) sep

/-- The `range st.FieldOrder` loop of `String`: `fn:Fields[fn].String()` for each
name, over the already rendered children; `none` when a name has no entry (a
method call through a nil pointer) or a child panicked. -/
def fieldStrs (rendered : List (Str × Option Str)) : List Str → Option (List Str)
  | [] => some []
  | fn :: rest =>
    match mapGet rendered fn with
    | some (some ft) =>
      match fieldStrs rendered rest with
      | some fields => some ((fn ++ [':'] ++ ft) :: fields)
      | none => none
    | _ => none

mutual
/-- Go `String`, the debug form; `none` is a nil-pointer panic. -/
def SchemaType.String : SchemaType → Option Str
  | .mk typ fields order =>
    match fields with
    | none => some typ
    | some [] => some typ
    | some (f :: fs) =>
      let rendered := stringEntries (f :: fs)
      if typ = "array".toList then
        match mapGet rendered [] with
        | some (some s) => some ("array<".toList ++ s ++ ">".toList)
        | _ => none
      else
        match fieldStrs rendered order with
        | some fields => some ("struct<".toList ++ stringsJoin fields ",".toList ++ ">".toList)
        | none => none
/-- The debug form of every entry of a map, entry by entry. -/
def stringEntries : List (Str × SchemaType) → List (Str × Option Str)
  | [] => []
  | (k, v) :: rest => (k, v.String) :: stringEntries rest
end

/-! ### `fmt.Sprintf` with a format and no operand -/

/-- Flag characters after a percent sign. -/
def skipFlags : Str → Str
  | [] => []
  | c :: rest =>
    if c = '#' ∨ c = '0' ∨ c = '+' ∨ c = '-' ∨ c = ' ' then skipFlags rest else c :: rest

/-- Go `fmt.parsenum` on the text up to its `end` bound: the number, whether
one was read, and the text left (nothing is left once the number is too large). -/
def parsenumAux : Str → Nat → Bool → Nat × Bool × Str
  | [], num, isnum => (num, isnum, [])
  | c :: rest, num, isnum =>
    if '0' ≤ c ∧ c ≤ '9' then
      if num > 1000000 then (0, false, [])
      else parsenumAux rest (num * 10 + (c.toNat - 48)) true
    else (num, isnum, c :: rest)

def parsenum (s : Str) : Nat × Bool × Str := parsenumAux s 0 false

/-- Go `fmt.parseArgNumber` on text that starts with an opening bracket:
whether an index was read, and how many runes it spans. -/
def parseArgNumber (format : Str) : Bool × Nat :=
  if format.length < 3 then (false, 1)
  else
    match (format.drop 1).indexOf? ']' with
    | none => (false, 1)
    | some j =>
      let inner := (format.drop 1).take j
      match parsenum inner with
      | (_, ok, rest) => if !ok || rest ≠ [] then (false, j + 2) else (true, j + 2)

/-- Go `(*pp).argNumber` when there is no operand: the text left, whether an
index was found, and whether `goodArgNum` stays set. -/
def argNumber (format : Str) : Str × Bool × Bool :=
  match format with
  | '[' :: _ =>
    match parseArgNumber format with
    | (ok, wid) => (format.drop wid, ok, false)
  | _ => (format, false, true)

/-- One verb of `doPrintf` with no operand, from the text after its percent
sign: what is written, and the text left. -/
def doVerb (format : Str) : Str × Str :=
  let r1 := skipFlags format
  match argNumber r1 with
  | (r2, afterIndex1, good1) =>
    let w : Str × Str × Bool × Bool :=
      match r2 with
      | '*' :: r3 => ("%!(BADWIDTH)".toList, r3, false, good1)
      | _ =>
        match parsenum r2 with
        | (_, widPresent, r3) => ([], r3, afterIndex1, good1 && !(afterIndex1 && widPresent))
    match w with
    | (out1, r3, afterIndex2, good2) =>
      let p : Str × Str × Bool × Bool :=
        match r3 with
        | '.' :: r4 =>
          match argNumber r4 with
          | (r5, afterIndex3, good3) =>
            let good4 := good2 && !afterIndex2 && good3
            match r5 with
            | '*' :: r6 => ("%!(BADPREC)".toList, r6, false, good4)
            | _ =>
              match parsenum r5 with
              | (_, _, r6) => ([], r6, afterIndex3, good4)
        | _ => ([], r3, afterIndex2, good2)
      match p with
      | (out2, r6, afterIndex4, good5) =>
        let a : Str × Bool :=
          if !afterIndex4 then
            match argNumber r6 with
            | (r7, _, good6) => (r7, good5 && good6)
          else (r6, good5)
        match a with
        | (r7, good7) =>
          match r7 with
          | [] => (out1 ++ out2 ++ "%!(NOVERB)".toList, [])
          | verb :: r8 =>
            if verb = '%' then (out1 ++ out2 ++ ['%'], r8)
            else if !good7 then (out1 ++ out2 ++ "%!".toList ++ [verb] ++ "(BADINDEX)".toList, r8)
            else (out1 ++ out2 ++ "%!".toList ++ [verb] ++ "(MISSING)".toList, r8)

/-- The format loop of `doPrintf` with no operand. -/
def doPrintf : Nat → Str → Str
  | 0, _ => []
  | _ + 1, [] => []
  | fuel + 1, c :: rest =>
    if c = '%' then
      match doVerb rest with
      | (out, rest1) => out ++ doPrintf fuel rest1
    else c :: doPrintf fuel rest

/-- Go `fmt.Sprintf(format)`, a call with a format and no operand. -/
def Sprintf0 (format : Str) : Str := doPrintf (format.length + 1) format

/-! ### JSON Schema form -/

/-- The map literal `TableTypeToJSONType`. -/
def TableTypeToJSONType : List (Str × Str) :=
  [ ("string".toList, "string".toList), ("int".toList, "number".toList),
    ("bigint".toList, "number".toList), ("double".toList, "number".toList),
    ("struct".toList, "object".toList), ("array".toList, "array".toList),
    ("boolean".toList, "boolean".toList) ]

/-- The `range st.Fields` loop of `Json` over the already rendered children, in
the order the map yields them; `none` when a child panicked. -/
def propertyStrs : List (Str × Option Str) → Option (List Str)
  | [] => some []
  | (fn, some field) :: rest =>
    match propertyStrs rest with
    | some properties => some (("\"".toList ++ fn ++ "\": ".toList ++ field) :: properties)
    | none => none
  | (_, none) :: _ => none

/-- An iteration order of Go maps.  The order in which `range` yields the
entries of a map is not specified and may differ from node to node: `order path l`
is the order in which the loop at the node reached from the root through the
keys `path` yields the entries `l`, some permutation of them. -/
structure MapOrder where
  order : List Str → List (Str × Option Str) → List (Str × Option Str)
  perm : ∀ path l, (order path l).Perm l

/-- The iteration that happens to follow insertion order. -/
def MapOrder.insertion : MapOrder := ⟨fun _ l => l, fun _ _ => List.Perm.refl _⟩

/-- The iteration that happens to run against insertion order. -/
def MapOrder.reversed : MapOrder := ⟨fun _ l => l.reverse, fun _ l => List.reverse_perm l⟩

mutual
/-- Go `Json` of the node reached through the keys `path`, under the map
iteration order `ord`.  `none` is a nil-pointer panic. -/
def SchemaType.Json (ord : MapOrder) (path : List Str) : SchemaType → Option Str
  | .mk typ fields _ =>
    match fields with
    | none => some ("\x7b\"type\": \"".toList ++ (mapGet TableTypeToJSONType typ).getD [] ++
        "\"\x7d".toList)
    | some [] => some ("\x7b\"type\": \"".toList ++ (mapGet TableTypeToJSONType typ).getD [] ++
        "\"\x7d".toList)
    | some (f :: fs) =>
      let rendered := jsonEntries ord path (f :: fs)
      if typ = "array".toList then
        match mapGet rendered [] with
        | some (some items) =>
          some ("\x7b\"type\": \"array\", \"items\": \x7b\"type\": ".toList ++ items ++
            "\x7d\x7d".toList)
        | _ => none
      else if typ = "struct".toList then
        match propertyStrs (ord.order path rendered) with
        | some properties =>
          some ("\x7b\"type\": \"object\", \"properties\": \x7b".toList ++
            Sprintf0 (stringsJoin properties ", ".toList) ++ "\x7d\x7d".toList)
        | none => none
      else some "ERROR".toList
/-- The JSON form of every entry of the map of the node reached through `path`,
entry by entry. -/
def jsonEntries (ord : MapOrder) (path : List Str) :
    List (Str × SchemaType) → List (Str × Option Str)
  | [] => []
  | (k, v) :: rest => (k, v.Json ord (path ++ [k])) :: jsonEntries ord path rest
end

/-! ## Parser -/

/-- The map `ValidTypes`. -/
def ValidTypes : List (Str × Int) :=
  [ ("int".toList, 1), ("bigint".toList, 1), ("struct".toList, 1), ("string".toList, 1),
    ("double".toList, 1), ("array".toList, 1), ("boolean".toList, 1) ]

/-- Sequencing of two statements: the statements `f` after a call run when the
call returned a value; an error return of the call is returned at once (`if err
!= nil { return nil, err }`), and a panic ends the run. -/
def Outcome.andThen {σ α β : Type} (o : Outcome σ α) (f : α → σ → Outcome σ β) : Outcome σ β :=
  match o with
  | .ok a s => f a s
  | .error e s => .error e s
  | .panic => .panic
  | .outOfFuel => .outOfFuel

/-- Go `checkPanic` on the outcome of a call: `io.EOF` is handed back, any other
error panics. -/
def checkPanic {σ α : Type} (o : Outcome σ α) : Outcome σ α :=
  match o with
  | .error e s => if e = .EOF then .error e s else .panic
  | .ok a s => .ok a s
  | .panic => .panic
  | .outOfFuel => .outOfFuel

def VerifyExpectingStr (scn : SvcScanner) (expected context : Str) : Outcome SvcScanner Unit :=
  (checkPanic scn.ReadUnit).andThen fun rs s1 =>
    if rs ≠ expected then
      .error (.expected expected rs (s1.UnitPos - 1) s1.GetLineNumber context) s1
    else .ok () s1

def VerifyExpecting (scn : SvcScanner) (expected : Str) : Outcome SvcScanner Unit :=
  VerifyExpectingStr scn expected []

/-- The call `outStruct.AddField(name, ftyp)` inside the parser. -/
def addFieldAt (outStruct : SchemaType) (name : Str) (ftyp : SchemaType) (s : SvcScanner) :
    Outcome SvcScanner SchemaType :=
  match outStruct.AddField name ftyp with
  | some out1 => .ok out1 s
  | none => .panic

/-- Lines 389–412 of `parseStruct`: the `if str == "array"` chain that parses the
type of a field and adds the field to `outStruct`.  `parseArrayCall` and
`parseStructCall` are the calls `parseArray(scn)` and `parseStruct(scn)`. -/
def fieldStep (parseArrayCall parseStructCall : SvcScanner → Outcome SvcScanner SchemaType)
    (scn : SvcScanner) (outStruct : SchemaType) (fieldname str : Str) :
    Outcome SvcScanner SchemaType :=
  if str = "array".toList then
    (parseArrayCall scn).andThen fun ftyp s => addFieldAt outStruct fieldname ftyp s
  else if str = "struct".toList then
    (parseStructCall scn).andThen fun ftyp s => addFieldAt outStruct fieldname ftyp s
  else if str = "struct".toList then .ok outStruct scn
  else
    (checkPanic scn.ReadUnit).andThen fun unit s =>
      if (mapGet ValidTypes unit).isNone then .error (.notApproved unit) s
      else addFieldAt outStruct fieldname (.mk unit none []) s

/-- Lines 413–427 of `parseStruct`: after a field, return the struct on `>`, or
read a comma and start the next pass of the loop (`nextPass`). -/
def afterStep (nextPass : SvcScanner → SchemaType → Outcome SvcScanner SchemaType)
    (scn : SvcScanner) (outStruct : SchemaType) (fieldname : Str) :
    Outcome SvcScanner SchemaType :=
  (checkPanic (peak scn)).andThen fun str s1 =>
    if str = ">".toList then
      (VerifyExpecting s1 ">".toList).andThen fun _ s2 => .ok outStruct s2
    else
      (VerifyExpectingStr s1 ",".toList
          (", when parsing struct after parsing field ".toList ++ fieldname)).andThen
        fun _ s2 => nextPass s2 outStruct

/-- Lines 450–468 of `parseArray`: the `if str == "array"` chain that parses the
element type and stores it under the empty key. -/
def elemStep (parseArrayCall parseStructCall : SvcScanner → Outcome SvcScanner SchemaType)
    (scn : SvcScanner) (outStruct : SchemaType) (str : Str) : Outcome SvcScanner SchemaType :=
  if str = "array".toList then
    (parseArrayCall scn).andThen fun ftyp s => addFieldAt outStruct [] ftyp s
  else if str = "struct".toList then
    (parseStructCall scn).andThen fun ftyp s => addFieldAt outStruct [] ftyp s
  else
    (addFieldAt outStruct [] (.mk str none []) scn).andThen fun out1 s =>
      (checkPanic s.ReadUnit).andThen fun _ s1 => .ok out1 s1

mutual
/-- Go `parseStruct`, with a bound on the depth of calls. -/
def parseStructFuel : Nat → SvcScanner → Outcome SvcScanner SchemaType
  | 0, _ => .outOfFuel
  | fuel + 1, scn =>
    (VerifyExpecting scn "struct".toList).andThen fun _ s1 =>
      (VerifyExpecting s1 "<".toList).andThen fun _ s2 =>
        structLoop fuel s2 (.mk "struct".toList (some []) [])
/-- The `for` loop of `parseStruct`: one pass reads one field into `outStruct`. -/
def structLoop : Nat → SvcScanner → SchemaType → Outcome SvcScanner SchemaType
  | 0, _, _ => .outOfFuel
  | fuel + 1, scn, outStruct =>
    (checkPanic scn.ReadUnit).andThen fun unit s1 =>
      (VerifyExpecting s1 ":".toList).andThen fun _ s2 =>
        (checkPanic (peak s2)).andThen fun str s3 =>
          (fieldStep (parseArrayFuel fuel) (parseStructFuel fuel) s3 outStruct unit str).andThen
            fun outStruct1 s4 => afterStep (structLoop fuel) s4 outStruct1 unit
/-- Go `parseArray`, with a bound on the depth of calls. -/
def parseArrayFuel : Nat → SvcScanner → Outcome SvcScanner SchemaType
  | 0, _ => .outOfFuel
  | fuel + 1, scn =>
    (VerifyExpecting scn "array".toList).andThen fun _ s1 =>
      (VerifyExpecting s1 "<".toList).andThen fun _ s2 =>
        (checkPanic (peak s2)).andThen fun str s3 =>
          (elemStep (parseArrayFuel fuel) (parseStructFuel fuel) s3
              (.mk "array".toList (some []) []) str).andThen fun out1 s4 =>
            (VerifyExpecting s4 ">".toList).andThen fun _ s5 => .ok out1 s5
end

/-- Go `parseStruct`.  Every nested call and every pass of the field loop
follows the read of a unit, so a depth of one more than the number of units in
the buffer is never used up. -/
def parseStruct (scn : SvcScanner) : Outcome SvcScanner SchemaType :=
  parseStructFuel (scn.Buf.length + 1) scn

/-- Go `parseArray`, bounded like `parseStruct`. -/
def parseArray (scn : SvcScanner) : Outcome SvcScanner SchemaType :=
  parseArrayFuel (scn.Buf.length + 1) scn

/-- The scanner `NewSvcScanner` builds over the input text, with every unit of the
text in its buffer; a scanner over no unit stands in where the model of the
constructor yields none (it always yields one). -/
def scannerOf (T : UnicodeTables) (braceLev : Int) (r : List Char) : SvcScanner :=
  match NewSvcScanner T braceLev r with
  | .ok scn _ => scn
  | _ => { BraceLevel := 0, Buf := [], UnitPos := 0, lineNo := 0 }

/-- What `main` does with its input before it prints: build the scanner over the
text, then `parseStruct`. -/
def parseText (T : UnicodeTables) (braceLev : Int) (r : List Char) :
    Outcome SvcScanner SchemaType :=
  match NewSvcScanner T braceLev r with
  | .ok scn _ => parseStruct scn
  | .error e _ => .error e { BraceLevel := 0, Buf := [], UnitPos := 0, lineNo := 0 }
  | .panic => .panic
  | .outOfFuel => .outOfFuel

/-- The value a call returned, if it returned one. -/
def Outcome.value? {σ α : Type} : Outcome σ α → Option α
  | .ok a _ => some a
  | _ => none

/-- The error a call returned, if it returned one. -/
def Outcome.error? {σ α : Type} : Outcome σ α → Option GoError
  | .error e _ => some e
  | _ => none

/-- The receiver state a call left behind, if it returned. -/
def Outcome.state? {σ α : Type} : Outcome σ α → Option σ
  | .ok _ s => some s
  | .error _ s => some s
  | _ => none

/-! ## Evaluations of the serializers -/

/-- The tree the parser returns for the text `struct<birthdays:array<int>>`. -/
def birthdaysTree : SchemaType :=
  .mk "struct".toList
    (some [("birthdays".toList, .mk "array".toList (some [([], .mk "int".toList none [])]) [[]])])
    ["birthdays".toList]

end GlueSchema


namespace GlueSchema

/-! ## The parser on the values of the units still unread

The parser looks at the buffer only through `ReadUnit` and `peak`, at and after
the cursor.  The functions below are the same decisions taken on the list of
the values of the units from the cursor on; `parseStructFuel_sim` and
`parseArrayFuel_sim` show that the parser computes them. -/

/-- Outcome of the parser on the values still unread: a tree and the values
left, an error return, a panic, or an exhausted call budget. -/
inductive TokRes where
  | ok (t : SchemaType) (rest : List Str)
  | fail
  | panic
  | outOfFuel
  deriving DecidableEq

/-- What `peak` returns for a unit with this value: white space is collapsed to
one space or one newline; `none` is the panic of `unit[0]` on an empty unit. -/
def peakView : Str → Option Str
  | [] => none
  | u0 :: us =>
    some (if unicodeIsSpace u0 then (if (u0 :: us).contains '\n' then ['\n'] else [' '])
      else u0 :: us)

/-- The type of a struct field, chosen on the peeked unit. -/
def tokFieldType (pArr pStruct : List Str → TokRes) (l : List Str) : TokRes :=
  match l with
  | [] => .fail
  | u :: rest =>
    match peakView u with
    | none => .panic
    | some str =>
      if str = "array".toList then pArr l
      else if str = "struct".toList then pStruct l
      else if (mapGet ValidTypes u).isNone then .fail
      else .ok (.mk u none []) rest

/-- The element type of an array, chosen on the peeked unit. -/
def tokElemType (pArr pStruct : List Str → TokRes) (l : List Str) : TokRes :=
  match l with
  | [] => .fail
  | u :: rest =>
    match peakView u with
    | none => .panic
    | some str =>
      if str = "array".toList then pArr l
      else if str = "struct".toList then pStruct l
      else .ok (.mk str none []) rest

/-- What follows a field: the closing `>` of the struct, or a comma and the
fields after it (`next`). -/
def tokAfterField (next : List Str → TokRes) (t : SchemaType) (l : List Str) : TokRes :=
  match l with
  | [] => .fail
  | u :: rest =>
    match peakView u with
    | none => .panic
    | some str =>
      if str = ">".toList then (if u = ">".toList then .ok t rest else .fail)
      else if u = ",".toList then next rest
      else .fail

/-- The values view of `VerifyExpecting`: the next value is `e`, and `k` goes on
with the values after it. -/
def expectTok (e : Str) (l : List Str) (k : List Str → TokRes) : TokRes :=
  match l with
  | [] => .fail
  | u :: rest => if u = e then k rest else .fail

/-- Sequencing on the values: `k` goes on after a tree was returned. -/
def TokRes.andThen (r : TokRes) (k : SchemaType → List Str → TokRes) : TokRes :=
  match r with
  | .ok t rest => k t rest
  | .fail => .fail
  | .panic => .panic
  | .outOfFuel => .outOfFuel

mutual
/-- The values view of `parseStructFuel`. -/
def tokStruct : Nat → List Str → TokRes
  | 0, _ => .outOfFuel
  | fuel + 1, l =>
    expectTok "struct".toList l fun l1 =>
      expectTok "<".toList l1 fun l2 => tokFields fuel l2 [] []
/-- The values view of `structLoop`, on the map and the name sequence of the
struct under construction. -/
def tokFields : Nat → List Str → List (Str × SchemaType) → List Str → TokRes
  | 0, _, _, _ => .outOfFuel
  | fuel + 1, l, m, order =>
    match l with
    | [] => .fail
    | name :: l1 =>
      expectTok ":".toList l1 fun l2 =>
        (tokFieldType (tokArray fuel) (tokStruct fuel) l2).andThen fun v l3 =>
          tokAfterField (fun l4 => tokFields fuel l4 (mapSet m name v) (order ++ [name]))
            (.mk "struct".toList (some (mapSet m name v)) (order ++ [name])) l3
/-- The values view of `parseArrayFuel`. -/
def tokArray : Nat → List Str → TokRes
  | 0, _ => .outOfFuel
  | fuel + 1, l =>
    expectTok "array".toList l fun l1 =>
      expectTok "<".toList l1 fun l2 =>
        (tokElemType (tokArray fuel) (tokStruct fuel) l2).andThen fun e l3 =>
          expectTok ">".toList l3 fun l4 =>
            .ok (.mk "array".toList (some [([], e)]) [[]]) l4
end

/-- The values of the units of a buffer from position `p` on. -/
def valuesFrom (B : List ScanUnit) (p : Nat) : List Str := (B.drop p).map (·.Value)

/-- A scanner over the buffer `B` with its cursor at unit `p`, at most one past
the last unit. -/
def AtPos (B : List ScanUnit) (p : Nat) (s : SvcScanner) : Prop :=
  s.Buf = B ∧ s.UnitPos = (p : Int) ∧ p ≤ B.length

/-- The parser's outcome `o` on the buffer `B` from unit `p` is the outcome `r`
on the values: the same tree with the cursor where the values left begin, an
error for a failure, the same panic, the same exhausted budget. -/
def SimRes (B : List ScanUnit) (p : Nat) (o : Outcome SvcScanner SchemaType) (r : TokRes) : Prop :=
  match r with
  | .ok t rest => ∃ q s, o = .ok t s ∧ AtPos B q s ∧ p ≤ q ∧ valuesFrom B q = rest
  | .fail => ∃ e s, o = .error e s
  | .panic => o = .panic
  | .outOfFuel => o = .outOfFuel

/-- The outcome on the values with `f` applied to the tree. -/
def TokRes.map (f : SchemaType → SchemaType) : TokRes → TokRes
  | .ok t rest => .ok (f t) rest
  | .fail => .fail
  | .panic => .panic
  | .outOfFuel => .outOfFuel

/-- The outcome on the values when the values `x` follow the ones given. -/
def TokRes.extend (x : List Str) : TokRes → TokRes
  | .ok t rest => .ok t (rest ++ x)
  | .fail => .fail
  | .panic => .panic
  | .outOfFuel => .outOfFuel

/-- A function of the values `k` keeps its outcome in `k1` when more values
follow: a tree or a panic stay what they are whatever follows, a failure stays
a failure on the same values, and nothing is said of an exhausted budget. -/
def Ext (k k1 : List Str → TokRes) : Prop :=
  ∀ l x, k l ≠ .outOfFuel → (k l = .fail → x = []) → k1 (l ++ x) = (k l).extend x

/-- A function of the values `k` returns no more values than it was given, and
does not exhaust its budget on fewer than `n` values. -/
def Prog (k : List Str → TokRes) (n : Nat) : Prop :=
  ∀ l, (∀ t rest, k l = .ok t rest → rest.length ≤ l.length) ∧
    (l.length < n → k l ≠ .outOfFuel)

/-! ## What the parser accepts

`Der k ts t`: the values `ts` are read as the tree `t`.  The kind `k` tells
which part of the grammar was read: the type of a struct field, the element
type of an array, a whole `array<...>` or `struct<...>`, or a struct still
being read, before a field name (`opened`) or after a field (`fielded`). -/

/-- The primitive type names a struct field may have: the keys of `ValidTypes`
other than the two keywords. -/
def approvedTypes : List Str :=
  ["int".toList, "bigint".toList, "double".toList, "string".toList, "boolean".toList]

/-- The parts of the grammar. -/
inductive Kind where
  | field
  | elem
  | closed
  | opened
  | fielded
  deriving DecidableEq

/-- The values `ts`, read as the part `k` of the grammar, give the tree `t`. -/
inductive Der : Kind → List Str → SchemaType → Prop where
  | fieldLeaf (u : Str) (h : u ∈ approvedTypes) : Der .field [u] (.mk u none [])
  | fieldNode {ts : List Str} {t : SchemaType} (h : Der .closed ts t) : Der .field ts t
  | elemLeaf (u str : Str) (h : peakView u = some str) (h1 : str ≠ "array".toList)
      (h2 : str ≠ "struct".toList) : Der .elem [u] (.mk str none [])
  | elemNode {ts : List Str} {t : SchemaType} (h : Der .closed ts t) : Der .elem ts t
  | array {ts : List Str} {e : SchemaType} (h : Der .elem ts e) :
      Der .closed ("array".toList :: "<".toList :: ts ++ [">".toList])
        (.mk "array".toList (some [([], e)]) [[]])
  | structOpen : Der .opened ["struct".toList, "<".toList] (.mk "struct".toList (some []) [])
  | addField {ts0 ts : List Str} {m : List (Str × SchemaType)} {order : List Str}
      {v : SchemaType} (name : Str) (h0 : Der .opened ts0 (.mk "struct".toList (some m) order))
      (hv : Der .field ts v) :
      Der .fielded (ts0 ++ name :: ":".toList :: ts)
        (.mk "struct".toList (some (mapSet m name v)) (order ++ [name]))
  | comma {ts : List Str} {t : SchemaType} (h : Der .fielded ts t) :
      Der .opened (ts ++ [",".toList]) t
  | close {ts : List Str} {t : SchemaType} (h : Der .fielded ts t) :
      Der .closed (ts ++ [">".toList]) t

mutual
/-- The property `P` holds at every node of the tree. -/
def SchemaType.Forall (P : SchemaType → Prop) : SchemaType → Prop
  | .mk typ fields order =>
    P (.mk typ fields order) ∧
      match fields with
      | none => True
      | some m => forallEntries P m
/-- The property `P` holds at every node of every tree of the entries. -/
def forallEntries (P : SchemaType → Prop) : List (Str × SchemaType) → Prop
  | [] => True
  | (_, v) :: rest => v.Forall P ∧ forallEntries P rest
end

/-- A childless node: `Fields` is nil or empty. -/
def SchemaType.isLeaf (t : SchemaType) : Prop := t.Fields = none ∨ t.Fields = some []

/-- The entries of the map of a node, none for a nil map. -/
def SchemaType.entries (t : SchemaType) : List (Str × SchemaType) := t.Fields.getD []

/-- The keys of the map of a node. -/
def SchemaType.keys (t : SchemaType) : List Str := t.entries.map Prod.fst

/-- Node property of C5: the childless fields of a struct have approved names. -/
def StructLeavesApproved (node : SchemaType) : Prop :=
  node.Typ = "struct".toList → ∀ p ∈ node.entries, p.2.isLeaf → p.2.Typ ∈ approvedTypes

/-- What a derivation of each kind says of its tree, for C5. -/
def Inv5 : Kind → SchemaType → Prop
  | .field, v => (v.isLeaf → v.Typ ∈ approvedTypes) ∧ v.Forall StructLeavesApproved
  | .elem, e => e.Forall StructLeavesApproved
  | .closed, t => ¬ t.isLeaf ∧ t.Forall StructLeavesApproved
  | .opened, t => t.Forall StructLeavesApproved
  | .fielded, t => ¬ t.isLeaf ∧ t.Forall StructLeavesApproved

/-- Node property of C8 as the code has it: the keys of a struct are distinct,
they are the names that occur in `FieldOrder`, and `FieldOrder` is free of
duplicates exactly when it is as long as the map has keys. -/
def KeysAreTheNames (node : SchemaType) : Prop :=
  node.Typ = "struct".toList →
    node.keys.Nodup ∧ (∀ n, n ∈ node.keys ↔ n ∈ node.FieldOrder) ∧
      (node.FieldOrder.Nodup ↔ node.FieldOrder.length = node.keys.length)

/-- What a derivation of each kind says of its tree, for C8: the property at
every node (at the root too, for a struct still being read). -/
def Inv8 : Kind → SchemaType → Prop
  | _, t => t.Forall KeysAreTheNames

/-- Node property of C8 as the claim has it. -/
def UniqueFieldNames (node : SchemaType) : Prop :=
  node.Typ = "struct".toList →
    node.FieldOrder.Nodup ∧ node.FieldOrder.length = node.keys.length

end GlueSchema


namespace GlueSchema

/-! ## The lexer on the text still unread

`BuildScanUnit` reads the text through the reader, one rune at a time, and
steps back over the rune that ends a run.  The functions below give the same
units on the list of the runes still unread; `newSvcScanner_eq` shows that
`NewSvcScanner` computes them. -/

/-- The unit that begins with the rune `c`, before the text `cs`, and the text
after the unit. -/
def nextUnit (T : UnicodeTables) (c : Char) (cs : List Char) : Str × List Char :=
  if unicodeIsSpace c then (c :: cs.takeWhile unicodeIsSpace, cs.dropWhile unicodeIsSpace)
  else if isIdent T c then (c :: cs.takeWhile (isIdent T), cs.dropWhile (isIdent T))
  else ([c], cs)

/-- What a unit adds to `braceLev`. -/
def unitDelta (u : Str) : Int :=
  if u = "<".toList then 1 else if u = ">".toList then -1 else 0

/-- The number of newlines in a text. -/
def newlines (u : Str) : Int := (u.count '\n' : Nat)

/-- The units of a text, lexed with `braceLev` at `braceLev` and the line
counter at `line`. -/
def lexUnits (T : UnicodeTables) (braceLev line : Int) : List Char → List ScanUnit
  | [] => []
  | c :: cs =>
    { BraceLevel := braceLev + unitDelta (nextUnit T c cs).1,
      LineNo := line + newlines (nextUnit T c cs).1,
      Value := (nextUnit T c cs).1 } ::
      lexUnits T (braceLev + unitDelta (nextUnit T c cs).1)
        (line + newlines (nextUnit T c cs).1) (nextUnit T c cs).2
termination_by l => l.length
decreasing_by
  simp only [List.length_cons]
  unfold nextUnit
  split
  · exact Nat.lt_succ_of_le (List.dropWhile_sublist _).length_le
  · split
    · exact Nat.lt_succ_of_le (List.dropWhile_sublist _).length_le
    · exact Nat.lt_succ_self _

/-- The values of the units of a text. -/
def lexList (T : UnicodeTables) : List Char → List Str
  | [] => []
  | c :: cs => (nextUnit T c cs).1 :: lexList T (nextUnit T c cs).2
termination_by l => l.length
decreasing_by
  simp only [List.length_cons]
  unfold nextUnit
  split
  · exact Nat.lt_succ_of_le (List.dropWhile_sublist _).length_le
  · split
    · exact Nat.lt_succ_of_le (List.dropWhile_sublist _).length_le
    · exact Nat.lt_succ_self _

/-- The value of `braceLev` after a text was lexed from `braceLev`. -/
def braceAfter (T : UnicodeTables) (braceLev : Int) (r : List Char) : Int :=
  braceLev + ((lexList T r).map unitDelta).sum

/-- The reader that has read the runes `pre` of the text `pre ++ post`. -/
def readerAt (pre post : List Char) : RuneReader :=
  { Contents := pre ++ post, ContentLen := ((pre ++ post).length : Nat), RunePos := (pre.length : Nat),
    LineNo := 1 + newlines pre }

/-- A run of white space. -/
def IsSpaceRun (u : Str) : Prop := u ≠ [] ∧ ∀ c ∈ u, unicodeIsSpace c = true

/-- A run of identifier runes that does not begin with white space. -/
def IsIdentRun (T : UnicodeTables) (u : Str) : Prop :=
  (∃ c cs, u = c :: cs ∧ unicodeIsSpace c = false) ∧ ∀ c ∈ u, isIdent T c = true

/-- A single rune that is neither white space nor an identifier rune. -/
def IsSingle (T : UnicodeTables) (u : Str) : Prop :=
  ∃ c, u = [c] ∧ unicodeIsSpace c = false ∧ isIdent T c = false

/-- The three shapes of a lexical unit. -/
def UnitShape (T : UnicodeTables) (u : Str) : Prop :=
  IsSpaceRun u ∨ IsIdentRun T u ∨ IsSingle T u

/-- A sequence of values in which, of every two neighbours, one is a single
rune that is neither white space nor an identifier rune. -/
def Separated (T : UnicodeTables) (ts : List Str) : Prop :=
  List.Chain' (fun a b => IsSingle T a ∨ IsSingle T b) ts

/-- The text after a unit does not continue the unit. -/
def StopsRun (T : UnicodeTables) (u : Str) (rest : List Char) : Prop :=
  IsSingle T u ∨ ∀ d ∈ rest.head?, unicodeIsSpace d = false ∧ isIdent T d = false

/-! ## The units of the debug form -/

/-- The units `name : type` of the fields of a struct, separated by commas,
over the units of the types. -/
def fieldToks (rendered : List (Str × List Str)) : List Str → List Str
  | [] => []
  | [n] => n :: ":".toList :: (mapGet rendered n).getD []
  | n :: n2 :: rest =>
    n :: ":".toList :: (mapGet rendered n).getD [] ++
      ",".toList :: fieldToks rendered (n2 :: rest)

mutual
/-- The units of the debug form of a tree, as `String` writes it. -/
def SchemaType.toks : SchemaType → List Str
  | .mk typ fields order =>
    match fields with
    | none => [typ]
    | some [] => [typ]
    | some (f :: fs) =>
      if typ = "array".toList then
        "array".toList :: "<".toList :: (mapGet (toksEntries (f :: fs)) []).getD [] ++
          [">".toList]
      else
        "struct".toList :: "<".toList :: fieldToks (toksEntries (f :: fs)) order ++
          [">".toList]
/-- The units of the debug form of every entry of a map. -/
def toksEntries : List (Str × SchemaType) → List (Str × List Str)
  | [] => []
  | (k, v) :: rest => (k, v.toks) :: toksEntries rest
end

/-- The keys of the map that `AddField` builds from a sequence of names: each
name once, in the order of first occurrence. -/
def firstSeen (names : List Str) : List Str :=
  names.foldl (fun acc n => if n ∈ acc then acc else acc ++ [n]) []

/-- The map that `AddField` builds when the fields `names` are added in turn,
each with the tree that `m` holds for it. -/
def rebuild (m : List (Str × SchemaType)) (names : List Str) : List (Str × SchemaType) :=
  names.foldl (fun acc n => mapSet acc n ((mapGet m n).getD default)) []

/-- What the values view does on the values of a derivation, once the call
budget is large enough. -/
def Compl : Kind → List Str → SchemaType → Prop
  | .field, ts, v => ∃ F, ∀ fuel, F ≤ fuel → ∀ rest,
      tokFieldType (tokArray fuel) (tokStruct fuel) (ts ++ rest) = .ok v rest
  | .elem, ts, e => ∃ F, ∀ fuel, F ≤ fuel → ∀ rest,
      tokElemType (tokArray fuel) (tokStruct fuel) (ts ++ rest) = .ok e rest
  | .closed, ts, t =>
      (∃ ts1, ts = "array".toList :: ts1 ∧ ∃ F, ∀ fuel, F ≤ fuel → ∀ rest,
        tokArray fuel (ts ++ rest) = .ok t rest) ∨
      (∃ ts1, ts = "struct".toList :: ts1 ∧ ∃ F, ∀ fuel, F ≤ fuel → ∀ rest,
        tokStruct fuel (ts ++ rest) = .ok t rest)
  | .opened, ts, t => (∃ ts1, ts = "struct".toList :: ts1) ∧
      ∃ F k, ∀ fuel, F ≤ fuel → ∀ l,
        tokStruct (fuel + k) (ts ++ l) = tokFields fuel l t.entries t.FieldOrder
  | .fielded, ts, t => (∃ ts1, ts = "struct".toList :: ts1) ∧
      ∃ F k, ∀ fuel, F ≤ fuel → ∀ l,
        tokStruct (fuel + k) (ts ++ l) =
          tokAfterField (fun l4 => tokFields fuel l4 t.entries t.FieldOrder) t l

/-- Values that lex back to themselves when written one after the other. -/
def Good (T : UnicodeTables) (ts : List Str) : Prop :=
  (∀ u ∈ ts, UnitShape T u) ∧ Separated T ts

/-- The round trip of one tree, read as the part `k` of the grammar: the units
of its debug form are read as the tree, they are what `String` writes, and
they lex back to themselves. -/
def RoundTrips (T : UnicodeTables) (k : Kind) (v : SchemaType) : Prop :=
  Der k v.toks v ∧ v.String = some v.toks.flatten ∧ Good T v.toks

/-- The round trip of the fields of a struct under construction: the names are
units, the keys are the names in the order of first occurrence, and every tree
in the map makes the round trip. -/
def FieldsRoundTrip (T : UnicodeTables) (t : SchemaType) : Prop :=
  t.Typ = "struct".toList ∧ t.Fields = some t.entries ∧
    (∀ n ∈ t.FieldOrder, UnitShape T n) ∧ t.keys = firstSeen t.FieldOrder ∧
    ∀ p ∈ t.entries, RoundTrips T .field p.2

/-- What a derivation of each kind says of its tree, for the round trip. -/
def RT (T : UnicodeTables) : Kind → SchemaType → Prop
  | .field, v => RoundTrips T .field v
  | .elem, v => RoundTrips T .elem v
  | .closed, v => RoundTrips T .closed v
  | .opened, t => FieldsRoundTrip T t
  | .fielded, t => FieldsRoundTrip T t ∧ t.FieldOrder ≠ []

end GlueSchema


namespace GlueSchema

/-! ## Test inputs -/

/-- The buffer `NewSvcScanner` builds for the text `struct<x:int>`. -/
def xIntScanner : SvcScanner :=
  ⟨0, [⟨0, 1, "struct".toList⟩, ⟨1, 1, "<".toList⟩, ⟨1, 1, "x".toList⟩, ⟨1, 1, ":".toList⟩,
    ⟨1, 1, "int".toList⟩, ⟨0, 1, ">".toList⟩], 0, 0⟩

/-- The tree of `struct<x:int>`. -/
def xIntTree : SchemaType :=
  .mk "struct".toList (some [("x".toList, .mk "int".toList none [])]) ["x".toList]

/-- The buffer `NewSvcScanner` builds for the text `struct<a:int,a:string>`. -/
def dupScanner : SvcScanner :=
  ⟨0, [⟨0, 1, "struct".toList⟩, ⟨1, 1, "<".toList⟩, ⟨1, 1, "a".toList⟩, ⟨1, 1, ":".toList⟩,
    ⟨1, 1, "int".toList⟩, ⟨1, 1, ",".toList⟩, ⟨1, 1, "a".toList⟩, ⟨1, 1, ":".toList⟩,
    ⟨1, 1, "string".toList⟩, ⟨0, 1, ">".toList⟩], 0, 0⟩

/-- The tree of `struct<a:int,a:string>`: one key, two names. -/
def dupTree : SchemaType :=
  .mk "struct".toList (some [("a".toList, .mk "string".toList none [])])
    ["a".toList, "a".toList]

/-- The buffer `NewSvcScanner` builds for the text `struct<a:int,b:int>`. -/
def abScanner : SvcScanner :=
  ⟨0, [⟨0, 1, "struct".toList⟩, ⟨1, 1, "<".toList⟩, ⟨1, 1, "a".toList⟩, ⟨1, 1, ":".toList⟩,
    ⟨1, 1, "int".toList⟩, ⟨1, 1, ",".toList⟩, ⟨1, 1, "b".toList⟩, ⟨1, 1, ":".toList⟩,
    ⟨1, 1, "int".toList⟩, ⟨0, 1, ">".toList⟩], 0, 0⟩

/-- The tree of `struct<a:int,b:int>`. -/
def abTree : SchemaType :=
  .mk "struct".toList
    (some [("a".toList, .mk "int".toList none []), ("b".toList, .mk "int".toList none [])])
    ["a".toList, "b".toList]

/-- The buffer `NewSvcScanner` builds for the text `struct<x:array<foo>>`. -/
def fooScanner : SvcScanner :=
  ⟨0, [⟨0, 1, "struct".toList⟩, ⟨1, 1, "<".toList⟩, ⟨1, 1, "x".toList⟩, ⟨1, 1, ":".toList⟩,
    ⟨1, 1, "array".toList⟩, ⟨2, 1, "<".toList⟩, ⟨2, 1, "foo".toList⟩, ⟨1, 1, ">".toList⟩,
    ⟨0, 1, ">".toList⟩], 0, 0⟩

/-- The tree of `struct<x:array<foo>>`. -/
def fooTree : SchemaType :=
  .mk "struct".toList
    (some [("x".toList, .mk "array".toList (some [([], .mk "foo".toList none [])]) [[]])])
    ["x".toList]

/-- The buffer `NewSvcScanner` builds for the text `struct<created_time:bigint>`. -/
def createdScanner : SvcScanner :=
  ⟨0, [⟨0, 1, "struct".toList⟩, ⟨1, 1, "<".toList⟩, ⟨1, 1, "created_time".toList⟩,
    ⟨1, 1, ":".toList⟩, ⟨1, 1, "bigint".toList⟩, ⟨0, 1, ">".toList⟩], 0, 0⟩

/-- The tree of `struct<created_time:bigint>`. -/
def createdTree : SchemaType :=
  .mk "struct".toList (some [("created_time".toList, .mk "bigint".toList none [])])
    ["created_time".toList]

/-- The buffer `NewSvcScanner` builds for the second text of the test,
`struct<likes:array<struct<name:string,place:string,favorite:boolean>>>`. -/
def likesScanner : SvcScanner :=
  ⟨0, [⟨0, 1, "struct".toList⟩, ⟨1, 1, "<".toList⟩, ⟨1, 1, "likes".toList⟩, ⟨1, 1, ":".toList⟩,
    ⟨1, 1, "array".toList⟩, ⟨2, 1, "<".toList⟩, ⟨2, 1, "struct".toList⟩, ⟨3, 1, "<".toList⟩,
    ⟨3, 1, "name".toList⟩, ⟨3, 1, ":".toList⟩, ⟨3, 1, "string".toList⟩, ⟨3, 1, ",".toList⟩,
    ⟨3, 1, "place".toList⟩, ⟨3, 1, ":".toList⟩, ⟨3, 1, "string".toList⟩, ⟨3, 1, ",".toList⟩,
    ⟨3, 1, "favorite".toList⟩, ⟨3, 1, ":".toList⟩, ⟨3, 1, "boolean".toList⟩,
    ⟨2, 1, ">".toList⟩, ⟨1, 1, ">".toList⟩, ⟨0, 1, ">".toList⟩], 0, 0⟩

/-- The tree the test expects for the second text. -/
def likesTree : SchemaType :=
  .mk "struct".toList
    (some [("likes".toList, .mk "array".toList
      (some [([], .mk "struct".toList
        (some [("name".toList, .mk "string".toList none []),
          ("place".toList, .mk "string".toList none []),
          ("favorite".toList, .mk "boolean".toList none [])])
        ["name".toList, "place".toList, "favorite".toList])])
      [[]])])
    ["likes".toList]

/-- The buffer `NewSvcScanner` builds for the text
`struct< created_time : bigint >`: every run of white space is a unit. -/
def spacedScanner : SvcScanner :=
  ⟨0, [⟨0, 1, "struct".toList⟩, ⟨1, 1, "<".toList⟩, ⟨1, 1, " ".toList⟩,
    ⟨1, 1, "created_time".toList⟩, ⟨1, 1, " ".toList⟩, ⟨1, 1, ":".toList⟩, ⟨1, 1, " ".toList⟩,
    ⟨1, 1, "bigint".toList⟩, ⟨1, 1, " ".toList⟩, ⟨0, 1, ">".toList⟩], 0, 0⟩

/-- The JSON type name the claim C10 gives for an approved primitive name. -/
def claimedJsonType (typ : Str) : Str :=
  if typ = "string".toList then "string".toList
  else if typ = "boolean".toList then "boolean".toList
  else "number".toList

end GlueSchema


namespace GlueSchema

/-! ## JSON texts

The grammar of RFC 8259, on the runes of a text: what "a syntactically valid
JSON document" says of the string `Json` returns. -/

/-- JSON white space: space, horizontal tab, line feed, carriage return. -/
def IsWs (w : Str) : Prop := ∀ c ∈ w, c = ' ' ∨ c = '\t' ∨ c = '\n' ∨ c = '\r'

/-- A hexadecimal digit. -/
def isHexDigit (c : Char) : Bool :=
  ('0' ≤ c && c ≤ '9') || ('a' ≤ c && c ≤ 'f') || ('A' ≤ c && c ≤ 'F')

/-- The runes a backslash may stand before, `u` apart. -/
def isEscapeRune (e : Char) : Bool :=
  e = '"' || e = '\\' || e = '/' || e = 'b' || e = 'f' || e = 'n' || e = 'r' || e = 't'

/-- The runes between the quotation marks of a JSON string: any rune from
U+0020 on other than the quotation mark and the backslash, or a backslash
followed by an escape rune or by `u` and four hexadecimal digits. -/
def jsonChars : Str → Bool
  | [] => true
  | c :: rest =>
    if c = '\\' then
      match rest with
      | [] => false
      | e :: rest1 =>
        if e = 'u' then
          match rest1 with
          | h1 :: h2 :: h3 :: h4 :: rest2 =>
            isHexDigit h1 && isHexDigit h2 && isHexDigit h3 && isHexDigit h4 &&
              jsonChars rest2
          | _ => false
        else isEscapeRune e && jsonChars rest1
    else if c = '"' then false
    else if c.toNat < 0x20 then false
    else jsonChars rest

/-- The body of a JSON string. -/
def IsJsonChars (cs : Str) : Prop := jsonChars cs = true

/-- One or more decimal digits. -/
def IsDigits (s : Str) : Prop := s ≠ [] ∧ ∀ c ∈ s, c.isDigit = true

/-- The integer part of a JSON number: zero, or digits that do not begin with zero. -/
def IsJsonInt (s : Str) : Prop :=
  s = ['0'] ∨ ∃ d ds, s = d :: ds ∧ d.isDigit = true ∧ d ≠ '0' ∧ ∀ c ∈ ds, c.isDigit = true

/-- The optional fraction of a JSON number. -/
def IsJsonFrac (s : Str) : Prop := s = [] ∨ ∃ ds, s = '.' :: ds ∧ IsDigits ds

/-- The optional exponent of a JSON number. -/
def IsJsonExp (s : Str) : Prop :=
  s = [] ∨ ∃ e sign ds, s = e :: (sign ++ ds) ∧ (e = 'e' ∨ e = 'E') ∧
    (sign = [] ∨ sign = ['+'] ∨ sign = ['-']) ∧ IsDigits ds

/-- A JSON number. -/
def IsJsonNumber (s : Str) : Prop :=
  ∃ m i f e, s = m ++ i ++ f ++ e ∧ (m = [] ∨ m = ['-']) ∧ IsJsonInt i ∧ IsJsonFrac f ∧
    IsJsonExp e

/-- The parts of the JSON grammar. -/
inductive JsonPart where
  | value
  | member
  | members
  | element
  | elements
  | text
  deriving DecidableEq, Repr

/-- The JSON grammar: `JsonText p s` says that the runes `s` are a part `p` of
a JSON text. -/
inductive JsonText : JsonPart → Str → Prop where
  | litNull : JsonText .value "null".toList
  | litTrue : JsonText .value "true".toList
  | litFalse : JsonText .value "false".toList
  | number (s : Str) (h : IsJsonNumber s) : JsonText .value s
  | string (cs : Str) (h : IsJsonChars cs) : JsonText .value ('"' :: cs ++ ['"'])
  | emptyObject (w : Str) (hw : IsWs w) : JsonText .value ('\x7b' :: w ++ ['\x7d'])
  | object (ms : Str) (h : JsonText .members ms) : JsonText .value ('\x7b' :: ms ++ ['\x7d'])
  | emptyArray (w : Str) (hw : IsWs w) : JsonText .value ('[' :: w ++ [']'])
  | array (es : Str) (h : JsonText .elements es) : JsonText .value ('[' :: es ++ [']'])
  | member (w1 k w2 w3 v w4 : Str) (h1 : IsWs w1) (hk : IsJsonChars k) (h2 : IsWs w2)
      (h3 : IsWs w3) (hv : JsonText .value v) (h4 : IsWs w4) :
      JsonText .member (w1 ++ '"' :: k ++ '"' :: w2 ++ ':' :: w3 ++ v ++ w4)
  | membersOne (m : Str) (h : JsonText .member m) : JsonText .members m
  | membersCons (m ms : Str) (h : JsonText .member m) (hs : JsonText .members ms) :
      JsonText .members (m ++ ',' :: ms)
  | element (w1 v w2 : Str) (h1 : IsWs w1) (hv : JsonText .value v) (h2 : IsWs w2) :
      JsonText .element (w1 ++ v ++ w2)
  | elementsOne (e : Str) (h : JsonText .element e) : JsonText .elements e
  | elementsCons (e es : Str) (h : JsonText .element e) (hs : JsonText .elements es) :
      JsonText .elements (e ++ ',' :: es)
  | text (w1 v w2 : Str) (h1 : IsWs w1) (hv : JsonText .value v) (h2 : IsWs w2) :
      JsonText .text (w1 ++ v ++ w2)

/-- A syntactically valid JSON document. -/
def IsJson (s : Str) : Prop := JsonText .text s

/-! ## Field names that need no escaping -/

/-- A name that can stand between quotation marks as it is, and that
`fmt.Sprintf` copies as it is: no control character, no quotation mark, no
backslash and no percent sign. -/
def SafeName (n : Str) : Prop :=
  ∀ c ∈ n, ¬ c.toNat < 0x20 ∧ c ≠ '"' ∧ c ≠ '\\' ∧ c ≠ '%'

instance (n : Str) : Decidable (SafeName n) := by
  unfold SafeName
  infer_instance

/-- Node property: the field names of a struct are safe names. -/
def SafeNames (node : SchemaType) : Prop :=
  node.Typ = "struct".toList → ∀ n ∈ node.keys, SafeName n

instance (node : SchemaType) : Decidable (SafeNames node) := by
  unfold SafeNames
  infer_instance

/-- The node prints a JSON value, without a percent sign, under every map
iteration order. -/
def JsonOut (v : SchemaType) : Prop :=
  ∀ (ord : MapOrder) (path : List Str), ∃ doc, v.Json ord path = some doc ∧
    JsonText .value doc ∧ '%' ∉ doc

/-- What a derivation of each kind says of the JSON form of its tree. -/
def Inv9 : Kind → SchemaType → Prop
  | .field, v => v.Forall SafeNames → JsonOut v
  | .elem, v => v.Forall SafeNames → JsonOut v
  | .closed, v => v.Forall SafeNames → JsonOut v
  | .opened, t => t.Typ = "struct".toList ∧ t.Fields = some t.entries ∧
      ∀ p ∈ t.entries, p.2.Forall SafeNames → JsonOut p.2
  | .fielded, t => t.Typ = "struct".toList ∧ t.Fields = some t.entries ∧ t.entries ≠ [] ∧
      ∀ p ∈ t.entries, p.2.Forall SafeNames → JsonOut p.2

/-- The buffer `NewSvcScanner` builds for the text `struct<":int>`. -/
def quoteScanner : SvcScanner :=
  ⟨0, [⟨0, 1, "struct".toList⟩, ⟨1, 1, "<".toList⟩, ⟨1, 1, "\"".toList⟩, ⟨1, 1, ":".toList⟩,
    ⟨1, 1, "int".toList⟩, ⟨0, 1, ">".toList⟩], 0, 0⟩

/-- The tree of `struct<":int>`: one field, named by a quotation mark. -/
def quoteTree : SchemaType :=
  .mk "struct".toList (some [("\"".toList, .mk "int".toList none [])]) ["\"".toList]

/-- The string `Json` returns for the tree of `struct<":int>`. -/
def quoteJson : Str :=
  "\x7b\"type\": \"object\", \"properties\": \x7b\"\"\": \x7b\"type\": \"number\"\x7d\x7d\x7d".toList

end GlueSchema


namespace GlueSchema

/-! ## States of the character source -/

/-- The states a reader goes through: the one `NewRuneReader` builds, and the
states `ReadRune` and `UnreadRune` leave, whether they return a rune, `nil` or
an error. -/
inductive RuneReader.Reachable : RuneReader → Prop where
  | new (r : List Char) : RuneReader.Reachable (NewRuneReader r)
  | read {rr rr1 : RuneReader} {c : Char} (h : RuneReader.Reachable rr)
      (hr : rr.ReadRune = .ok c rr1) : RuneReader.Reachable rr1
  | readError {rr rr1 : RuneReader} {e : GoError} (h : RuneReader.Reachable rr)
      (hr : rr.ReadRune = .error e rr1) : RuneReader.Reachable rr1
  | unread {rr rr1 : RuneReader} (h : RuneReader.Reachable rr)
      (hr : rr.UnreadRune = .ok () rr1) : RuneReader.Reachable rr1
  | unreadError {rr rr1 : RuneReader} {e : GoError} (h : RuneReader.Reachable rr)
      (hr : rr.UnreadRune = .error e rr1) : RuneReader.Reachable rr1

/-- The invariant of the reader: `ContentLen` is the length of `Contents` and
`RunePos` lies between 0 and `ContentLen`. -/
def RuneReader.WellFormed (rr : RuneReader) : Prop :=
  rr.ContentLen = (rr.Contents.length : Nat) ∧ 0 ≤ rr.RunePos ∧ rr.RunePos ≤ rr.ContentLen

/-- The reader over the text `a`, a newline, `b`, after the rune `a` was read. -/
def lineReader : RuneReader :=
  { Contents := "a\nb".toList, ContentLen := 3, RunePos := 1, LineNo := 1 }

/-! ## Array nodes -/

/-- Node property of C12: a node of type `array` has one entry, under the
empty key, and the one-element name sequence with the empty name. -/
def ArrayShape (node : SchemaType) : Prop :=
  node.Typ = "array".toList →
    ∃ e, node.Fields = some [([], e)] ∧ node.FieldOrder = [[]]

/-- What a derivation of each kind says of its tree, for C12. -/
def Inv12 : Kind → SchemaType → Prop
  | .field, v => v.Forall ArrayShape
  | .elem, v => v.Forall ArrayShape
  | .closed, v => v.Forall ArrayShape
  | .opened, t => t.Typ = "struct".toList ∧ t.Forall ArrayShape
  | .fielded, t => t.Typ = "struct".toList ∧ t.Forall ArrayShape

/-- The buffer `NewSvcScanner` builds for the third text of the test,
`struct<birthdays:array<int>>`. -/
def birthdaysScanner : SvcScanner :=
  ⟨0, [⟨0, 1, "struct".toList⟩, ⟨1, 1, "<".toList⟩, ⟨1, 1, "birthdays".toList⟩,
    ⟨1, 1, ":".toList⟩, ⟨1, 1, "array".toList⟩, ⟨2, 1, "<".toList⟩, ⟨2, 1, "int".toList⟩,
    ⟨1, 1, ">".toList⟩, ⟨0, 1, ">".toList⟩], 0, 0⟩

/-- The scanner over the buffer of `struct<x:int>` after the first unit was read. -/
def xIntAfterOne : SvcScanner := { xIntScanner with UnitPos := 1, lineNo := 1 }

/-- The scanner over the buffer of `struct< created_time : bigint >` after
`struct` and `<` were read: the next unit is the run of white space. -/
def spacedAfterTwo : SvcScanner := { spacedScanner with BraceLevel := 1, UnitPos := 2, lineNo := 1 }

/-- The buffer `NewSvcScanner` builds for the text `struct<x:int>,y`: the
buffer of `struct<x:int>` and two more units. -/
def xIntTrailingScanner : SvcScanner :=
  { xIntScanner with Buf := xIntScanner.Buf ++ [⟨0, 1, ",".toList⟩, ⟨0, 1, "y".toList⟩] }

/-! ## Units of the buffer -/

/-- The depth counter after the values `vals`, from the value `c`: one up for
every value `<`, one down for every value `>`. -/
def depthOf (c : Int) (vals : List Str) : Int :=
  c + (vals.count "<".toList : Nat) - (vals.count ">".toList : Nat)

/-- Exactly one of the three shapes of a unit. -/
def ExactlyOneShape (T : UnicodeTables) (u : Str) : Prop :=
  (IsSpaceRun u ∧ ¬ IsIdentRun T u ∧ ¬ IsSingle T u) ∨
  (¬ IsSpaceRun u ∧ IsIdentRun T u ∧ ¬ IsSingle T u) ∨
  (¬ IsSpaceRun u ∧ ¬ IsIdentRun T u ∧ IsSingle T u)

/-- The runs are as long as they can be: two neighbours are not both runs of
white space and not both runs of identifier runes. -/
def Maximal (T : UnicodeTables) (u v : Str) : Prop :=
  ¬ (IsSpaceRun u ∧ IsSpaceRun v) ∧ ¬ (IsIdentRun T u ∧ IsIdentRun T v)

/-! ## Brackets -/

/-- Two neighbouring values of a text in which `<` and `>` are brackets only:
a `<` follows `struct` or `array`, a `>` does not follow a `<`, and a `>` is
not followed by a colon. -/
def BracketPair (a b : Str) : Prop :=
  (b = "<".toList → a = "struct".toList ∨ a = "array".toList) ∧
  (a = "<".toList → b ≠ ">".toList) ∧
  (a = ">".toList → b ≠ ":".toList)

instance (a b : Str) : Decidable (BracketPair a b) := by
  unfold BracketPair
  infer_instance

/-- The values of a text in which `<` and `>` are brackets only. -/
def BracketsOnly (ts : List Str) : Prop := List.Chain' BracketPair ts

/-- The depth counter, started at `c`, is not negative after any number of
the values `ts`. -/
def NonNeg (c : Int) (ts : List Str) : Prop := ∀ k : Nat, 0 ≤ depthOf c (ts.take k)

/-- What a derivation of each kind says of the depth counter over its values,
when `<` and `>` are brackets only: the counter returns to its value over a
type, and is one up inside a struct. -/
def Inv11 : Kind → List Str → Prop
  | .field, ts => BracketsOnly ts → ∀ c : Int, 0 ≤ c → depthOf c ts = c ∧ NonNeg c ts
  | .elem, ts => BracketsOnly ("<".toList :: ts) →
      ∀ c : Int, 0 ≤ c → depthOf c ts = c ∧ NonNeg c ts
  | .closed, ts => BracketsOnly ts → ∀ c : Int, 0 ≤ c → depthOf c ts = c ∧ NonNeg c ts
  | .opened, ts => (∃ pre x, ts = pre ++ [x] ∧ (x = "<".toList ∨ x = ",".toList)) ∧
      (BracketsOnly ts → ∀ c : Int, 0 ≤ c → depthOf c ts = c + 1 ∧ NonNeg c ts)
  | .fielded, ts => BracketsOnly ts → ∀ c : Int, 0 ≤ c → depthOf c ts = c + 1 ∧ NonNeg c ts

/-- The buffer `NewSvcScanner` builds for the text `struct<>:int>`, whose
field is named `>`. -/
def gtNameScanner : SvcScanner :=
  ⟨0, [⟨0, 1, "struct".toList⟩, ⟨1, 1, "<".toList⟩, ⟨0, 1, ">".toList⟩, ⟨0, 1, ":".toList⟩,
    ⟨0, 1, "int".toList⟩, ⟨-1, 1, ">".toList⟩], 0, 0⟩

/-- The tree of `struct<>:int>`. -/
def gtNameTree : SchemaType :=
  .mk "struct".toList (some [(">".toList, .mk "int".toList none [])]) [">".toList]

/-- A function of the values does not panic on non-empty values, and the
values it leaves are non-empty. -/
def Safe (k : List Str → TokRes) : Prop :=
  ∀ l, (∀ u ∈ l, u ≠ []) →
    k l ≠ .panic ∧ ∀ t rest, k l = .ok t rest → ∀ u ∈ rest, u ≠ []

end GlueSchema


namespace GlueSchema

/-! ## Sequencing -/

@[simp]
theorem andThen_ok {σ α β : Type} (a : α) (s : σ) (f : α → σ → Outcome σ β) :
    (Outcome.ok a s).andThen f = f a s := rfl

@[simp]
theorem andThen_error {σ α β : Type} (e : GoError) (s : σ) (f : α → σ → Outcome σ β) :
    (Outcome.error e s : Outcome σ α).andThen f = .error e s := rfl

@[simp]
theorem andThen_panic {σ α β : Type} (f : α → σ → Outcome σ β) :
    (Outcome.panic : Outcome σ α).andThen f = .panic := rfl

@[simp]
theorem andThen_outOfFuel {σ α β : Type} (f : α → σ → Outcome σ β) :
    (Outcome.outOfFuel : Outcome σ α).andThen f = .outOfFuel := rfl

/-! ## The scanner on a buffer and a position -/

theorem goIndex_natCast {α : Type} (xs : List α) (p : Nat) : goIndex xs (p : Int) = xs[p]? := by
  simp [goIndex]

theorem valuesFrom_eq_nil {B : List ScanUnit} {p : Nat} (h : valuesFrom B p = []) :
    B.length ≤ p := by
  simpa [valuesFrom] using h

theorem valuesFrom_eq_cons {B : List ScanUnit} {p : Nat} {u : Str} {rest : List Str}
    (h : valuesFrom B p = u :: rest) :
    ∃ unit, B[p]? = some unit ∧ unit.Value = u ∧ valuesFrom B (p + 1) = rest ∧ p < B.length := by
  unfold valuesFrom at h
  rcases hd : B.drop p with _ | ⟨unit, tl⟩
  · rw [hd] at h; simp at h
  · rw [hd] at h
    simp only [List.map_cons, List.cons.injEq] at h
    have hlt : p < B.length := by
      by_contra hc
      have : B.drop p = [] := List.drop_eq_nil_of_le (by omega)
      rw [this] at hd; cases hd
    refine ⟨unit, ?_, h.1, ?_, hlt⟩
    · have h3 := List.getElem?_drop B p 0
      rw [hd] at h3
      simpa using h3.symm
    · have h2 : B.drop (p + 1) = tl := by
        rw [← List.drop_drop, hd]; rfl
      unfold valuesFrom
      rw [h2]; exact h.2

theorem readUnit_nil {B : List ScanUnit} {p : Nat} {s : SvcScanner} (h : AtPos B p s)
    (hv : valuesFrom B p = []) : s.ReadUnit = .error .EOF s := by
  have hle1 := valuesFrom_eq_nil hv
  obtain ⟨hB, hp, hle⟩ := h
  unfold SvcScanner.ReadUnit
  rw [if_neg]
  rw [hB, hp]; omega

theorem readUnit_cons {B : List ScanUnit} {p : Nat} {s : SvcScanner} {u : Str} {rest : List Str}
    (h : AtPos B p s) (hv : valuesFrom B p = u :: rest) :
    ∃ s1, s.ReadUnit = .ok u s1 ∧ AtPos B (p + 1) s1 := by
  obtain ⟨unit, hu, hval, _, hlt⟩ := valuesFrom_eq_cons hv
  obtain ⟨hB, hp, hle⟩ := h
  unfold SvcScanner.ReadUnit
  subst hval
  rw [if_pos (by rw [hB, hp]; omega), hp, goIndex_natCast, hB, hu]
  exact ⟨_, rfl, rfl, by simp, by omega⟩

theorem verify_nil {B : List ScanUnit} {p : Nat} {s : SvcScanner} (h : AtPos B p s)
    (hv : valuesFrom B p = []) (e c : Str) : VerifyExpectingStr s e c = .error .EOF s := by
  unfold VerifyExpectingStr
  rw [readUnit_nil h hv]
  rfl

theorem verify_cons_eq {B : List ScanUnit} {p : Nat} {s : SvcScanner} {u : Str}
    {rest : List Str} (h : AtPos B p s) (hv : valuesFrom B p = u :: rest) (c : Str) :
    ∃ s1, VerifyExpectingStr s u c = .ok () s1 ∧ AtPos B (p + 1) s1 := by
  obtain ⟨s1, h1, h2⟩ := readUnit_cons h hv
  refine ⟨s1, ?_, h2⟩
  unfold VerifyExpectingStr
  rw [h1]
  simp [checkPanic]

theorem verify_cons_ne {B : List ScanUnit} {p : Nat} {s : SvcScanner} {u e : Str}
    {rest : List Str} (h : AtPos B p s) (hv : valuesFrom B p = u :: rest) (hne : u ≠ e)
    (c : Str) : ∃ err s1, VerifyExpectingStr s e c = .error err s1 := by
  obtain ⟨s1, h1, _⟩ := readUnit_cons h hv
  unfold VerifyExpectingStr
  rw [h1]
  simp [checkPanic, hne]

theorem peak_nil {B : List ScanUnit} {p : Nat} {s : SvcScanner} (h : AtPos B p s)
    (hv : valuesFrom B p = []) : peak s = .error .EOF s := by
  unfold peak
  rw [readUnit_nil h hv]

theorem unreadUnit_at {B : List ScanUnit} {p : Nat} {s : SvcScanner} (h : AtPos B (p + 2) s)
    (hlt : p < B.length) : ∃ s1, s.UnreadUnit = .ok () s1 ∧ AtPos B (p + 1) s1 := by
  obtain ⟨hB, hp, hle⟩ := h
  have hidx : ∃ unit, B[p]? = some unit := ⟨B[p], by simp [hlt]⟩
  obtain ⟨unit, hunit⟩ := hidx
  unfold SvcScanner.UnreadUnit
  have h0 : s.UnitPos ≠ 0 := by rw [hp]; omega
  have h1 : s.UnitPos ≠ 1 := by rw [hp]; omega
  simp only [h0, h1, if_false]
  have h2 : s.UnitPos - 1 - 1 = (p : Int) := by rw [hp]; omega
  rw [h2, goIndex_natCast, hB, hunit]
  refine ⟨_, rfl, rfl, ?_, by omega⟩
  simp only; rw [hp]; omega

theorem peak_cons {B : List ScanUnit} {p : Nat} {s : SvcScanner} {u : Str} {rest : List Str}
    (h : AtPos B (p + 1) s) (hv : valuesFrom B (p + 1) = u :: rest) :
    match peakView u with
    | none => peak s = .panic
    | some str => ∃ s1, peak s = .ok str s1 ∧ AtPos B (p + 1) s1 := by
  obtain ⟨s1, h1, h2⟩ := readUnit_cons h hv
  obtain ⟨_, _, _, _, hlt⟩ := valuesFrom_eq_cons hv
  obtain ⟨s2, h3, h4⟩ := unreadUnit_at h2 (by omega)
  unfold peak
  rw [h1]
  cases u with
  | nil => simp [peakView]
  | cons u0 us =>
    simp only [peakView]
    rw [h3]
    exact ⟨s2, rfl, h4⟩

/-! ## The parser computes the values view -/

theorem SimRes.weaken {B : List ScanUnit} {p q : Nat} {o : Outcome SvcScanner SchemaType}
    {r : TokRes} (h : SimRes B q o r) (hpq : p ≤ q) : SimRes B p o r := by
  cases r with
  | ok t rest =>
    obtain ⟨q1, s, h1, h2, h3, h4⟩ := h
    exact ⟨q1, s, h1, h2, by omega, h4⟩
  | fail => exact h
  | panic => exact h
  | outOfFuel => exact h

theorem checkPanic_readUnit_nil {B : List ScanUnit} {p : Nat} {s : SvcScanner} (h : AtPos B p s)
    (hv : valuesFrom B p = []) : checkPanic s.ReadUnit = .error .EOF s := by
  rw [readUnit_nil h hv]; rfl

theorem checkPanic_readUnit_cons {B : List ScanUnit} {p : Nat} {s : SvcScanner} {u : Str}
    {rest : List Str} (h : AtPos B p s) (hv : valuesFrom B p = u :: rest) :
    ∃ s1, checkPanic s.ReadUnit = .ok u s1 ∧ AtPos B (p + 1) s1 := by
  obtain ⟨s1, h1, h2⟩ := readUnit_cons h hv
  exact ⟨s1, by rw [h1]; rfl, h2⟩

theorem valuesFrom_succ {B : List ScanUnit} {p : Nat} {u : Str} {rest : List Str}
    (hv : valuesFrom B p = u :: rest) : valuesFrom B (p + 1) = rest :=
  (valuesFrom_eq_cons hv).choose_spec.2.2.1

theorem fieldStep_sim {B : List ScanUnit} {q : Nat} {s3 : SvcScanner}
    (pA pS : SvcScanner → Outcome SvcScanner SchemaType) (tA tS : List Str → TokRes)
    (hA : ∀ s, AtPos B q s → SimRes B q (pA s) (tA (valuesFrom B q)))
    (hS : ∀ s, AtPos B q s → SimRes B q (pS s) (tS (valuesFrom B q)))
    (h3 : AtPos B q s3) {u : Str} {rest : List Str} (hv : valuesFrom B q = u :: rest)
    {str : Str} (hstr : peakView u = some str) (typ : Str) (m : List (Str × SchemaType))
    (order : List Str) (name : Str) :
    SimRes B q (fieldStep pA pS s3 (.mk typ (some m) order) name str)
      ((tokFieldType tA tS (valuesFrom B q)).map
        fun v => .mk typ (some (mapSet m name v)) (order ++ [name])) := by
  rw [hv]
  unfold fieldStep tokFieldType
  simp only [hstr]
  by_cases h1 : str = "array".toList
  · simp only [h1, if_true]
    have := hA s3 h3
    rw [hv] at this
    cases hr : tA (u :: rest) with
    | ok v rest1 =>
      rw [hr] at this
      obtain ⟨q1, s4, h4, h5, h6, h7⟩ := this
      rw [h4]
      exact ⟨q1, s4, rfl, h5, h6, h7⟩
    | fail =>
      rw [hr] at this
      obtain ⟨e, s4, h4⟩ := this
      rw [h4]; exact ⟨e, s4, rfl⟩
    | panic => rw [hr] at this; rw [show pA s3 = .panic from this]; rfl
    | outOfFuel => rw [hr] at this; rw [show pA s3 = .outOfFuel from this]; rfl
  · simp only [h1, if_false]
    by_cases h2 : str = "struct".toList
    · simp only [h2, if_true]
      have := hS s3 h3
      rw [hv] at this
      cases hr : tS (u :: rest) with
      | ok v rest1 =>
        rw [hr] at this
        obtain ⟨q1, s4, h4, h5, h6, h7⟩ := this
        rw [h4]
        exact ⟨q1, s4, rfl, h5, h6, h7⟩
      | fail =>
        rw [hr] at this
        obtain ⟨e, s4, h4⟩ := this
        rw [h4]; exact ⟨e, s4, rfl⟩
      | panic => rw [hr] at this; rw [show pS s3 = .panic from this]; rfl
      | outOfFuel => rw [hr] at this; rw [show pS s3 = .outOfFuel from this]; rfl
    · simp only [h2, if_false]
      obtain ⟨s4, h4, h5⟩ := checkPanic_readUnit_cons h3 hv
      rw [h4]
      simp only [andThen_ok]
      by_cases h6 : (mapGet ValidTypes u).isNone = true
      · simp only [h6, if_true]; exact ⟨_, _, rfl⟩
      · simp only [h6]
        exact ⟨q + 1, s4, rfl, h5, by omega, valuesFrom_succ hv⟩

theorem simRes_of_call {B : List ScanUnit} {q : Nat} {o : Outcome SvcScanner SchemaType}
    {r : TokRes} (h : SimRes B q o r) (f : SchemaType → SchemaType) :
    SimRes B q (o.andThen fun ftyp s => .ok (f ftyp) s) (r.map f) := by
  cases r with
  | ok v rest1 =>
    obtain ⟨q1, s4, h4, h5, h6, h7⟩ := h
    rw [h4]
    exact ⟨q1, s4, rfl, h5, h6, h7⟩
  | fail =>
    obtain ⟨e, s4, h4⟩ := h
    rw [h4]; exact ⟨e, s4, rfl⟩
  | panic => rw [show o = .panic from h]; rfl
  | outOfFuel => rw [show o = .outOfFuel from h]; rfl

theorem elemStep_sim {B : List ScanUnit} {q : Nat} {s3 : SvcScanner}
    (pA pS : SvcScanner → Outcome SvcScanner SchemaType) (tA tS : List Str → TokRes)
    (hA : ∀ s, AtPos B q s → SimRes B q (pA s) (tA (valuesFrom B q)))
    (hS : ∀ s, AtPos B q s → SimRes B q (pS s) (tS (valuesFrom B q)))
    (h3 : AtPos B q s3) {u : Str} {rest : List Str} (hv : valuesFrom B q = u :: rest)
    {str : Str} (hstr : peakView u = some str) :
    SimRes B q (elemStep pA pS s3 (.mk "array".toList (some []) []) str)
      ((tokElemType tA tS (valuesFrom B q)).map
        fun e => .mk "array".toList (some [([], e)]) [[]]) := by
  unfold elemStep tokElemType
  rw [hv]
  simp only [hstr]
  by_cases h1 : str = "array".toList
  · simp only [h1, if_true]
    have := simRes_of_call (hA s3 h3) (fun e => .mk "array".toList (some [([], e)]) [[]])
    rw [hv] at this
    exact this
  · simp only [h1, if_false]
    by_cases h2 : str = "struct".toList
    · simp only [h2, if_true]
      have := simRes_of_call (hS s3 h3) (fun e => .mk "array".toList (some [([], e)]) [[]])
      rw [hv] at this
      exact this
    · simp only [h2, if_false]
      obtain ⟨s4, h4, h5⟩ := checkPanic_readUnit_cons h3 hv
      simp only [addFieldAt, SchemaType.AddField, andThen_ok, h4]
      exact ⟨q + 1, s4, rfl, h5, by omega, valuesFrom_succ hv⟩

theorem checkPanic_peak_nil {B : List ScanUnit} {p : Nat} {s : SvcScanner} (h : AtPos B p s)
    (hv : valuesFrom B p = []) : checkPanic (peak s) = .error .EOF s := by
  rw [peak_nil h hv]; rfl

theorem peakView_gt {u str : Str} (h : peakView u = some str) (hs : str = ">".toList) :
    u = ">".toList := by
  cases u with
  | nil => cases h
  | cons u0 us =>
    simp only [peakView, Option.some.injEq] at h
    subst hs
    by_cases hsp : unicodeIsSpace u0 = true
    · rw [if_pos hsp] at h
      split at h <;> cases h
    · rw [if_neg hsp] at h
      exact h

theorem afterStep_sim {B : List ScanUnit} {q : Nat} {s4 : SvcScanner}
    (loop : SvcScanner → SchemaType → Outcome SvcScanner SchemaType)
    (tL : List Str → TokRes) (out : SchemaType)
    (hL : ∀ q1 s, q + 1 < q1 → AtPos B q1 s → SimRes B q1 (loop s out) (tL (valuesFrom B q1)))
    (h4 : AtPos B (q + 1) s4) (name : Str) :
    SimRes B (q + 1) (afterStep loop s4 out name) (tokAfterField tL out (valuesFrom B (q + 1))) := by
  unfold afterStep tokAfterField
  rcases hv : valuesFrom B (q + 1) with _ | ⟨u, rest⟩
  · rw [checkPanic_peak_nil h4 hv]
    exact ⟨_, _, rfl⟩
  · have hp := peak_cons h4 hv
    cases hstr : peakView u with
    | none =>
      rw [hstr] at hp
      simp only [] at hp
      rw [hp]
      simp only [hstr]
      rfl
    | some str =>
      rw [hstr] at hp
      obtain ⟨s5, h5, h6⟩ := hp
      rw [h5]
      simp only [checkPanic, andThen_ok, hstr]
      by_cases hgt : str = ">".toList
      · have hu := peakView_gt hstr hgt
        simp only [hgt, if_true, hu]
        rw [hu] at hv
        obtain ⟨s6, h7, h8⟩ := verify_cons_eq h6 hv []
        rw [VerifyExpecting, h7]
        exact ⟨q + 2, s6, rfl, h8, by omega, valuesFrom_succ hv⟩
      · simp only [hgt, if_false]
        by_cases hc : u = ",".toList
        · simp only [hc, if_true]
          rw [hc] at hv
          obtain ⟨s6, h7, h8⟩ := verify_cons_eq h6 hv
            (", when parsing struct after parsing field ".toList ++ name)
          rw [h7]
          simp only [andThen_ok]
          have := hL (q + 2) s6 (by omega) h8
          rw [valuesFrom_succ hv] at this
          exact this.weaken (by omega)
        · simp only [hc, if_false]
          obtain ⟨e, s6, h7⟩ := verify_cons_ne h6 hv hc
            (", when parsing struct after parsing field ".toList ++ name)
          rw [h7]
          exact ⟨e, s6, rfl⟩

@[simp]
theorem expectTok_nil (e : Str) (k : List Str → TokRes) : expectTok e [] k = .fail := rfl

@[simp]
theorem expectTok_self (e : Str) (rest : List Str) (k : List Str → TokRes) :
    expectTok e (e :: rest) k = k rest := by
  simp [expectTok]

theorem expectTok_ne {e u : Str} (h : u ≠ e) (rest : List Str) (k : List Str → TokRes) :
    expectTok e (u :: rest) k = .fail := by
  simp [expectTok, h]

@[simp]
theorem tokRes_andThen_ok (t : SchemaType) (rest : List Str)
    (k : SchemaType → List Str → TokRes) : (TokRes.ok t rest).andThen k = k t rest := rfl

@[simp]
theorem tokRes_andThen_fail (k : SchemaType → List Str → TokRes) :
    TokRes.fail.andThen k = .fail := rfl

@[simp]
theorem tokRes_andThen_panic (k : SchemaType → List Str → TokRes) :
    TokRes.panic.andThen k = .panic := rfl

@[simp]
theorem tokRes_andThen_outOfFuel (k : SchemaType → List Str → TokRes) :
    TokRes.outOfFuel.andThen k = .outOfFuel := rfl

/-- One `VerifyExpecting` of the parser against one `expectTok` on the values. -/
theorem verify_sim {B : List ScanUnit} {p : Nat} {s : SvcScanner} (h : AtPos B p s) (e : Str)
    {f : Unit → SvcScanner → Outcome SvcScanner SchemaType} {k : List Str → TokRes}
    (hk : ∀ s1, AtPos B (p + 1) s1 → SimRes B (p + 1) (f () s1) (k (valuesFrom B (p + 1)))) :
    SimRes B p ((VerifyExpecting s e).andThen f) (expectTok e (valuesFrom B p) k) := by
  rcases hv : valuesFrom B p with _ | ⟨u, rest⟩
  · rw [VerifyExpecting, verify_nil h hv]
    exact ⟨_, _, rfl⟩
  · by_cases hu : u = e
    · rw [hu] at hv
      obtain ⟨s1, h1, hs1⟩ := verify_cons_eq h hv []
      rw [VerifyExpecting, h1, hu]
      simp only [andThen_ok, expectTok_self]
      have := hk s1 hs1
      rw [valuesFrom_succ hv] at this
      exact SimRes.weaken (q := p + 1) this (by omega)
    · obtain ⟨err, s1, h1⟩ := verify_cons_ne h hv hu []
      rw [VerifyExpecting, h1, expectTok_ne hu]
      exact ⟨_, _, rfl⟩

/-- A step of the parser followed by more statements, against the same on the
values. -/
theorem andThen_sim {B : List ScanUnit} {p : Nat} {o : Outcome SvcScanner SchemaType}
    {r : TokRes} (h : SimRes B p o r)
    {f : SchemaType → SvcScanner → Outcome SvcScanner SchemaType}
    {k : SchemaType → List Str → TokRes}
    (hk : ∀ t q s1, p ≤ q → AtPos B q s1 → SimRes B q (f t s1) (k t (valuesFrom B q))) :
    SimRes B p (o.andThen f) (r.andThen k) := by
  cases r with
  | ok t rest =>
    obtain ⟨q, s1, h1, h2, h3, h4⟩ := h
    rw [h1]
    simp only [andThen_ok, tokRes_andThen_ok]
    have := hk t q s1 h3 h2
    rw [h4] at this
    exact SimRes.weaken (q := q) this (by omega)
  | fail =>
    obtain ⟨e, s1, h1⟩ := h
    rw [h1]
    exact ⟨_, _, rfl⟩
  | panic => rw [show o = .panic from h]; rfl
  | outOfFuel => rw [show o = .outOfFuel from h]; rfl

/-- The `peak` that chooses a type, followed by the step that parses it. -/
theorem peak_step_sim {B : List ScanUnit} {p : Nat} {s : SvcScanner} (h : AtPos B (p + 1) s)
    {f : Str → SvcScanner → Outcome SvcScanner SchemaType} {r : TokRes}
    (hnil : valuesFrom B (p + 1) = [] → r = .fail)
    (hnone : ∀ u rest, valuesFrom B (p + 1) = u :: rest → peakView u = none → r = .panic)
    (hsome : ∀ u rest str s1, valuesFrom B (p + 1) = u :: rest → peakView u = some str →
      AtPos B (p + 1) s1 → SimRes B (p + 1) (f str s1) r) :
    SimRes B (p + 1) ((checkPanic (peak s)).andThen f) r := by
  rcases hv : valuesFrom B (p + 1) with _ | ⟨u, rest⟩
  · rw [checkPanic_peak_nil h hv, hnil hv]
    exact ⟨_, _, rfl⟩
  · have hp := peak_cons h hv
    cases hstr : peakView u with
    | none =>
      rw [hstr] at hp
      simp only [] at hp
      rw [hp, hnone u rest hv hstr]
      rfl
    | some str =>
      rw [hstr] at hp
      obtain ⟨s1, h1, hs1⟩ := hp
      rw [h1]
      simp only [checkPanic, andThen_ok]
      exact hsome u rest str s1 hv hstr hs1

theorem parser_sim (fuel : Nat) :
    (∀ B p s, AtPos B p s →
      SimRes B p (parseStructFuel fuel s) (tokStruct fuel (valuesFrom B p))) ∧
    (∀ B p s m order, AtPos B p s →
      SimRes B p (structLoop fuel s (.mk "struct".toList (some m) order))
        (tokFields fuel (valuesFrom B p) m order)) ∧
    (∀ B p s, AtPos B p s →
      SimRes B p (parseArrayFuel fuel s) (tokArray fuel (valuesFrom B p))) := by
  induction fuel with
  | zero =>
    refine ⟨?_, ?_, ?_⟩ <;> intros <;> simp [parseStructFuel, structLoop, parseArrayFuel,
      tokStruct, tokFields, tokArray, SimRes]
  | succ fuel ih =>
    obtain ⟨ihS, ihL, ihA⟩ := ih
    refine ⟨?_, ?_, ?_⟩
    · intro B p s h
      rw [parseStructFuel, tokStruct]
      exact verify_sim h _ fun s1 hs1 => verify_sim hs1 _ fun s2 hs2 =>
        SimRes.weaken (q := p + 1 + 1) (ihL B _ s2 [] [] hs2) (by omega)
    · intro B p s m order h
      rw [structLoop]
      rcases hv : valuesFrom B p with _ | ⟨name, l1⟩
      · rw [checkPanic_readUnit_nil h hv]
        simp only [tokFields]
        exact ⟨_, _, rfl⟩
      · obtain ⟨s1, h1, hs1⟩ := checkPanic_readUnit_cons h hv
        rw [h1, ← valuesFrom_succ hv]
        simp only [andThen_ok, tokFields]
        refine SimRes.weaken (q := p + 1) ?_ (by omega)
        refine verify_sim hs1 _ fun s2 hs2 => ?_
        refine SimRes.weaken (q := p + 1 + 1) ?_ (by omega)
        refine peak_step_sim hs2 ?_ ?_ ?_
        · intro hv2; rw [hv2]; rfl
        · intro u rest hv2 hstr; rw [hv2]; simp [tokFieldType, hstr]
        · intro u rest str s3 hv2 hstr hs3
          have fs := fieldStep_sim (parseArrayFuel fuel) (parseStructFuel fuel)
            (tokArray fuel) (tokStruct fuel)
            (fun s hs => ihA B (p + 1 + 1) s hs) (fun s hs => ihS B (p + 1 + 1) s hs)
            hs3 hv2 hstr "struct".toList m order name
          cases hr : tokFieldType (tokArray fuel) (tokStruct fuel) (valuesFrom B (p + 1 + 1)) with
          | ok v rest2 =>
            rw [hr] at fs
            obtain ⟨q1, s4, h4, hs4, hq, hv4⟩ := fs
            rw [h4]
            simp only [andThen_ok, tokRes_andThen_ok]
            obtain ⟨q, rfl⟩ : ∃ q, q1 = q + 1 := ⟨q1 - 1, by omega⟩
            have := afterStep_sim (structLoop fuel)
              (fun l1 => tokFields fuel l1 (mapSet m name v) (order ++ [name]))
              (.mk "struct".toList (some (mapSet m name v)) (order ++ [name]))
              (fun q2 s _ hs => ihL B q2 s _ _ hs) hs4 name
            rw [hv4] at this
            exact SimRes.weaken (q := q + 1) this (by omega)
          | fail =>
            rw [hr] at fs
            obtain ⟨e, s4, h4⟩ := fs
            rw [h4]
            exact ⟨_, _, rfl⟩
          | panic =>
            rw [hr] at fs
            rw [show fieldStep _ _ _ _ _ _ = Outcome.panic from fs]
            rfl
          | outOfFuel =>
            rw [hr] at fs
            rw [show fieldStep _ _ _ _ _ _ = Outcome.outOfFuel from fs]
            rfl
    · intro B p s h
      rw [parseArrayFuel, tokArray]
      refine verify_sim h _ fun s1 hs1 => verify_sim hs1 _ fun s2 hs2 => ?_
      refine peak_step_sim hs2 ?_ ?_ ?_
      · intro hv2; rw [hv2]; rfl
      · intro u rest hv2 hstr; rw [hv2]; simp [tokElemType, hstr]
      · intro u rest str s3 hv2 hstr hs3
        have es := elemStep_sim (parseArrayFuel fuel) (parseStructFuel fuel)
          (tokArray fuel) (tokStruct fuel)
          (fun s hs => ihA B (p + 1 + 1) s hs) (fun s hs => ihS B (p + 1 + 1) s hs)
          hs3 hv2 hstr
        cases hr : tokElemType (tokArray fuel) (tokStruct fuel) (valuesFrom B (p + 1 + 1)) with
        | ok e rest2 =>
          rw [hr] at es
          obtain ⟨q1, s4, h4, hs4, hq, hv4⟩ := es
          rw [h4]
          simp only [andThen_ok, tokRes_andThen_ok]
          rw [← hv4]
          refine SimRes.weaken (q := q1) ?_ (by omega)
          refine verify_sim hs4 _ fun s5 hs5 => ?_
          exact ⟨q1 + 1, s5, rfl, hs5, by omega, rfl⟩
        | fail =>
          rw [hr] at es
          obtain ⟨e, s4, h4⟩ := es
          rw [h4]
          exact ⟨_, _, rfl⟩
        | panic =>
          rw [hr] at es
          rw [show elemStep _ _ _ _ _ = Outcome.panic from es]
          rfl
        | outOfFuel =>
          rw [hr] at es
          rw [show elemStep _ _ _ _ _ = Outcome.outOfFuel from es]
          rfl

end GlueSchema


namespace GlueSchema

/-! ## The values view under more input and more budget -/

theorem ext_expectTok {k k1 : List Str → TokRes} (h : Ext k k1) (e : Str) :
    Ext (fun l => expectTok e l k) (fun l => expectTok e l k1) := by
  intro l x hne hfail
  cases l with
  | nil =>
    have : x = [] := hfail rfl
    subst this
    rfl
  | cons u rest =>
    by_cases hu : u = e
    · subst hu
      simp only [List.cons_append, expectTok_self] at hne hfail ⊢
      exact h rest x hne hfail
    · simp only [List.cons_append, expectTok_ne hu] at hfail ⊢
      rfl

theorem ext_readTok {K K1 : Str → List Str → TokRes} (h : ∀ name, Ext (K name) (K1 name)) :
    Ext (fun l => match l with | [] => .fail | name :: l1 => K name l1)
      (fun l => match l with | [] => .fail | name :: l1 => K1 name l1) := by
  intro l x hne hfail
  cases l with
  | nil =>
    have : x = [] := hfail rfl
    subst this
    rfl
  | cons u rest => exact h u rest x hne hfail

theorem ext_andThen {f f1 : List Str → TokRes} {k k1 : SchemaType → List Str → TokRes}
    (hf : Ext f f1) (hk : ∀ t, Ext (k t) (k1 t)) :
    Ext (fun l => (f l).andThen k) (fun l => (f1 l).andThen k1) := by
  intro l x hne hfail
  simp only at hne hfail ⊢
  cases hr : f l with
  | ok t rest =>
    rw [hr] at hne hfail
    rw [hf l x (by rw [hr]; simp) (by rw [hr]; simp), hr]
    simp only [TokRes.extend, tokRes_andThen_ok] at hne hfail ⊢
    exact hk t rest x hne hfail
  | fail =>
    rw [hr] at hfail
    have : x = [] := hfail rfl
    subst this
    rw [hf l [] (by rw [hr]; simp) (fun _ => rfl), hr]
    rfl
  | panic =>
    rw [hf l x (by rw [hr]; simp) (by rw [hr]; simp), hr]
    rfl
  | outOfFuel =>
    rw [hr] at hne
    exact absurd rfl hne

theorem ext_fieldType {tA tA1 tS tS1 : List Str → TokRes} (hA : Ext tA tA1) (hS : Ext tS tS1) :
    Ext (tokFieldType tA tS) (tokFieldType tA1 tS1) := by
  intro l x hne hfail
  cases l with
  | nil =>
    have : x = [] := hfail rfl
    subst this
    rfl
  | cons u rest =>
    simp only [tokFieldType, List.cons_append] at hne hfail ⊢
    cases hp : peakView u with
    | none => simp only [hp]; rfl
    | some str =>
      simp only [hp] at hne hfail ⊢
      by_cases h1 : str = "array".toList
      · simp only [h1, if_true] at hne hfail ⊢
        exact hA (u :: rest) x hne hfail
      · simp only [h1, if_false] at hne hfail ⊢
        by_cases h2 : str = "struct".toList
        · simp only [h2, if_true] at hne hfail ⊢
          exact hS (u :: rest) x hne hfail
        · simp only [h2, if_false] at hne hfail ⊢
          by_cases h3 : (mapGet ValidTypes u).isNone = true
          · simp only [h3, if_true] at hfail ⊢
            rfl
          · simp only [h3]
            rfl

theorem ext_elemType {tA tA1 tS tS1 : List Str → TokRes} (hA : Ext tA tA1) (hS : Ext tS tS1) :
    Ext (tokElemType tA tS) (tokElemType tA1 tS1) := by
  intro l x hne hfail
  cases l with
  | nil =>
    have : x = [] := hfail rfl
    subst this
    rfl
  | cons u rest =>
    simp only [tokElemType, List.cons_append] at hne hfail ⊢
    cases hp : peakView u with
    | none => simp only [hp]; rfl
    | some str =>
      simp only [hp] at hne hfail ⊢
      by_cases h1 : str = "array".toList
      · simp only [h1, if_true] at hne hfail ⊢
        exact hA (u :: rest) x hne hfail
      · simp only [h1, if_false] at hne hfail ⊢
        by_cases h2 : str = "struct".toList
        · simp only [h2, if_true] at hne hfail ⊢
          exact hS (u :: rest) x hne hfail
        · simp only [h2, if_false]
          rfl

theorem ext_afterField {tL tL1 : List Str → TokRes} (hL : Ext tL tL1) (t : SchemaType) :
    Ext (tokAfterField tL t) (tokAfterField tL1 t) := by
  intro l x hne hfail
  cases l with
  | nil =>
    have : x = [] := hfail rfl
    subst this
    rfl
  | cons u rest =>
    simp only [tokAfterField, List.cons_append] at hne hfail ⊢
    cases hp : peakView u with
    | none => simp only [hp]; rfl
    | some str =>
      simp only [hp] at hne hfail ⊢
      by_cases h1 : str = ">".toList
      · simp only [h1, if_true] at hne hfail ⊢
        by_cases h2 : u = ">".toList
        · simp only [h2, if_true]; rfl
        · simp only [h2, if_false]; rfl
      · simp only [h1, if_false] at hne hfail ⊢
        by_cases h2 : u = ",".toList
        · simp only [h2, if_true] at hne hfail ⊢
          exact hL rest x hne hfail
        · simp only [h2, if_false]; rfl

theorem ext_ok (t : SchemaType) : Ext (fun l => .ok t l) (fun l => .ok t l) := by
  intro l x _ _
  rfl

theorem tokStruct_succ (fuel : Nat) :
    tokStruct (fuel + 1) = fun l =>
      expectTok "struct".toList l fun l1 =>
        expectTok "<".toList l1 fun l2 => tokFields fuel l2 [] [] := by
  funext l
  rw [tokStruct]

theorem tokFields_succ (fuel : Nat) (m : List (Str × SchemaType)) (order : List Str) :
    (fun l => tokFields (fuel + 1) l m order) = fun l =>
      match l with
      | [] => .fail
      | name :: l1 =>
        expectTok ":".toList l1 fun l2 =>
          (tokFieldType (tokArray fuel) (tokStruct fuel) l2).andThen fun v l3 =>
            tokAfterField (fun l4 => tokFields fuel l4 (mapSet m name v) (order ++ [name]))
              (.mk "struct".toList (some (mapSet m name v)) (order ++ [name])) l3 := by
  funext l
  cases l <;> simp only [tokFields]

theorem tokArray_succ (fuel : Nat) :
    tokArray (fuel + 1) = fun l =>
      expectTok "array".toList l fun l1 =>
        expectTok "<".toList l1 fun l2 =>
          (tokElemType (tokArray fuel) (tokStruct fuel) l2).andThen fun e l3 =>
            expectTok ">".toList l3 fun l4 =>
              .ok (.mk "array".toList (some [([], e)]) [[]]) l4 := by
  funext l
  rw [tokArray]

/-- More values after the ones read and a larger call budget leave a tree or a
panic as they are; a larger budget leaves a failure as it is. -/
theorem tok_ext (fuel : Nat) : ∀ fuel1, fuel ≤ fuel1 →
    Ext (tokStruct fuel) (tokStruct fuel1) ∧
    (∀ m order, Ext (fun l => tokFields fuel l m order) (fun l => tokFields fuel1 l m order)) ∧
    Ext (tokArray fuel) (tokArray fuel1) := by
  induction fuel with
  | zero =>
    intro fuel1 _
    refine ⟨?_, ?_, ?_⟩
    · intro l x hne; exact absurd (by simp [tokStruct]) hne
    · intro m order l x hne; exact absurd (by simp [tokFields]) hne
    · intro l x hne; exact absurd (by simp [tokArray]) hne
  | succ fuel ih =>
    intro fuel1 hle
    obtain ⟨f1, rfl⟩ : ∃ f1, fuel1 = f1 + 1 := ⟨fuel1 - 1, by omega⟩
    obtain ⟨ihS, ihL, ihA⟩ := ih f1 (by omega)
    refine ⟨?_, ?_, ?_⟩
    · rw [tokStruct_succ, tokStruct_succ]
      exact ext_expectTok (ext_expectTok (ihL [] []) _) _
    · intro m order
      rw [tokFields_succ, tokFields_succ]
      exact ext_readTok fun name => ext_expectTok
        (ext_andThen (ext_fieldType ihA ihS) fun v => ext_afterField (ihL _ _) _) _
    · rw [tokArray_succ, tokArray_succ]
      exact ext_expectTok (ext_expectTok
        (ext_andThen (ext_elemType ihA ihS) fun e => ext_expectTok (ext_ok _) _) _) _

/-! ## Progress and budget of the values view -/

theorem prog_mono {k : List Str → TokRes} {n n1 : Nat} (h : Prog k n) (hle : n1 ≤ n) :
    Prog k n1 := fun l => ⟨(h l).1, fun hl => (h l).2 (by omega)⟩

theorem prog_expectTok {k : List Str → TokRes} {n : Nat} (h : Prog k n) (e : Str) :
    Prog (fun l => expectTok e l k) (n + 1) := by
  intro l
  cases l with
  | nil => exact ⟨fun t rest h1 => by simp at h1, fun _ => by simp⟩
  | cons u rest =>
    by_cases hu : u = e
    · subst hu
      simp only [expectTok_self, List.length_cons]
      exact ⟨fun t r h1 => by have := (h rest).1 t r h1; omega,
        fun hl => (h rest).2 (by omega)⟩
    · simp only [expectTok_ne hu]
      exact ⟨fun t r h1 => by simp at h1, fun _ => by simp⟩

theorem prog_readTok {K : Str → List Str → TokRes} {n : Nat} (h : ∀ name, Prog (K name) n) :
    Prog (fun l => match l with | [] => .fail | name :: l1 => K name l1) (n + 1) := by
  intro l
  cases l with
  | nil => exact ⟨fun t rest h1 => by simp at h1, fun _ => by simp⟩
  | cons u rest =>
    simp only [List.length_cons]
    exact ⟨fun t r h1 => by have := (h u rest).1 t r h1; omega,
      fun hl => (h u rest).2 (by omega)⟩

theorem prog_andThen {f : List Str → TokRes} {k : SchemaType → List Str → TokRes} {n : Nat}
    (hf : Prog f n) (hk : ∀ t, Prog (k t) n) : Prog (fun l => (f l).andThen k) n := by
  intro l
  simp only
  cases hr : f l with
  | ok t rest =>
    have h1 := (hf l).1 t rest hr
    simp only [tokRes_andThen_ok]
    exact ⟨fun t1 r h2 => by have := (hk t rest).1 t1 r h2; omega,
      fun hl => (hk t rest).2 (by omega)⟩
  | fail => exact ⟨fun t rest h1 => by simp at h1, fun _ => by simp⟩
  | panic => exact ⟨fun t rest h1 => by simp at h1, fun _ => by simp⟩
  | outOfFuel =>
    refine ⟨fun t rest h1 => by simp at h1, fun hl => ?_⟩
    exact absurd hr ((hf l).2 hl)

theorem prog_fieldType {tA tS : List Str → TokRes} {n : Nat} (hA : Prog tA n) (hS : Prog tS n) :
    Prog (tokFieldType tA tS) n := by
  intro l
  cases l with
  | nil => exact ⟨fun t rest h1 => by simp [tokFieldType] at h1, fun _ => by simp [tokFieldType]⟩
  | cons u rest =>
    simp only [tokFieldType]
    cases hp : peakView u with
    | none => exact ⟨fun t rest h1 => by simp at h1, fun _ => by simp⟩
    | some str =>
      simp only
      by_cases h1 : str = "array".toList
      · simp only [h1, if_true]; exact hA (u :: rest)
      · simp only [h1, if_false]
        by_cases h2 : str = "struct".toList
        · simp only [h2, if_true]; exact hS (u :: rest)
        · simp only [h2, if_false]
          by_cases h3 : (mapGet ValidTypes u).isNone = true
          · simp only [h3, if_true]
            exact ⟨fun t rest h1 => by simp at h1, fun _ => by simp⟩
          · simp only [h3]
            refine ⟨fun t r h4 => ?_, fun _ => by simp⟩
            simp only [Bool.false_eq_true, if_false, TokRes.ok.injEq] at h4
            rw [← h4.2]; simp

theorem prog_elemType {tA tS : List Str → TokRes} {n : Nat} (hA : Prog tA n) (hS : Prog tS n) :
    Prog (tokElemType tA tS) n := by
  intro l
  cases l with
  | nil => exact ⟨fun t rest h1 => by simp [tokElemType] at h1, fun _ => by simp [tokElemType]⟩
  | cons u rest =>
    simp only [tokElemType]
    cases hp : peakView u with
    | none => exact ⟨fun t rest h1 => by simp at h1, fun _ => by simp⟩
    | some str =>
      simp only
      by_cases h1 : str = "array".toList
      · simp only [h1, if_true]; exact hA (u :: rest)
      · simp only [h1, if_false]
        by_cases h2 : str = "struct".toList
        · simp only [h2, if_true]; exact hS (u :: rest)
        · simp only [h2, if_false]
          refine ⟨fun t r h4 => ?_, fun _ => by simp⟩
          simp only [TokRes.ok.injEq] at h4
          rw [← h4.2]; simp

theorem prog_afterField {tL : List Str → TokRes} {n : Nat} (hL : Prog tL n) (t : SchemaType) :
    Prog (tokAfterField tL t) (n + 1) := by
  intro l
  cases l with
  | nil =>
    exact ⟨fun t rest h1 => by simp [tokAfterField] at h1, fun _ => by simp [tokAfterField]⟩
  | cons u rest =>
    simp only [tokAfterField]
    cases hp : peakView u with
    | none => exact ⟨fun t rest h1 => by simp at h1, fun _ => by simp⟩
    | some str =>
      simp only
      by_cases h1 : str = ">".toList
      · simp only [h1, if_true]
        by_cases h2 : u = ">".toList
        · simp only [h2, if_true]
          refine ⟨fun t r h4 => ?_, fun _ => by simp⟩
          simp only [TokRes.ok.injEq] at h4
          rw [← h4.2]; simp
        · simp only [h2, if_false]
          exact ⟨fun t rest h1 => by simp at h1, fun _ => by simp⟩
      · simp only [h1, if_false]
        by_cases h2 : u = ",".toList
        · simp only [h2, if_true, List.length_cons]
          exact ⟨fun t r h4 => by have := (hL rest).1 t r h4; omega,
            fun hl => (hL rest).2 (by omega)⟩
        · simp only [h2, if_false]
          exact ⟨fun t rest h1 => by simp at h1, fun _ => by simp⟩

theorem prog_ok (t : SchemaType) (n : Nat) : Prog (fun l => .ok t l) n := by
  intro l
  refine ⟨fun t1 r h => ?_, fun _ => by simp⟩
  simp only [TokRes.ok.injEq] at h
  rw [h.2]

/-- The values view returns no more values than it was given and, on fewer
values than its call budget, does not exhaust the budget. -/
theorem tok_prog (fuel : Nat) :
    Prog (tokStruct fuel) fuel ∧ (∀ m order, Prog (fun l => tokFields fuel l m order) fuel) ∧
    Prog (tokArray fuel) fuel := by
  induction fuel with
  | zero =>
    refine ⟨?_, ?_, ?_⟩
    · intro l; exact ⟨fun t r h => by simp [tokStruct] at h, fun hl => by omega⟩
    · intro m order l; exact ⟨fun t r h => by simp [tokFields] at h, fun hl => by omega⟩
    · intro l; exact ⟨fun t r h => by simp [tokArray] at h, fun hl => by omega⟩
  | succ fuel ih =>
    obtain ⟨ihS, ihL, ihA⟩ := ih
    refine ⟨?_, ?_, ?_⟩
    · rw [tokStruct_succ]
      exact prog_mono (prog_expectTok (prog_expectTok (ihL [] []) _) _) (by omega)
    · intro m order
      rw [tokFields_succ]
      exact prog_mono (prog_readTok fun name => prog_expectTok
        (prog_andThen (prog_fieldType ihA ihS) fun v =>
          prog_mono (prog_afterField (ihL _ _) _) (by omega)) _) (by omega)
    · rw [tokArray_succ]
      exact prog_mono (prog_expectTok (prog_expectTok
        (prog_andThen (prog_elemType ihA ihS) fun e =>
          prog_mono (prog_expectTok (prog_ok _ _) _) (Nat.le_succ _)) _) _) (by omega)

end GlueSchema


namespace GlueSchema

/-! ## Every tree the parser returns is derived from the values it read -/

theorem expectTok_ok {e : Str} {l : List Str} {k : List Str → TokRes} {t : SchemaType}
    {rest : List Str} (h : expectTok e l k = .ok t rest) :
    ∃ l1, l = e :: l1 ∧ k l1 = .ok t rest := by
  cases l with
  | nil => simp at h
  | cons u l1 =>
    by_cases hu : u = e
    · subst hu; exact ⟨l1, rfl, by simpa using h⟩
    · rw [expectTok_ne hu] at h; cases h

theorem tokRes_andThen_eq_ok {r : TokRes} {k : SchemaType → List Str → TokRes}
    {t : SchemaType} {rest : List Str} (h : r.andThen k = .ok t rest) :
    ∃ v l3, r = .ok v l3 ∧ k v l3 = .ok t rest := by
  cases r with
  | ok v l3 => exact ⟨v, l3, rfl, h⟩
  | fail => cases h
  | panic => cases h
  | outOfFuel => cases h

theorem peakView_eq_of_not_space {u0 : Char} {us : Str} (h : unicodeIsSpace u0 = false) :
    peakView (u0 :: us) = some (u0 :: us) := by
  simp [peakView, h]

theorem mem_keys_of_mapGet {β : Type} {m : List (Str × β)} {k : Str}
    (h : (mapGet m k).isNone = false) : k ∈ m.map Prod.fst := by
  induction m with
  | nil => simp [mapGet] at h
  | cons p rest ih =>
    obtain ⟨k1, v1⟩ := p
    simp only [mapGet] at h
    simp only [List.map_cons, List.mem_cons]
    by_cases hk : k1 = k
    · exact Or.inl hk.symm
    · rw [if_neg hk] at h
      exact Or.inr (ih h)

theorem mem_approved_of_valid {u : Str} (h : (mapGet ValidTypes u).isNone = false)
    (h1 : u ≠ "array".toList) (h2 : u ≠ "struct".toList) : u ∈ approvedTypes := by
  have hm := mem_keys_of_mapGet h
  simp only [ValidTypes, List.map_cons, List.map_nil, List.mem_cons, List.mem_singleton,
    List.not_mem_nil, or_false] at hm
  simp only [approvedTypes, List.mem_cons, List.mem_singleton, List.not_mem_nil, or_false]
  rcases hm with h | h | h | h | h | h | h
  · exact Or.inl h
  · exact Or.inr (Or.inl h)
  · exact absurd h h2
  · exact Or.inr (Or.inr (Or.inr (Or.inl h)))
  · exact Or.inr (Or.inr (Or.inl h))
  · exact absurd h h1
  · exact Or.inr (Or.inr (Or.inr (Or.inr h)))

theorem peakView_of_valid {u str : Str} (hp : peakView u = some str)
    (h : (mapGet ValidTypes u).isNone = false) : str = u := by
  cases u with
  | nil => cases hp
  | cons u0 us =>
    by_cases hs : unicodeIsSpace u0 = true
    · exfalso
      have hm := mem_keys_of_mapGet h
      simp only [ValidTypes, List.map_cons, List.map_nil, List.mem_cons, List.mem_singleton,
        List.not_mem_nil, or_false, String.toList, List.cons.injEq] at hm
      rcases hm with h | h | h | h | h | h | h <;>
        (rw [h.1] at hs; revert hs; decide)
    · rw [peakView_eq_of_not_space (by simpa using hs)] at hp
      exact (Option.some.inj hp).symm

theorem tokFieldType_ok {tA tS : List Str → TokRes} {l : List Str} {v : SchemaType}
    {rest : List Str} (h : tokFieldType tA tS l = .ok v rest) :
    tA l = .ok v rest ∨ tS l = .ok v rest ∨
      ∃ u, u ∈ approvedTypes ∧ l = u :: rest ∧ v = .mk u none [] := by
  cases l with
  | nil => simp [tokFieldType] at h
  | cons u rest0 =>
    simp only [tokFieldType] at h
    cases hp : peakView u with
    | none => rw [hp] at h; cases h
    | some str =>
      rw [hp] at h
      simp only at h
      by_cases h1 : str = "array".toList
      · rw [if_pos h1] at h; exact Or.inl h
      · rw [if_neg h1] at h
        by_cases h2 : str = "struct".toList
        · rw [if_pos h2] at h; exact Or.inr (Or.inl h)
        · rw [if_neg h2] at h
          by_cases h3 : (mapGet ValidTypes u).isNone = true
          · rw [if_pos h3] at h; cases h
          · rw [if_neg h3] at h
            simp only [TokRes.ok.injEq] at h
            have h4 : (mapGet ValidTypes u).isNone = false := Bool.eq_false_iff.mpr h3
            have h5 := peakView_of_valid hp h4
            subst h5
            exact Or.inr (Or.inr ⟨str, mem_approved_of_valid h4 h1 h2, by rw [h.2], h.1.symm⟩)

theorem tokElemType_ok {tA tS : List Str → TokRes} {l : List Str} {e : SchemaType}
    {rest : List Str} (h : tokElemType tA tS l = .ok e rest) :
    tA l = .ok e rest ∨ tS l = .ok e rest ∨
      ∃ u str, peakView u = some str ∧ str ≠ "array".toList ∧ str ≠ "struct".toList ∧
        l = u :: rest ∧ e = .mk str none [] := by
  cases l with
  | nil => simp [tokElemType] at h
  | cons u rest0 =>
    simp only [tokElemType] at h
    cases hp : peakView u with
    | none => rw [hp] at h; cases h
    | some str =>
      rw [hp] at h
      simp only at h
      by_cases h1 : str = "array".toList
      · rw [if_pos h1] at h; exact Or.inl h
      · rw [if_neg h1] at h
        by_cases h2 : str = "struct".toList
        · rw [if_pos h2] at h; exact Or.inr (Or.inl h)
        · rw [if_neg h2] at h
          simp only [TokRes.ok.injEq] at h
          exact Or.inr (Or.inr ⟨u, str, hp, h1, h2, by rw [h.2], h.1.symm⟩)

theorem tokAfterField_ok {tL : List Str → TokRes} {t t1 : SchemaType} {l rest : List Str}
    (h : tokAfterField tL t l = .ok t1 rest) :
    (l = ">".toList :: rest ∧ t1 = t) ∨ ∃ l4, l = ",".toList :: l4 ∧ tL l4 = .ok t1 rest := by
  cases l with
  | nil => simp [tokAfterField] at h
  | cons u rest0 =>
    simp only [tokAfterField] at h
    cases hp : peakView u with
    | none => rw [hp] at h; cases h
    | some str =>
      rw [hp] at h
      simp only at h
      by_cases h1 : str = ">".toList
      · rw [if_pos h1] at h
        by_cases h2 : u = ">".toList
        · rw [if_pos h2] at h
          simp only [TokRes.ok.injEq] at h
          exact Or.inl ⟨by rw [h2, h.2], h.1.symm⟩
        · rw [if_neg h2] at h; cases h
      · rw [if_neg h1] at h
        by_cases h2 : u = ",".toList
        · rw [if_pos h2] at h
          exact Or.inr ⟨rest0, by rw [h2], h⟩
        · rw [if_neg h2] at h; cases h

/-- Soundness of the parser: a returned tree is derived from the values read,
and the values left are the ones after them. -/
theorem tok_sound (fuel : Nat) :
    (∀ l t rest, tokStruct fuel l = .ok t rest → ∃ ts, l = ts ++ rest ∧ Der .closed ts t) ∧
    (∀ l m order t rest ts0, tokFields fuel l m order = .ok t rest →
      Der .opened ts0 (.mk "struct".toList (some m) order) →
      ∃ ts, l = ts ++ rest ∧ Der .closed (ts0 ++ ts) t) ∧
    (∀ l t rest, tokArray fuel l = .ok t rest → ∃ ts, l = ts ++ rest ∧ Der .closed ts t) := by
  induction fuel with
  | zero =>
    refine ⟨?_, ?_, ?_⟩
    · intro l t rest h; simp [tokStruct] at h
    · intro l m order t rest ts0 h; simp [tokFields] at h
    · intro l t rest h; simp [tokArray] at h
  | succ fuel ih =>
    obtain ⟨ihS, ihL, ihA⟩ := ih
    have hField : ∀ l v rest, tokFieldType (tokArray fuel) (tokStruct fuel) l = .ok v rest →
        ∃ ts, l = ts ++ rest ∧ Der .field ts v := by
      intro l v rest h
      rcases tokFieldType_ok h with h1 | h1 | ⟨u, hu, hl, hv⟩
      · obtain ⟨ts, h2, h3⟩ := ihA l v rest h1
        exact ⟨ts, h2, .fieldNode h3⟩
      · obtain ⟨ts, h2, h3⟩ := ihS l v rest h1
        exact ⟨ts, h2, .fieldNode h3⟩
      · exact ⟨[u], by rw [hl]; rfl, by rw [hv]; exact .fieldLeaf u hu⟩
    have hElem : ∀ l v rest, tokElemType (tokArray fuel) (tokStruct fuel) l = .ok v rest →
        ∃ ts, l = ts ++ rest ∧ Der .elem ts v := by
      intro l v rest h
      rcases tokElemType_ok h with h1 | h1 | ⟨u, str, hp, hs1, hs2, hl, hv⟩
      · obtain ⟨ts, h2, h3⟩ := ihA l v rest h1
        exact ⟨ts, h2, .elemNode h3⟩
      · obtain ⟨ts, h2, h3⟩ := ihS l v rest h1
        exact ⟨ts, h2, .elemNode h3⟩
      · exact ⟨[u], by rw [hl]; rfl, by rw [hv]; exact .elemLeaf u str hp hs1 hs2⟩
    refine ⟨?_, ?_, ?_⟩
    · intro l t rest h
      rw [tokStruct] at h
      obtain ⟨l1, rfl, h1⟩ := expectTok_ok h
      obtain ⟨l2, rfl, h2⟩ := expectTok_ok h1
      obtain ⟨ts, rfl, h3⟩ := ihL l2 [] [] t rest _ h2 .structOpen
      exact ⟨"struct".toList :: "<".toList :: ts, rfl, h3⟩
    · intro l m order t rest ts0 h h0
      cases l with
      | nil => simp [tokFields] at h
      | cons name l1 =>
        simp only [tokFields] at h
        obtain ⟨l2, rfl, h2⟩ := expectTok_ok h
        obtain ⟨v, l3, h3, h4⟩ := tokRes_andThen_eq_ok h2
        obtain ⟨tsv, rfl, hv⟩ := hField _ _ _ h3
        have hf := Der.addField name h0 hv
        rcases tokAfterField_ok h4 with ⟨rfl, rfl⟩ | ⟨l4, rfl, h5⟩
        · refine ⟨name :: ":".toList :: tsv ++ [">".toList], by simp, ?_⟩
          have := Der.close hf
          simpa using this
        · obtain ⟨ts, rfl, h6⟩ := ihL l4 _ _ t rest _ h5 (Der.comma hf)
          refine ⟨name :: ":".toList :: tsv ++ ",".toList :: ts, by simp, ?_⟩
          simpa using h6
    · intro l t rest h
      rw [tokArray] at h
      obtain ⟨l1, rfl, h1⟩ := expectTok_ok h
      obtain ⟨l2, rfl, h2⟩ := expectTok_ok h1
      obtain ⟨e, l3, h3, h4⟩ := tokRes_andThen_eq_ok h2
      obtain ⟨tse, rfl, he⟩ := hElem _ _ _ h3
      obtain ⟨l4, rfl, h5⟩ := expectTok_ok h4
      simp only [TokRes.ok.injEq] at h5
      obtain ⟨rfl, rfl⟩ := h5
      exact ⟨"array".toList :: "<".toList :: tse ++ [">".toList], by simp, .array he⟩

end GlueSchema


namespace GlueSchema

/-! ## From a successful parse to a derivation -/

theorem readUnit_ok_pos {scn s : SvcScanner} {u : Str} (h : scn.ReadUnit = .ok u s) :
    0 ≤ scn.UnitPos ∧ scn.UnitPos < scn.Buf.length := by
  unfold SvcScanner.ReadUnit at h
  by_cases h1 : scn.UnitPos < scn.Buf.length
  · rw [if_pos h1] at h
    by_cases h2 : 0 ≤ scn.UnitPos
    · exact ⟨h2, h1⟩
    · simp [goIndex, h2] at h
  · rw [if_neg h1] at h; cases h

theorem parseStructFuel_ok_pos {fuel : Nat} {scn s : SvcScanner} {t : SchemaType}
    (h : parseStructFuel fuel scn = .ok t s) :
    0 ≤ scn.UnitPos ∧ scn.UnitPos < scn.Buf.length := by
  cases fuel with
  | zero => simp [parseStructFuel] at h
  | succ fuel =>
    rw [parseStructFuel, VerifyExpecting, VerifyExpectingStr] at h
    cases hr : scn.ReadUnit with
    | ok u s1 => exact readUnit_ok_pos hr
    | error e s1 =>
      rw [hr] at h
      by_cases he : e = .EOF <;> simp [checkPanic, he] at h
    | panic => rw [hr] at h; simp [checkPanic] at h
    | outOfFuel => rw [hr] at h; simp [checkPanic] at h

/-- A tree returned by `parseStruct`, from any cursor, is derived from the
values at the cursor. -/
theorem parseStruct_der {scn s : SvcScanner} {t : SchemaType} (h : parseStruct scn = .ok t s) :
    ∃ ts, Der .closed ts t ∧ ∃ p q, AtPos scn.Buf p scn ∧ AtPos scn.Buf q s ∧
      valuesFrom scn.Buf p = ts ++ valuesFrom scn.Buf q := by
  obtain ⟨h0, h1⟩ := parseStructFuel_ok_pos h
  have hat : AtPos scn.Buf scn.UnitPos.toNat scn :=
    ⟨rfl, by omega, by omega⟩
  have hs := (parser_sim (scn.Buf.length + 1)).1 scn.Buf _ scn hat
  rw [show parseStructFuel (scn.Buf.length + 1) scn = .ok t s from h] at hs
  cases hr : tokStruct (scn.Buf.length + 1) (valuesFrom scn.Buf scn.UnitPos.toNat) with
  | ok t1 rest =>
    rw [hr] at hs
    obtain ⟨q, s1, h2, h3, _, h4⟩ := hs
    cases h2
    obtain ⟨ts, h5, h6⟩ := (tok_sound _).1 _ _ _ hr
    exact ⟨ts, h6, _, q, hat, h3, by rw [h5, h4]⟩
  | fail => rw [hr] at hs; obtain ⟨e, s1, h2⟩ := hs; cases h2
  | panic => rw [hr] at hs; cases hs
  | outOfFuel => rw [hr] at hs; cases hs

/-! ## Maps -/

theorem mem_mapSet {β : Type} {m : List (Str × β)} {k : Str} {v : β} {p : Str × β}
    (h : p ∈ mapSet m k v) : p ∈ m ∨ p = (k, v) := by
  induction m with
  | nil => simp only [mapSet, List.mem_singleton] at h; exact Or.inr h
  | cons hd tl ih =>
    obtain ⟨k1, w⟩ := hd
    simp only [mapSet] at h
    by_cases hk : k1 = k
    · rw [if_pos hk] at h
      rcases List.mem_cons.mp h with h1 | h1
      · exact Or.inr h1
      · exact Or.inl (List.mem_cons_of_mem _ h1)
    · rw [if_neg hk] at h
      rcases List.mem_cons.mp h with h1 | h1
      · exact Or.inl (by rw [h1]; exact List.mem_cons_self _ _)
      · rcases ih h1 with h2 | h2
        · exact Or.inl (List.mem_cons_of_mem _ h2)
        · exact Or.inr h2

theorem keys_mapSet {β : Type} (m : List (Str × β)) (k : Str) (v : β) :
    (mapSet m k v).map Prod.fst =
      if k ∈ m.map Prod.fst then m.map Prod.fst else m.map Prod.fst ++ [k] := by
  induction m with
  | nil => simp only [mapSet, List.map_cons, List.map_nil, List.not_mem_nil, if_false,
      List.nil_append]
  | cons hd tl ih =>
    obtain ⟨k1, w⟩ := hd
    simp only [mapSet]
    by_cases hk : k1 = k
    · subst hk
      simp only [if_true, List.map_cons, List.mem_cons, true_or]
    · rw [if_neg hk]
      simp only [List.map_cons, ih, List.mem_cons]
      have hk2 : ¬ k = k1 := fun h => hk h.symm
      by_cases hm : k ∈ tl.map Prod.fst
      · simp only [hm, if_true, or_true]
      · simp only [hm, hk2, if_false, or_self, List.cons_append]

theorem mapSet_ne_nil {β : Type} (m : List (Str × β)) (k : Str) (v : β) : mapSet m k v ≠ [] := by
  cases m with
  | nil => simp only [mapSet, ne_eq, List.cons_ne_nil, not_false_eq_true]
  | cons hd tl =>
    obtain ⟨k1, w⟩ := hd
    simp only [mapSet]
    split <;> exact List.cons_ne_nil _ _

theorem forallEntries_iff (P : SchemaType → Prop) (m : List (Str × SchemaType)) :
    forallEntries P m ↔ ∀ p ∈ m, p.2.Forall P := by
  induction m with
  | nil => simp [forallEntries]
  | cons hd tl ih =>
    obtain ⟨k, v⟩ := hd
    simp only [forallEntries, ih, List.mem_cons, forall_eq_or_imp]

theorem forall_mk (P : SchemaType → Prop) (typ : Str) (m : List (Str × SchemaType))
    (order : List Str) :
    (SchemaType.mk typ (some m) order).Forall P ↔
      P (.mk typ (some m) order) ∧ ∀ p ∈ m, p.2.Forall P := by
  simp only [SchemaType.Forall, forallEntries_iff]

theorem forall_leaf (P : SchemaType → Prop) (typ : Str) (order : List Str) :
    (SchemaType.mk typ none order).Forall P ↔ P (.mk typ none order) := by
  simp only [SchemaType.Forall, and_true]

theorem Forall.here {P : SchemaType → Prop} {t : SchemaType} (h : t.Forall P) : P t := by
  cases t with
  | mk typ fields order =>
    cases fields <;> (simp only [SchemaType.Forall] at h; exact h.1)

/-! ## C5: the leaves under a struct -/

theorem der_inv5 {k : Kind} {ts : List Str} {t : SchemaType} (h : Der k ts t) : Inv5 k t := by
  induction h with
  | fieldLeaf u hu =>
    exact ⟨fun _ => hu, (forall_leaf _ _ _).mpr (fun _ p hp => by simp [SchemaType.entries, SchemaType.Fields] at hp)⟩
  | fieldNode h ih => exact ⟨fun hl => absurd hl ih.1, ih.2⟩
  | elemLeaf u str hp h1 h2 =>
    exact (forall_leaf _ _ _).mpr (fun _ p hp => by simp [SchemaType.entries, SchemaType.Fields] at hp)
  | elemNode h ih => exact ih.2
  | array h ih =>
    refine ⟨by simp [SchemaType.isLeaf, SchemaType.Fields], (forall_mk _ _ _ _).mpr ⟨?_, ?_⟩⟩
    · intro htyp
      simp [SchemaType.Typ] at htyp
    · intro p hp
      simp only [List.mem_singleton] at hp
      subst hp
      exact ih
  | structOpen =>
    exact (forall_mk _ _ _ _).mpr ⟨fun _ p hp => by simp [SchemaType.entries, SchemaType.Fields] at hp,
      fun p hp => by simp at hp⟩
  | addField name h0 hv ih0 ihv =>
    rename_i ts0 ts m order v
    have h1 := (forall_mk _ _ _ _).mp ih0
    refine ⟨by simp [SchemaType.isLeaf, SchemaType.Fields, mapSet_ne_nil],
      (forall_mk _ _ _ _).mpr ⟨?_, ?_⟩⟩
    · intro _ p hp hleaf
      simp only [SchemaType.entries, SchemaType.Fields, Option.getD_some] at hp
      rcases mem_mapSet hp with h2 | h2
      · exact h1.1 rfl p (by simpa [SchemaType.entries, SchemaType.Fields] using h2) hleaf
      · subst h2; exact ihv.1 hleaf
    · intro p hp
      rcases mem_mapSet hp with h2 | h2
      · exact h1.2 p h2
      · subst h2; exact ihv.2
  | comma h ih => exact ih.2
  | close h ih => exact ih

end GlueSchema


namespace GlueSchema

/-! ## Truncated input -/

theorem valuesFrom_zero (B : List ScanUnit) : valuesFrom B 0 = B.map (·.Value) := by
  simp [valuesFrom]

theorem valuesFrom_length (B : List ScanUnit) (q : Nat) :
    (valuesFrom B q).length = B.length - q := by
  simp [valuesFrom]

/-- The parser from the start of a buffer computes the values view of the
whole buffer. -/
theorem parseStruct_sim (scn : SvcScanner) (h0 : scn.UnitPos = 0) :
    SimRes scn.Buf 0 (parseStruct scn) (tokStruct (scn.Buf.length + 1) (scn.Buf.map (·.Value))) := by
  have h : AtPos scn.Buf 0 scn := ⟨rfl, by simpa using h0, by omega⟩
  have := (parser_sim (scn.Buf.length + 1)).1 scn.Buf 0 scn h
  rw [valuesFrom_zero] at this
  exact this

/-- What a successful `parseStruct` from the start of a buffer says of the
values view: it returns the same tree and leaves the values from the final
cursor on. -/
theorem parseStruct_ok_tok {scn s : SvcScanner} {t : SchemaType} (h0 : scn.UnitPos = 0)
    (hok : parseStruct scn = .ok t s) :
    ∃ q, AtPos scn.Buf q s ∧
      tokStruct (scn.Buf.length + 1) (scn.Buf.map (·.Value)) = .ok t (valuesFrom scn.Buf q) := by
  have hs := parseStruct_sim scn h0
  rw [hok] at hs
  cases hr : tokStruct (scn.Buf.length + 1) (scn.Buf.map (·.Value)) with
  | ok t1 rest =>
    rw [hr] at hs
    obtain ⟨q, s1, h1, h2, _, h4⟩ := hs
    cases h1
    exact ⟨q, h2, by rw [h4]⟩
  | fail => rw [hr] at hs; obtain ⟨e, s1, h1⟩ := hs; cases h1
  | panic => rw [hr] at hs; cases hs
  | outOfFuel => rw [hr] at hs; cases hs

/-- C7.  Truncated input is never a silent success: when `parseStruct`, started
at the first unit of a buffer, returns a tree with the cursor after `n` units,
then on the buffer cut to its first `k < n` units it returns an error (and no
tree). -/
theorem C7_truncated_buffer_is_an_error (scn s : SvcScanner) (t : SchemaType) (k : Nat)
    (h0 : scn.UnitPos = 0) (hok : parseStruct scn = .ok t s) (hk : (k : Int) < s.UnitPos) :
    ∃ e s1, parseStruct { scn with Buf := scn.Buf.take k } = .error e s1 := by
  obtain ⟨q, ⟨_, hq, hqle⟩, hr⟩ := parseStruct_ok_tok h0 hok
  have hkq : k < q := by rw [hq] at hk; exact_mod_cast hk
  have hlen : (scn.Buf.take k).length = k := by simp; omega
  have hs := parseStruct_sim { scn with Buf := scn.Buf.take k } h0
  simp only [hlen] at hs
  have hvals : (scn.Buf.take k).map (·.Value) ++ (scn.Buf.map (·.Value)).drop k =
      scn.Buf.map (·.Value) := by
    rw [List.map_take, List.take_append_drop]
  have hprog := ((tok_prog (k + 1)).1 ((scn.Buf.take k).map (·.Value))).2
    (by rw [List.length_map, hlen]; omega)
  have hext := (tok_ext (k + 1) (scn.Buf.length + 1) (by omega)).1
    ((scn.Buf.take k).map (·.Value)) ((scn.Buf.map (·.Value)).drop k) hprog
  cases hr1 : tokStruct (k + 1) ((scn.Buf.take k).map (·.Value)) with
  | fail => rw [hr1] at hs; exact hs
  | outOfFuel => exact absurd hr1 hprog
  | panic =>
    rw [hr1] at hext
    rw [hvals, hr] at hext
    exact absurd (hext (by simp)) (by simp [TokRes.extend])
  | ok t1 rest1 =>
    rw [hr1] at hext
    rw [hvals, hr] at hext
    have h2 := hext (by simp)
    simp only [TokRes.extend, TokRes.ok.injEq] at h2
    have h3 := congrArg List.length h2.2
    simp only [valuesFrom_length, List.length_append, List.length_drop, List.length_map] at h3
    omega

/-- C7 at the text `struct<x:int>`: cut before its closing `>`, the text
`struct<x:int` gives the first five units of the six, and `parseStruct` returns
an error for it. -/
theorem C7_truncated_buffer_witness :
    NewSvcScanner latin1Tables 0 "struct<x:int>".toList = .ok xIntScanner 0 ∧
    NewSvcScanner latin1Tables 0 "struct<x:int".toList =
      .ok { xIntScanner with Buf := xIntScanner.Buf.take 5 } 1 ∧
    parseStruct xIntScanner = .ok xIntTree { xIntScanner with UnitPos := 6, lineNo := 1 } ∧
    ∃ e s1, parseStruct { xIntScanner with Buf := xIntScanner.Buf.take 5 } = .error e s1 :=
  ⟨by decide, by decide, by decide!,
    C7_truncated_buffer_is_an_error xIntScanner { xIntScanner with UnitPos := 6, lineNo := 1 }
      xIntTree 5 rfl (by decide!) (by decide)⟩

end GlueSchema


namespace GlueSchema

/-! ## C5: unknown types of struct fields -/

theorem peakView_eq_of_head {u : Str} (c : Char) (cs : Str) (h : peakView u = some (c :: cs))
    (hc : unicodeIsSpace c = false) : u = c :: cs := by
  cases u with
  | nil => cases h
  | cons u0 us =>
    simp only [peakView, Option.some.injEq] at h
    by_cases hsp : unicodeIsSpace u0 = true
    · rw [if_pos hsp] at h
      exfalso
      split at h
      · simp only [List.cons.injEq] at h
        rw [← h.1] at hc
        revert hc; decide
      · simp only [List.cons.injEq] at h
        rw [← h.1] at hc
        revert hc; decide
    · rw [if_neg hsp] at h
      exact h

/-- The pass of the field loop on a field `name:u` whose type unit `u` is not a
keyword and not an approved name returns the error that names `u`. -/
theorem structLoop_notApproved (fuel : Nat) (scn : SvcScanner) (p : Nat) (outStruct : SchemaType)
    (name u : Str) (rest : List Str) (hat : AtPos scn.Buf p scn)
    (hv : valuesFrom scn.Buf p = name :: ":".toList :: u :: rest) (hne : u ≠ [])
    (h1 : u ≠ "array".toList) (h2 : u ≠ "struct".toList) (h3 : u ∉ approvedTypes) :
    ∃ s1, structLoop (fuel + 1) scn outStruct = .error (.notApproved u) s1 := by
  rw [structLoop]
  obtain ⟨s1, e1, hs1⟩ := checkPanic_readUnit_cons hat hv
  have hv1 := valuesFrom_succ hv
  obtain ⟨s2, e2, hs2⟩ := verify_cons_eq hs1 hv1 []
  have hv2 := valuesFrom_succ hv1
  have hp := peak_cons hs2 hv2
  rw [e1]
  simp only [andThen_ok]
  rw [VerifyExpecting, e2]
  simp only [andThen_ok]
  cases hstr : peakView u with
  | none =>
    cases u with
    | nil => exact absurd rfl hne
    | cons u0 us => simp [peakView] at hstr
  | some str =>
    rw [hstr] at hp
    obtain ⟨s3, e3, hs3⟩ := hp
    rw [e3]
    simp only [checkPanic, andThen_ok]
    have n1 : str ≠ "array".toList := fun h =>
      h1 (peakView_eq_of_head 'a' "rray".toList (by rw [hstr, h]; rfl) (by decide))
    have n2 : str ≠ "struct".toList := fun h =>
      h2 (peakView_eq_of_head 's' "truct".toList (by rw [hstr, h]; rfl)
        (by decide))
    obtain ⟨s4, e4, _⟩ := checkPanic_readUnit_cons hs3 hv2
    have hval : (mapGet ValidTypes u).isNone = true := by
      by_contra hc
      exact h3 (mem_approved_of_valid (Bool.eq_false_iff.mpr hc) h1 h2)
    unfold fieldStep
    rw [if_neg n1, if_neg n2, if_neg n2, e4]
    simp only [andThen_ok, hval, if_true]
    exact ⟨s4, rfl⟩

/-- C5.  Unknown struct-field types are rejected.  (1) A pass of the field loop
of `parseStruct` that reads a field whose type unit is neither `array` nor
`struct` nor one of int, bigint, double, string, boolean returns an error that
names the unit, and so no tree.  (2) In every tree `parseStruct` returns, every
childless node that is a field of a struct has one of the five names.  (3) The
text `struct<x:foo>` is rejected with the error that names `foo`. -/
theorem C5_unknown_field_type_rejected :
    (∀ (fuel : Nat) (scn : SvcScanner) (p : Nat) (outStruct : SchemaType) (name u : Str)
        (rest : List Str), AtPos scn.Buf p scn →
        valuesFrom scn.Buf p = name :: ":".toList :: u :: rest → u ≠ [] →
        u ≠ "array".toList → u ≠ "struct".toList → u ∉ approvedTypes →
        ∃ s1, structLoop (fuel + 1) scn outStruct = .error (.notApproved u) s1) ∧
    (∀ (scn s : SvcScanner) (t : SchemaType), parseStruct scn = .ok t s →
        t.Forall StructLeavesApproved) ∧
    (parseText latin1Tables 0 "struct<x:foo>".toList).error? =
      some (.notApproved "foo".toList) := by
  refine ⟨structLoop_notApproved, ?_, ?_⟩
  · intro scn s t h
    obtain ⟨ts, hd, _⟩ := parseStruct_der h
    exact (der_inv5 hd).2
  · have hl : NewSvcScanner latin1Tables 0 "struct<x:foo>".toList = .ok
        ⟨0, [⟨0, 1, "struct".toList⟩, ⟨1, 1, "<".toList⟩, ⟨1, 1, "x".toList⟩,
          ⟨1, 1, ":".toList⟩, ⟨1, 1, "foo".toList⟩, ⟨0, 1, ">".toList⟩], 0, 0⟩ 0 := by decide
    unfold parseText
    rw [hl]
    decide!

end GlueSchema


namespace GlueSchema

/-! ## C8: field names and keys -/

theorem nodup_iff_length_of_keys {α : Type} [DecidableEq α] {keys order : List α}
    (hn : keys.Nodup) (hmem : ∀ n, n ∈ keys ↔ n ∈ order) :
    order.Nodup ↔ order.length = keys.length := by
  constructor
  · intro ho
    exact ((List.perm_ext_iff_of_nodup hn ho).mpr hmem).length_eq.symm
  · intro hl
    have hsub : keys.Subperm order := List.subperm_of_subset hn (fun n h => (hmem n).mp h)
    have hperm := hsub.perm_of_length_le (by omega)
    exact hperm.nodup_iff.mp hn

theorem keysAreTheNames_mk (m : List (Str × SchemaType)) (order : List Str)
    (hn : (m.map Prod.fst).Nodup) (hmem : ∀ n, n ∈ m.map Prod.fst ↔ n ∈ order) :
    KeysAreTheNames (.mk "struct".toList (some m) order) := by
  intro _
  simp only [SchemaType.keys, SchemaType.entries, SchemaType.Fields, Option.getD_some,
    SchemaType.FieldOrder]
  exact ⟨hn, hmem, nodup_iff_length_of_keys hn hmem⟩

theorem keysAreTheNames_not_struct (typ : Str) (f : Option (List (Str × SchemaType)))
    (order : List Str) (h : typ ≠ "struct".toList) : KeysAreTheNames (.mk typ f order) :=
  fun h1 => absurd h1 h

theorem der_inv8 {k : Kind} {ts : List Str} {t : SchemaType} (h : Der k ts t) : Inv8 k t := by
  induction h with
  | fieldLeaf u hu =>
    refine (forall_leaf _ _ _).mpr (fun _ => ?_)
    simp [SchemaType.keys, SchemaType.entries, SchemaType.Fields, SchemaType.FieldOrder]
  | fieldNode h ih => exact ih
  | elemLeaf u str hp h1 h2 =>
    refine (forall_leaf _ _ _).mpr (fun _ => ?_)
    simp [SchemaType.keys, SchemaType.entries, SchemaType.Fields, SchemaType.FieldOrder]
  | elemNode h ih => exact ih
  | array h ih =>
    refine (forall_mk _ _ _ _).mpr ⟨keysAreTheNames_not_struct _ _ _ (by decide), ?_⟩
    intro p hp
    simp only [List.mem_singleton] at hp
    subst hp
    exact ih
  | structOpen =>
    exact (forall_mk _ _ _ _).mpr ⟨keysAreTheNames_mk [] [] (by simp) (by simp),
      fun p hp => by simp at hp⟩
  | addField name h0 hv ih0 ihv =>
    rename_i ts0 ts m order v
    have h1 := (forall_mk _ _ _ _).mp ih0
    obtain ⟨hn, hmem, _⟩ := h1.1 rfl
    simp only [SchemaType.keys, SchemaType.entries, SchemaType.Fields, Option.getD_some,
      SchemaType.FieldOrder] at hn hmem
    refine (forall_mk _ _ _ _).mpr ⟨keysAreTheNames_mk _ _ ?_ ?_, ?_⟩
    · rw [keys_mapSet]
      by_cases hk : name ∈ m.map Prod.fst
      · rw [if_pos hk]; exact hn
      · rw [if_neg hk]
        exact List.Nodup.append hn (List.nodup_singleton _)
          (by simpa [List.disjoint_singleton] using hk)
    · intro n
      rw [keys_mapSet]
      by_cases hk : name ∈ m.map Prod.fst
      · rw [if_pos hk, List.mem_append, List.mem_singleton, hmem]
        constructor
        · exact Or.inl
        · rintro (h | h)
          · exact h
          · rw [h]; exact (hmem name).mp hk
      · rw [if_neg hk, List.mem_append, List.mem_append, hmem]
    · intro p hp
      rcases mem_mapSet hp with h2 | h2
      · exact h1.2 p h2
      · subst h2; exact ihv
  | comma h ih => exact ih
  | close h ih => exact ih

/-- C8, as the code has it.  At every struct node of a tree `parseStruct`
returns, the keys of `Fields` are pairwise distinct and are exactly the names
that occur in `FieldOrder`; `FieldOrder` is free of duplicates exactly when it
is as long as `Fields` has keys. -/
theorem C8_keys_are_the_names (scn s : SvcScanner) (t : SchemaType)
    (h : parseStruct scn = .ok t s) : t.Forall KeysAreTheNames := by
  obtain ⟨ts, hd, _⟩ := parseStruct_der h
  exact der_inv8 hd

/-- C8 as the code has it, at the scanner of the text `struct<x:int>`. -/
theorem C8_keys_are_the_names_witness :
    parseStruct xIntScanner = .ok xIntTree { xIntScanner with UnitPos := 6, lineNo := 1 } ∧
    xIntTree.Forall KeysAreTheNames :=
  ⟨by decide!, C8_keys_are_the_names xIntScanner { xIntScanner with UnitPos := 6, lineNo := 1 }
    xIntTree (by decide!)⟩

/-- C8 as the claim has it fails on the text `struct<a:int,a:string>`: the
parser returns a struct whose `FieldOrder` is `a, a` while `Fields` has the one
key `a`. -/
theorem C8_duplicate_names_kept :
    NewSvcScanner latin1Tables 0 "struct<a:int,a:string>".toList = .ok dupScanner 0 ∧
    (parseStruct dupScanner).value? = some dupTree ∧
    dupTree.FieldOrder = ["a".toList, "a".toList] ∧ dupTree.keys = ["a".toList] ∧
    ¬ dupTree.Forall UniqueFieldNames := by
  refine ⟨by decide, by decide!, rfl, rfl, ?_⟩
  intro h
  have h1 := (Forall.here h) rfl
  exact absurd h1.2 (by decide)

end GlueSchema


namespace GlueSchema

/-! ## The reader at a position of the text -/

theorem newlines_append (a b : Str) : newlines (a ++ b) = newlines a + newlines b := by
  simp [newlines, List.count_append]

theorem newlines_singleton (c : Char) : newlines [c] = if c = '\n' then 1 else 0 := by
  by_cases h : c = '\n'
  · subst h; rfl
  · have h1 : ¬ '\n' = c := fun h1 => h h1.symm
    simp [newlines, h, h1, List.count_singleton]

theorem getElem?_length_append {α : Type} (pre post : List α) (c : α) :
    (pre ++ c :: post)[pre.length]? = some c := by
  rw [List.getElem?_append_right (Nat.le_refl _)]
  simp

theorem readRune_readerAt_cons (pre post : List Char) (c : Char) :
    (readerAt pre (c :: post)).ReadRune = .ok c (readerAt (pre ++ [c]) post) := by
  unfold RuneReader.ReadRune readerAt
  have h1 : ((pre.length : Nat) : Int) < ((pre ++ c :: post).length : Nat) := by
    simp only [List.length_append, List.length_cons]; omega
  simp only [h1, if_true, goIndex_natCast, getElem?_length_append]
  have h3 : (pre ++ [c]).length = pre.length + 1 := by simp
  have h4 : pre ++ [c] ++ post = pre ++ c :: post := by simp
  rw [h3, h4, newlines_append, newlines_singleton]
  by_cases hc : c = '\n'
  · simp only [hc, if_true]
    congr 2
  · simp only [hc, if_false]
    congr 2

theorem readRune_readerAt_nil (pre : List Char) :
    (readerAt pre []).ReadRune = .error .EOF (readerAt pre []) := by
  unfold RuneReader.ReadRune readerAt
  simp

theorem unreadRune_readerAt (pre post : List Char) (c : Char) :
    (readerAt (pre ++ [c]) post).UnreadRune = .ok () (readerAt pre (c :: post)) := by
  unfold RuneReader.UnreadRune readerAt
  have h0 : (((pre ++ [c]).length : Nat) : Int) ≠ 0 := by
    simp only [List.length_append, List.length_cons, List.length_nil]; omega
  have h1 : (((pre ++ [c]).length : Nat) : Int) - 1 = (pre.length : Nat) := by
    simp only [List.length_append, List.length_cons, List.length_nil]; omega
  have h4 : pre ++ [c] ++ post = pre ++ c :: post := by simp
  simp only [h0, if_false, h1, goIndex_natCast, h4, getElem?_length_append]
  rw [newlines_append, newlines_singleton]
  by_cases hc : c = '\n'
  · simp only [hc, if_true]
    congr 2
    omega
  · simp only [hc, if_false]
    congr 2

/-! ## The grouping loops -/

theorem spaceLoop_eq (post : List Char) : ∀ (pre buf : List Char) (fuel : Nat) (b : Int),
    post.length < fuel →
    spaceLoop fuel ⟨readerAt pre post, b⟩ buf =
      .ok ⟨b, 1 + newlines (pre ++ post.takeWhile unicodeIsSpace),
          buf ++ post.takeWhile unicodeIsSpace⟩
        ⟨readerAt (pre ++ post.takeWhile unicodeIsSpace) (post.dropWhile unicodeIsSpace), b⟩ := by
  induction post with
  | nil =>
    intro pre buf fuel b hf
    obtain ⟨f, rfl⟩ : ∃ f, fuel = f + 1 := ⟨fuel - 1, by simp at hf; omega⟩
    simp only [spaceLoop, readRune_readerAt_nil, if_true, setReturn, List.takeWhile_nil,
      List.append_nil, List.dropWhile_nil]
    rfl
  | cons d post ih =>
    intro pre buf fuel b hf
    obtain ⟨f, rfl⟩ : ∃ f, fuel = f + 1 := ⟨fuel - 1, by simp at hf; omega⟩
    simp only [spaceLoop, readRune_readerAt_cons]
    by_cases hd : unicodeIsSpace d = true
    · simp only [hd, Bool.not_true, Bool.false_eq_true, if_false, List.takeWhile_cons_of_pos,
        List.dropWhile_cons_of_pos]
      rw [ih (pre ++ [d]) (buf ++ [d]) f b (by simp at hf; omega)]
      simp only [List.append_assoc, List.singleton_append]
    · have hd1 : unicodeIsSpace d = false := by simpa using hd
      simp only [hd1, Bool.not_false, if_true, unreadRune_readerAt, setReturn,
        List.takeWhile_cons_of_neg hd, List.dropWhile_cons_of_neg hd, List.append_nil]
      rfl

theorem identLoop_eq (T : UnicodeTables) (post : List Char) :
    ∀ (pre buf : List Char) (fuel : Nat) (b : Int), post.length < fuel →
    identLoop T fuel ⟨readerAt pre post, b⟩ buf =
      .ok ⟨b, 1 + newlines (pre ++ post.takeWhile (isIdent T)),
          buf ++ post.takeWhile (isIdent T)⟩
        ⟨readerAt (pre ++ post.takeWhile (isIdent T)) (post.dropWhile (isIdent T)), b⟩ := by
  induction post with
  | nil =>
    intro pre buf fuel b hf
    obtain ⟨f, rfl⟩ : ∃ f, fuel = f + 1 := ⟨fuel - 1, by simp at hf; omega⟩
    simp only [identLoop, readRune_readerAt_nil, if_true, setReturn, List.takeWhile_nil,
      List.append_nil, List.dropWhile_nil]
    rfl
  | cons d post ih =>
    intro pre buf fuel b hf
    obtain ⟨f, rfl⟩ : ∃ f, fuel = f + 1 := ⟨fuel - 1, by simp at hf; omega⟩
    simp only [identLoop, readRune_readerAt_cons]
    by_cases hd : isIdent T d = true
    · simp only [hd, Bool.not_true, Bool.false_eq_true, if_false, List.takeWhile_cons_of_pos,
        List.dropWhile_cons_of_pos]
      rw [ih (pre ++ [d]) (buf ++ [d]) f b (by simp at hf; omega)]
      simp only [List.append_assoc, List.singleton_append]
    · have hd1 : isIdent T d = false := by simpa using hd
      simp only [hd1, Bool.not_false, if_true, unreadRune_readerAt, setReturn,
        List.takeWhile_cons_of_neg hd, List.dropWhile_cons_of_neg hd, List.append_nil]
      rfl

/-! ## `BuildScanUnit` and `NewSvcScanner` -/

theorem isIdent_lt (T : UnicodeTables) : isIdent T '<' = false := rfl

theorem isIdent_gt (T : UnicodeTables) : isIdent T '>' = false := rfl

theorem unitDelta_of_ne (c : Char) (cs : Str) (h1 : c ≠ '<') (h2 : c ≠ '>') :
    unitDelta (c :: cs) = 0 := by
  unfold unitDelta
  rw [if_neg, if_neg]
  · intro h; simp only [String.toList, List.cons.injEq] at h; exact h2 h.1
  · intro h; simp only [String.toList, List.cons.injEq] at h; exact h1 h.1

theorem loopFuel_readerAt (pre post : List Char) : loopFuel (readerAt pre post) = post.length + 1 := by
  simp [loopFuel, readerAt]

theorem buildScanUnit_cons (T : UnicodeTables) (pre post : List Char) (c : Char) (b : Int) :
    BuildScanUnit T ⟨readerAt pre (c :: post), b⟩ =
      .ok ⟨b + unitDelta (nextUnit T c post).1, 1 + newlines (pre ++ (nextUnit T c post).1),
          (nextUnit T c post).1⟩
        ⟨readerAt (pre ++ (nextUnit T c post).1) (nextUnit T c post).2,
          b + unitDelta (nextUnit T c post).1⟩ := by
  unfold BuildScanUnit nextUnit
  simp only [readRune_readerAt_cons, loopFuel_readerAt]
  by_cases hs : unicodeIsSpace c = true
  · have h1 : c ≠ '<' := by intro h; rw [h] at hs; revert hs; decide
    have h2 : c ≠ '>' := by intro h; rw [h] at hs; revert hs; decide
    simp only [hs, if_true]
    rw [spaceLoop_eq post (pre ++ [c]) [c] _ b (Nat.lt_succ_self _), unitDelta_of_ne c _ h1 h2]
    simp only [List.append_assoc, List.singleton_append, add_zero]
  · have hs1 : unicodeIsSpace c = false := by simpa using hs
    simp only [hs1, Bool.false_eq_true, if_false]
    by_cases hi : isIdent T c = true
    · have h1 : c ≠ '<' := by intro h; rw [h, isIdent_lt] at hi; cases hi
      have h2 : c ≠ '>' := by intro h; rw [h, isIdent_gt] at hi; cases hi
      simp only [hi, if_true]
      rw [identLoop_eq T post (pre ++ [c]) [c] _ b (Nat.lt_succ_self _),
        unitDelta_of_ne c _ h1 h2]
      simp only [List.append_assoc, List.singleton_append, add_zero]
    · have hi1 : isIdent T c = false := by simpa using hi
      simp only [hi1, Bool.false_eq_true, if_false]
      by_cases h1 : c = '<'
      · subst h1
        simp only [if_true, setReturn]
        rfl
      · simp only [h1, if_false]
        by_cases h2 : c = '>'
        · subst h2
          simp only [if_true, setReturn]
          rfl
        · simp only [h2, if_false, setReturn, unitDelta_of_ne c [] h1 h2, add_zero]
          rfl

theorem buildScanUnit_nil (T : UnicodeTables) (pre : List Char) (b : Int) :
    BuildScanUnit T ⟨readerAt pre [], b⟩ = .error .EOF ⟨readerAt pre [], b⟩ := by
  unfold BuildScanUnit
  simp only [readRune_readerAt_nil]

theorem nextUnit_length_le (T : UnicodeTables) (c : Char) (cs : List Char) :
    (nextUnit T c cs).2.length ≤ cs.length := by
  unfold nextUnit
  split
  · exact (List.dropWhile_sublist _).length_le
  · split
    · exact (List.dropWhile_sublist _).length_le
    · exact Nat.le_refl _

theorem nextUnit_append (T : UnicodeTables) (c : Char) (cs : List Char) :
    (nextUnit T c cs).1 ++ (nextUnit T c cs).2 = c :: cs := by
  unfold nextUnit
  split
  · simp [List.takeWhile_append_dropWhile]
  · split
    · simp [List.takeWhile_append_dropWhile]
    · rfl

theorem lexUnits_nil (T : UnicodeTables) (b l : Int) : lexUnits T b l [] = [] := by
  rw [lexUnits]

theorem lexUnits_cons (T : UnicodeTables) (b l : Int) (c : Char) (cs : List Char) :
    lexUnits T b l (c :: cs) =
      { BraceLevel := b + unitDelta (nextUnit T c cs).1,
        LineNo := l + newlines (nextUnit T c cs).1,
        Value := (nextUnit T c cs).1 } ::
        lexUnits T (b + unitDelta (nextUnit T c cs).1) (l + newlines (nextUnit T c cs).1)
          (nextUnit T c cs).2 := by
  rw [lexUnits]

theorem lexList_nil (T : UnicodeTables) : lexList T [] = [] := by
  rw [lexList]

theorem lexList_cons (T : UnicodeTables) (c : Char) (cs : List Char) :
    lexList T (c :: cs) = (nextUnit T c cs).1 :: lexList T (nextUnit T c cs).2 := by
  rw [lexList]

theorem lexUnits_values (T : UnicodeTables) (n : Nat) : ∀ (r : List Char) (b l : Int),
    r.length ≤ n → (lexUnits T b l r).map (·.Value) = lexList T r := by
  induction n with
  | zero =>
    intro r b l h
    have : r = [] := List.length_eq_zero.mp (by omega)
    subst this
    rw [lexUnits_nil, lexList_nil]; rfl
  | succ n ih =>
    intro r b l h
    cases r with
    | nil => rw [lexUnits_nil, lexList_nil]; rfl
    | cons c cs =>
      rw [lexUnits_cons, lexList_cons, List.map_cons]
      have := nextUnit_length_le T c cs
      rw [ih _ _ _ (by simp at h; omega)]

theorem braceAfter_nil (T : UnicodeTables) (b : Int) : braceAfter T b [] = b := by
  simp [braceAfter, lexList_nil]

theorem braceAfter_cons (T : UnicodeTables) (b : Int) (c : Char) (cs : List Char) :
    braceAfter T b (c :: cs) =
      braceAfter T (b + unitDelta (nextUnit T c cs).1) (nextUnit T c cs).2 := by
  simp [braceAfter, lexList_cons, add_assoc]

theorem scanLoop_eq (T : UnicodeTables) (n : Nat) : ∀ (post pre : List Char) (b : Int)
    (acc : List ScanUnit) (fuel : Nat), post.length ≤ n → post.length < fuel →
    scanLoop T fuel ⟨readerAt pre post, b⟩ acc =
      .ok (acc ++ lexUnits T b (1 + newlines pre) post)
        ⟨readerAt (pre ++ post) [], braceAfter T b post⟩ := by
  induction n with
  | zero =>
    intro post pre b acc fuel h hf
    have : post = [] := List.length_eq_zero.mp (by omega)
    subst this
    obtain ⟨f, rfl⟩ : ∃ f, fuel = f + 1 := ⟨fuel - 1, by omega⟩
    simp only [scanLoop, buildScanUnit_nil, lexUnits_nil, List.append_nil, braceAfter_nil]
  | succ n ih =>
    intro post pre b acc fuel h hf
    obtain ⟨f, rfl⟩ : ∃ f, fuel = f + 1 := ⟨fuel - 1, by omega⟩
    cases post with
    | nil => simp only [scanLoop, buildScanUnit_nil, lexUnits_nil, List.append_nil, braceAfter_nil]
    | cons c cs =>
      have hle := nextUnit_length_le T c cs
      simp only [scanLoop, buildScanUnit_cons]
      rw [ih _ _ _ _ f (by simp at h; omega) (by simp at hf; omega), lexUnits_cons,
        braceAfter_cons, newlines_append]
      simp only [List.append_assoc, List.singleton_append, nextUnit_append, add_assoc]

/-- `NewSvcScanner` always returns a scanner: its buffer holds the units of the
text, lexed from the current value of `braceLev`, and the cursor is at the
first unit. -/
theorem newSvcScanner_eq (T : UnicodeTables) (b : Int) (r : List Char) :
    NewSvcScanner T b r =
      .ok { BraceLevel := 0, Buf := lexUnits T b 1 r, UnitPos := 0, lineNo := 0 }
        (braceAfter T b r) := by
  unfold NewSvcScanner
  have h := scanLoop_eq T r.length r [] b [] (r.length + 1) (Nat.le_refl _) (Nat.lt_succ_self _)
  have h0 : NewRuneReader r = readerAt [] r := by
    simp [NewRuneReader, readerAt, newlines]
  have h1 : (1 : Int) + newlines [] = 1 := by simp [newlines]
  rw [h0, h, h1]
  simp

end GlueSchema


namespace GlueSchema

/-! ## The shapes of the units -/

theorem nextUnit_shape (T : UnicodeTables) (c : Char) (cs : List Char) :
    UnitShape T (nextUnit T c cs).1 := by
  unfold nextUnit
  by_cases hs : unicodeIsSpace c = true
  · rw [if_pos hs]
    refine Or.inl ⟨List.cons_ne_nil _ _, ?_⟩
    intro d hd
    rcases List.mem_cons.mp hd with h | h
    · rw [h]; exact hs
    · exact (List.mem_takeWhile_imp h)
  · rw [if_neg hs]
    by_cases hi : isIdent T c = true
    · rw [if_pos hi]
      refine Or.inr (Or.inl ⟨⟨c, _, rfl, by simpa using hs⟩, ?_⟩)
      intro d hd
      rcases List.mem_cons.mp hd with h | h
      · rw [h]; exact hi
      · exact (List.mem_takeWhile_imp h)
    · rw [if_neg hi]
      exact Or.inr (Or.inr ⟨c, rfl, by simpa using hs, by simpa using hi⟩)

/-- Every unit of a text is a run of white space, a run of identifier runes, or
one other rune. -/
theorem lexList_shape (T : UnicodeTables) (n : Nat) :
    ∀ r : List Char, r.length ≤ n → ∀ u ∈ lexList T r, UnitShape T u := by
  induction n with
  | zero =>
    intro r h u hu
    have : r = [] := List.length_eq_zero.mp (by omega)
    subst this
    rw [lexList_nil] at hu
    cases hu
  | succ n ih =>
    intro r h u hu
    cases r with
    | nil => rw [lexList_nil] at hu; cases hu
    | cons c cs =>
      rw [lexList_cons] at hu
      rcases List.mem_cons.mp hu with h1 | h1
      · rw [h1]; exact nextUnit_shape T c cs
      · have := nextUnit_length_le T c cs
        exact ih _ (by simp at h; omega) u h1

theorem UnitShape.ne_nil {T : UnicodeTables} {u : Str} (h : UnitShape T u) : u ≠ [] := by
  rcases h with h | h | h
  · exact h.1
  · obtain ⟨⟨c, cs, rfl, _⟩, _⟩ := h
    exact List.cons_ne_nil _ _
  · obtain ⟨c, rfl, _⟩ := h
    exact List.cons_ne_nil _ _

/-! ## Lexing a sequence of units written one after the other -/

theorem takeWhile_append_stop {α : Type} (p : α → Bool) (a b : List α)
    (ha : ∀ x ∈ a, p x = true) (hb : ∀ x ∈ b.head?, p x = false) :
    (a ++ b).takeWhile p = a ∧ (a ++ b).dropWhile p = b := by
  induction a with
  | nil =>
    cases b with
    | nil => simp
    | cons d b =>
      have hd : p d = false := hb d (by simp)
      simp [List.takeWhile_cons, List.dropWhile_cons, hd]
  | cons x a ih =>
    have hx : p x = true := ha x (List.mem_cons_self _ _)
    have := ih (fun y hy => ha y (List.mem_cons_of_mem _ hy))
    simp [List.takeWhile_cons, List.dropWhile_cons, hx, this.1, this.2]

theorem nextUnit_of_shape (T : UnicodeTables) (c : Char) (cs rest : List Char)
    (hu : UnitShape T (c :: cs)) (hstop : StopsRun T (c :: cs) rest) :
    nextUnit T c (cs ++ rest) = (c :: cs, rest) := by
  unfold nextUnit
  rcases hu with h | h | h
  · have hc : unicodeIsSpace c = true := h.2 c (List.mem_cons_self _ _)
    have hstop1 : ∀ d ∈ rest.head?, unicodeIsSpace d = false := by
      rcases hstop with h1 | h1
      · obtain ⟨d, hd, hd1, _⟩ := h1
        simp only [List.cons.injEq] at hd
        rw [hd.1] at hc; rw [hc] at hd1; cases hd1
      · exact fun d hd => (h1 d hd).1
    have := takeWhile_append_stop unicodeIsSpace cs rest
      (fun x hx => h.2 x (List.mem_cons_of_mem _ hx)) hstop1
    rw [if_pos hc, this.1, this.2]
  · obtain ⟨⟨c1, cs1, he, hns⟩, hall⟩ := h
    simp only [List.cons.injEq] at he
    have hc : unicodeIsSpace c = false := by rw [he.1]; exact hns
    have hi : isIdent T c = true := hall c (List.mem_cons_self _ _)
    have hstop1 : ∀ d ∈ rest.head?, isIdent T d = false := by
      rcases hstop with h1 | h1
      · obtain ⟨d, hd, _, hd2⟩ := h1
        simp only [List.cons.injEq] at hd
        rw [hd.1] at hi; rw [hi] at hd2; cases hd2
      · exact fun d hd => (h1 d hd).2
    have := takeWhile_append_stop (isIdent T) cs rest
      (fun x hx => hall x (List.mem_cons_of_mem _ hx)) hstop1
    rw [if_neg (by simp [hc]), if_pos hi, this.1, this.2]
  · obtain ⟨d, hd, hd1, hd2⟩ := h
    simp only [List.cons.injEq] at hd
    obtain ⟨rfl, rfl⟩ := hd
    rw [if_neg (by simp [hd1]), if_neg (by simp [hd2])]
    rfl

theorem stopsRun_of_separated (T : UnicodeTables) (u : Str) (ts : List Str)
    (hshape : ∀ v ∈ ts, UnitShape T v) (hsep : Separated T (u :: ts)) :
    StopsRun T u ts.flatten := by
  cases ts with
  | nil => exact Or.inr (fun d hd => by simp at hd)
  | cons v ts =>
    have h := (List.chain'_cons.mp hsep).1
    rcases h with h | h
    · exact Or.inl h
    · obtain ⟨d, rfl, hd1, hd2⟩ := h
      refine Or.inr (fun e he => ?_)
      simp only [List.flatten_cons, List.singleton_append, List.head?_cons, Option.mem_def,
        Option.some.injEq] at he
      subst he
      exact ⟨hd1, hd2⟩

/-- Units written one after the other lex back to themselves when, of every
two neighbours, one is a single rune that is neither white space nor an
identifier rune. -/
theorem lexList_join (T : UnicodeTables) (ts : List Str) (hshape : ∀ u ∈ ts, UnitShape T u)
    (hsep : Separated T ts) : lexList T ts.flatten = ts := by
  induction ts with
  | nil => simp [lexList_nil]
  | cons u ts ih =>
    have hu := hshape u (List.mem_cons_self _ _)
    have hts : ∀ v ∈ ts, UnitShape T v := fun v hv => hshape v (List.mem_cons_of_mem _ hv)
    have hstop := stopsRun_of_separated T u ts hts hsep
    cases u with
    | nil => exact absurd rfl hu.ne_nil
    | cons c cs =>
      rw [List.flatten_cons, List.cons_append, lexList_cons,
        nextUnit_of_shape T c cs ts.flatten hu hstop]
      simp only
      rw [ih hts (List.Chain'.tail hsep)]

end GlueSchema


namespace GlueSchema

/-! ## Every derivation is parsed back -/

theorem peakView_array : peakView "array".toList = some "array".toList := by decide

theorem peakView_struct : peakView "struct".toList = some "struct".toList := by decide

theorem peakView_comma : peakView ",".toList = some ",".toList := by decide

theorem peakView_close : peakView ">".toList = some ">".toList := by decide

theorem tokFieldType_array (tA tS : List Str → TokRes) (l : List Str) :
    tokFieldType tA tS ("array".toList :: l) = tA ("array".toList :: l) := by
  simp only [tokFieldType, peakView_array, if_true]

theorem tokFieldType_struct (tA tS : List Str → TokRes) (l : List Str) :
    tokFieldType tA tS ("struct".toList :: l) = tS ("struct".toList :: l) := by
  simp only [tokFieldType, peakView_struct]
  rw [if_neg (by decide)]
  simp only [if_true]

theorem tokElemType_array (tA tS : List Str → TokRes) (l : List Str) :
    tokElemType tA tS ("array".toList :: l) = tA ("array".toList :: l) := by
  simp only [tokElemType, peakView_array, if_true]

theorem tokElemType_struct (tA tS : List Str → TokRes) (l : List Str) :
    tokElemType tA tS ("struct".toList :: l) = tS ("struct".toList :: l) := by
  simp only [tokElemType, peakView_struct]
  rw [if_neg (by decide)]
  simp only [if_true]

theorem tokFieldType_leaf (tA tS : List Str → TokRes) (u : Str) (hu : u ∈ approvedTypes)
    (rest : List Str) : tokFieldType tA tS (u :: rest) = .ok (.mk u none []) rest := by
  simp only [approvedTypes, List.mem_cons, List.mem_singleton, List.not_mem_nil, or_false] at hu
  rcases hu with h | h | h | h | h <;> subst h <;> rfl

theorem tokElemType_leaf (tA tS : List Str → TokRes) (u str : Str) (hp : peakView u = some str)
    (h1 : str ≠ "array".toList) (h2 : str ≠ "struct".toList) (rest : List Str) :
    tokElemType tA tS (u :: rest) = .ok (.mk str none []) rest := by
  simp only [tokElemType, hp, if_neg h1, if_neg h2]

theorem tokAfterField_comma (tL : List Str → TokRes) (t : SchemaType) (l : List Str) :
    tokAfterField tL t (",".toList :: l) = tL l := by
  simp only [tokAfterField, peakView_comma]
  rw [if_neg (by decide)]
  simp only [if_true]

theorem tokAfterField_close (tL : List Str → TokRes) (t : SchemaType) (l : List Str) :
    tokAfterField tL t (">".toList :: l) = .ok t l := by
  simp only [tokAfterField, peakView_close, if_true]

theorem der_complete {k : Kind} {ts : List Str} {t : SchemaType} (h : Der k ts t) :
    Compl k ts t := by
  induction h with
  | fieldLeaf u hu =>
    exact ⟨0, fun fuel _ rest => tokFieldType_leaf _ _ u hu rest⟩
  | fieldNode h ih =>
    rcases ih with ⟨ts1, rfl, F, hF⟩ | ⟨ts1, rfl, F, hF⟩
    · refine ⟨F, fun fuel hf rest => ?_⟩
      rw [List.cons_append, tokFieldType_array]
      exact hF fuel hf rest
    · refine ⟨F, fun fuel hf rest => ?_⟩
      rw [List.cons_append, tokFieldType_struct]
      exact hF fuel hf rest
  | elemLeaf u str hp h1 h2 =>
    exact ⟨0, fun fuel _ rest => tokElemType_leaf _ _ u str hp h1 h2 rest⟩
  | elemNode h ih =>
    rcases ih with ⟨ts1, rfl, F, hF⟩ | ⟨ts1, rfl, F, hF⟩
    · refine ⟨F, fun fuel hf rest => ?_⟩
      rw [List.cons_append, tokElemType_array]
      exact hF fuel hf rest
    · refine ⟨F, fun fuel hf rest => ?_⟩
      rw [List.cons_append, tokElemType_struct]
      exact hF fuel hf rest
  | array h ih =>
    rename_i ts e
    obtain ⟨F, hF⟩ := ih
    refine Or.inl ⟨_, rfl, F + 1, fun fuel hf rest => ?_⟩
    obtain ⟨f, rfl⟩ : ∃ f, fuel = f + 1 := ⟨fuel - 1, by omega⟩
    rw [tokArray]
    simp only [List.cons_append, List.append_assoc, expectTok_self]
    rw [hF f (by omega)]
    simp only [tokRes_andThen_ok, List.singleton_append, expectTok_self, List.nil_append]
  | structOpen =>
    refine ⟨⟨_, rfl⟩, 0, 1, fun fuel _ l => ?_⟩
    rw [tokStruct]
    simp only [List.cons_append, List.nil_append, expectTok_self]
    rfl
  | addField name h0 hv ih0 ihv =>
    rename_i ts0 ts m order v
    obtain ⟨⟨ts1, hts1⟩, F0, k, h0F⟩ := ih0
    obtain ⟨Fv, hvF⟩ := ihv
    refine ⟨⟨ts1 ++ name :: ":".toList :: ts, by rw [hts1]; rfl⟩, max F0 Fv, k + 1,
      fun fuel hf l => ?_⟩
    have h1 := h0F (fuel + 1) (by omega) (name :: ":".toList :: ts ++ l)
    have e1 : fuel + (k + 1) = fuel + 1 + k := by omega
    rw [e1, List.append_assoc, h1]
    simp only [SchemaType.entries, SchemaType.Fields, Option.getD_some, SchemaType.FieldOrder,
      tokFields, List.cons_append, expectTok_self]
    rw [hvF fuel (by omega)]
    simp only [tokRes_andThen_ok]
  | comma h ih =>
    rename_i ts t
    obtain ⟨⟨ts1, hts1⟩, F, k, hF⟩ := ih
    refine ⟨⟨ts1 ++ [",".toList], by rw [hts1]; rfl⟩, F, k, fun fuel hf l => ?_⟩
    rw [List.append_assoc, hF fuel hf, List.singleton_append, tokAfterField_comma]
  | close h ih =>
    rename_i ts t
    obtain ⟨⟨ts1, hts1⟩, F, k, hF⟩ := ih
    refine Or.inr ⟨ts1 ++ [">".toList], by rw [hts1]; rfl, F + k, fun fuel hf rest => ?_⟩
    obtain ⟨f, rfl⟩ : ∃ f, fuel = f + k := ⟨fuel - k, by omega⟩
    rw [List.append_assoc, hF f (by omega), List.singleton_append, tokAfterField_close]

end GlueSchema


namespace GlueSchema

/-! ## Maps built field by field -/

theorem mapGet_mapSet {β : Type} (m : List (Str × β)) (n k : Str) (x : β) :
    mapGet (mapSet m n x) k = if n = k then some x else mapGet m k := by
  induction m with
  | nil => simp only [mapSet, mapGet]
  | cons hd tl ih =>
    obtain ⟨k1, w⟩ := hd
    simp only [mapSet]
    by_cases h1 : k1 = n
    · subst h1
      simp only [if_true, mapGet]
      by_cases h2 : k1 = k
      · simp only [h2, if_true]
      · simp only [h2, if_false]
    · simp only [h1, if_false, mapGet, ih]
      by_cases h2 : k1 = k
      · subst h2
        have h3 : ¬ n = k1 := fun h => h1 h.symm
        simp only [if_true, h3, if_false]
      · simp only [h2, if_false]

theorem mapGet_eq_none {β : Type} {m : List (Str × β)} {k : Str} (h : k ∉ m.map Prod.fst) :
    mapGet m k = none := by
  induction m with
  | nil => rfl
  | cons hd tl ih =>
    obtain ⟨k1, w⟩ := hd
    simp only [List.map_cons, List.mem_cons, not_or] at h
    have h1 : ¬ k1 = k := fun e => h.1 e.symm
    simp only [mapGet, h1, if_false]
    exact ih h.2

theorem mapGet_of_mem_keys {β : Type} {m : List (Str × β)} {k : Str} (h : k ∈ m.map Prod.fst) :
    ∃ v, mapGet m k = some v ∧ (k, v) ∈ m := by
  induction m with
  | nil => simp at h
  | cons hd tl ih =>
    obtain ⟨k1, w⟩ := hd
    by_cases h1 : k1 = k
    · subst h1
      exact ⟨w, by simp only [mapGet, if_true], List.mem_cons_self _ _⟩
    · simp only [List.map_cons, List.mem_cons] at h
      rcases h with h | h
      · exact absurd h.symm h1
      · obtain ⟨v, hv1, hv2⟩ := ih h
        exact ⟨v, by simp only [mapGet, h1, if_false, hv1], List.mem_cons_of_mem _ hv2⟩

theorem map_ext {β : Type} : ∀ (m1 m2 : List (Str × β)), m1.map Prod.fst = m2.map Prod.fst →
    (m1.map Prod.fst).Nodup → (∀ k ∈ m1.map Prod.fst, mapGet m1 k = mapGet m2 k) → m1 = m2 := by
  intro m1
  induction m1 with
  | nil =>
    intro m2 hk _ _
    cases m2 with
    | nil => rfl
    | cons hd tl => simp at hk
  | cons hd tl ih =>
    intro m2 hk hn hg
    cases m2 with
    | nil => simp at hk
    | cons hd2 tl2 =>
      obtain ⟨k1, v1⟩ := hd
      obtain ⟨k2, v2⟩ := hd2
      simp only [List.map_cons, List.cons.injEq] at hk
      obtain ⟨rfl, hk2⟩ := hk
      simp only [List.map_cons, List.nodup_cons] at hn
      have h1 := hg k1 (List.mem_cons_self _ _)
      simp only [mapGet, if_true, Option.some.injEq] at h1
      subst h1
      have htl : tl = tl2 := by
        refine ih tl2 hk2 hn.2 (fun k hk => ?_)
        have hne : ¬ k1 = k := fun e => hn.1 (e ▸ hk)
        have := hg k (List.mem_cons_of_mem _ hk)
        simpa only [mapGet, hne, if_false] using this
      rw [htl]

theorem firstSeen_append_singleton (l : List Str) (n : Str) :
    firstSeen (l ++ [n]) = if n ∈ firstSeen l then firstSeen l else firstSeen l ++ [n] := by
  simp only [firstSeen, List.foldl_append, List.foldl_cons, List.foldl_nil]

theorem mem_firstSeen (l : List Str) (n : Str) : n ∈ firstSeen l ↔ n ∈ l := by
  induction l using List.reverseRecOn with
  | nil => simp [firstSeen]
  | append_singleton l a ih =>
    rw [firstSeen_append_singleton]
    by_cases h : a ∈ firstSeen l
    · rw [if_pos h, List.mem_append, List.mem_singleton, ← ih]
      constructor
      · exact Or.inl
      · rintro (h1 | h1)
        · exact h1
        · exact h1 ▸ h
    · rw [if_neg h, List.mem_append, List.mem_append, ih]

theorem firstSeen_nodup (l : List Str) : (firstSeen l).Nodup := by
  induction l using List.reverseRecOn with
  | nil => simp [firstSeen]
  | append_singleton l a ih =>
    rw [firstSeen_append_singleton]
    by_cases h : a ∈ firstSeen l
    · rw [if_pos h]; exact ih
    · rw [if_neg h]
      exact List.Nodup.append ih (List.nodup_singleton a)
        (by
          intro x hx hx2
          rw [List.mem_singleton] at hx2
          exact h (hx2 ▸ hx))

theorem rebuild_append_singleton (m : List (Str × SchemaType)) (l : List Str) (n : Str) :
    rebuild m (l ++ [n]) = mapSet (rebuild m l) n ((mapGet m n).getD default) := by
  simp only [rebuild, List.foldl_append, List.foldl_cons, List.foldl_nil]

theorem keys_rebuild (m : List (Str × SchemaType)) (l : List Str) :
    (rebuild m l).map Prod.fst = firstSeen l := by
  induction l using List.reverseRecOn with
  | nil => rfl
  | append_singleton l a ih =>
    rw [rebuild_append_singleton, firstSeen_append_singleton, keys_mapSet, ih]

theorem mapGet_rebuild (m : List (Str × SchemaType)) (l : List Str) (k : Str) :
    mapGet (rebuild m l) k = if k ∈ l then some ((mapGet m k).getD default) else none := by
  induction l using List.reverseRecOn with
  | nil => rfl
  | append_singleton l a ih =>
    rw [rebuild_append_singleton, mapGet_mapSet, ih]
    by_cases h1 : a = k
    · subst h1
      simp only [if_true, List.mem_append, List.mem_singleton, or_true]
    · have h2 : ¬ k = a := fun e => h1 e.symm
      simp only [h1, if_false, List.mem_append, List.mem_singleton, h2, or_false]

theorem rebuild_eq (m : List (Str × SchemaType)) (l : List Str)
    (hk : m.map Prod.fst = firstSeen l) : rebuild m l = m := by
  refine map_ext _ _ ((keys_rebuild m l).trans hk.symm) ?_ ?_
  · rw [keys_rebuild]; exact firstSeen_nodup l
  · intro k hk1
    rw [keys_rebuild, mem_firstSeen] at hk1
    rw [mapGet_rebuild, if_pos hk1]
    obtain ⟨v, hv, _⟩ := mapGet_of_mem_keys
      (show k ∈ m.map Prod.fst by rw [hk, mem_firstSeen]; exact hk1)
    rw [hv]; rfl

end GlueSchema


namespace GlueSchema

/-! ## The units of the debug form lex back and parse back -/

theorem single_lt (T : UnicodeTables) : IsSingle T "<".toList := ⟨'<', rfl, rfl, rfl⟩

theorem single_gt (T : UnicodeTables) : IsSingle T ">".toList := ⟨'>', rfl, rfl, rfl⟩

theorem single_colon (T : UnicodeTables) : IsSingle T ":".toList := ⟨':', rfl, rfl, rfl⟩

theorem single_comma (T : UnicodeTables) : IsSingle T ",".toList := ⟨',', rfl, rfl, rfl⟩

theorem identRun_array (T : UnicodeTables) : IsIdentRun T "array".toList := by
  refine ⟨⟨'a', "rray".toList, rfl, rfl⟩, ?_⟩
  show ∀ c ∈ ['a', 'r', 'r', 'a', 'y'], isIdent T c = true
  intro c hc
  simp only [List.mem_cons, List.mem_singleton, List.not_mem_nil, or_false] at hc
  rcases hc with rfl | rfl | rfl | rfl | rfl <;> rfl

theorem identRun_struct (T : UnicodeTables) : IsIdentRun T "struct".toList := by
  refine ⟨⟨'s', "truct".toList, rfl, rfl⟩, ?_⟩
  show ∀ c ∈ ['s', 't', 'r', 'u', 'c', 't'], isIdent T c = true
  intro c hc
  simp only [List.mem_cons, List.mem_singleton, List.not_mem_nil, or_false] at hc
  rcases hc with rfl | rfl | rfl | rfl | rfl | rfl <;> rfl

theorem sep_cons_single {T : UnicodeTables} {s : Str} {l : List Str} (hs : IsSingle T s)
    (hl : Separated T l) : Separated T (s :: l) := by
  cases l with
  | nil => exact List.chain'_singleton _
  | cons b l => exact List.Chain'.cons (Or.inl hs) hl

theorem sep_cons_cons {T : UnicodeTables} (a : Str) {s : Str} {l : List Str}
    (hs : IsSingle T s) (hl : Separated T l) : Separated T (a :: s :: l) :=
  List.Chain'.cons (Or.inr hs) (sep_cons_single hs hl)

theorem sep_append {T : UnicodeTables} {l1 l2 : List Str} {s : Str} (h1 : Separated T l1)
    (hs : IsSingle T s) (h2 : Separated T l2) : Separated T (l1 ++ s :: l2) := by
  refine List.Chain'.append h1 (sep_cons_single hs h2) ?_
  intro x _ y hy
  simp only [List.head?_cons, Option.mem_def, Option.some.injEq] at hy
  exact Or.inr (hy ▸ hs)

theorem good_singleton {T : UnicodeTables} {u : Str} (h : UnitShape T u) : Good T [u] := by
  refine ⟨?_, List.chain'_singleton _⟩
  intro x hx
  rw [List.mem_singleton] at hx
  exact hx ▸ h

theorem good_wrap {T : UnicodeTables} {a : Str} {ts : List Str} (ha : UnitShape T a)
    (h : Good T ts) : Good T (a :: "<".toList :: ts ++ [">".toList]) := by
  constructor
  · intro u hu
    simp only [List.cons_append, List.mem_cons, List.mem_append, List.mem_singleton,
      List.not_mem_nil, or_false] at hu
    rcases hu with rfl | rfl | hu | rfl
    · exact ha
    · exact Or.inr (Or.inr (single_lt T))
    · exact h.1 u hu
    · exact Or.inr (Or.inr (single_gt T))
  · exact sep_cons_cons a (single_lt T) (sep_append h.2 (single_gt T) List.chain'_nil)

theorem peakView_idem {u str : Str} (h : peakView u = some str) : peakView str = some str := by
  cases u with
  | nil => simp only [peakView] at h; cases h
  | cons u0 us =>
    simp only [peakView, Option.some.injEq] at h
    by_cases hs : unicodeIsSpace u0 = true
    · rw [if_pos hs] at h
      by_cases hn : (u0 :: us).contains '\n' = true
      · rw [if_pos hn] at h; subst h; rfl
      · rw [if_neg hn] at h; subst h; rfl
    · rw [if_neg hs] at h
      subst h
      simp only [peakView, if_neg hs]

theorem peakView_shape {T : UnicodeTables} {u str : Str} (h : peakView u = some str)
    (hu : UnitShape T u) : UnitShape T str := by
  cases u with
  | nil => simp only [peakView] at h; cases h
  | cons u0 us =>
    simp only [peakView, Option.some.injEq] at h
    by_cases hs : unicodeIsSpace u0 = true
    · rw [if_pos hs] at h
      by_cases hn : (u0 :: us).contains '\n' = true
      · rw [if_pos hn] at h; subst h
        refine Or.inl ⟨by simp, ?_⟩
        intro c hc
        rw [List.mem_singleton] at hc
        subst hc; rfl
      · rw [if_neg hn] at h; subst h
        refine Or.inl ⟨by simp, ?_⟩
        intro c hc
        rw [List.mem_singleton] at hc
        subst hc; rfl
    · rw [if_neg hs] at h
      subst h
      exact hu

theorem mapGet_toksEntries (m : List (Str × SchemaType)) (n : Str) :
    mapGet (toksEntries m) n = (mapGet m n).map SchemaType.toks := by
  induction m with
  | nil => rfl
  | cons hd tl ih =>
    obtain ⟨k, v⟩ := hd
    simp only [toksEntries, mapGet]
    by_cases h : k = n
    · simp only [h, if_true, Option.map_some']
    · simp only [h, if_false, ih]

theorem mapGet_stringEntries (m : List (Str × SchemaType)) (n : Str) :
    mapGet (stringEntries m) n = (mapGet m n).map SchemaType.String := by
  induction m with
  | nil => rfl
  | cons hd tl ih =>
    obtain ⟨k, v⟩ := hd
    simp only [stringEntries, mapGet]
    by_cases h : k = n
    · simp only [h, if_true, Option.map_some']
    · simp only [h, if_false, ih]

theorem fieldToks_snoc (R : List (Str × List Str)) (n : Str) : ∀ (ns : List Str), ns ≠ [] →
    fieldToks R (ns ++ [n]) =
      fieldToks R ns ++ ",".toList :: n :: ":".toList :: (mapGet R n).getD [] := by
  intro ns
  induction ns with
  | nil => intro h; exact absurd rfl h
  | cons a l ih =>
    intro _
    cases l with
    | nil =>
      simp only [List.cons_append, List.nil_append, fieldToks, List.append_assoc]
    | cons b l =>
      have := ih (List.cons_ne_nil _ _)
      simp only [List.cons_append] at this ⊢
      simp only [fieldToks] at this ⊢
      rw [this]
      simp only [List.cons_append, List.append_assoc]

theorem fieldToks_flatten (R : List (Str × List Str)) : ∀ (ns : List Str),
    (fieldToks R ns).flatten =
      stringsJoin (ns.map fun n => n ++ [':'] ++ ((mapGet R n).getD []).flatten) ",".toList := by
  intro ns
  induction ns with
  | nil => rfl
  | cons a l ih =>
    cases l with
    | nil =>
      simp only [fieldToks, List.map_cons, List.map_nil, stringsJoin, List.flatten_cons,
        List.append_assoc]
      rfl
    | cons b l =>
      simp only [List.map_cons] at ih
      simp only [fieldToks, List.map_cons, stringsJoin, List.flatten_cons, List.flatten_append,
        List.append_assoc, List.cons_append, ih]
      rfl

theorem fieldStrs_eq (rendered : List (Str × Option Str)) (f : Str → Str) : ∀ (ns : List Str),
    (∀ n ∈ ns, mapGet rendered n = some (some (f n))) →
    fieldStrs rendered ns = some (ns.map fun n => n ++ [':'] ++ f n) := by
  intro ns
  induction ns with
  | nil => intro _; rfl
  | cons a l ih =>
    intro h
    simp only [fieldStrs, h a (List.mem_cons_self _ _),
      ih (fun n hn => h n (List.mem_cons_of_mem _ hn)), List.map_cons]

theorem good_fieldToks {T : UnicodeTables} (R : List (Str × List Str)) : ∀ (ns : List Str),
    (∀ n ∈ ns, UnitShape T n ∧ Good T ((mapGet R n).getD [])) → Good T (fieldToks R ns) := by
  intro ns
  induction ns with
  | nil => intro _; exact ⟨fun u hu => absurd hu (List.not_mem_nil u), List.chain'_nil⟩
  | cons a l ih =>
    intro h
    obtain ⟨ha, hga⟩ := h a (List.mem_cons_self _ _)
    cases l with
    | nil =>
      simp only [fieldToks]
      constructor
      · intro u hu
        simp only [List.mem_cons] at hu
        rcases hu with rfl | rfl | hu
        · exact ha
        · exact Or.inr (Or.inr (single_colon T))
        · exact hga.1 u hu
      · exact sep_cons_cons a (single_colon T) hga.2
    | cons b l =>
      have hrest := ih (fun n hn => h n (List.mem_cons_of_mem _ hn))
      simp only [fieldToks] at hrest ⊢
      constructor
      · intro u hu
        simp only [List.cons_append, List.mem_cons, List.mem_append] at hu
        rcases hu with rfl | rfl | hu | rfl | hu
        · exact ha
        · exact Or.inr (Or.inr (single_colon T))
        · exact hga.1 u hu
        · exact Or.inr (Or.inr (single_comma T))
        · exact hrest.1 u hu
      · exact sep_cons_cons a (single_colon T) (sep_append hga.2 (single_comma T) hrest.2)

theorem der_fields (m : List (Str × SchemaType)) : ∀ (ns : List Str), ns ≠ [] →
    (∀ n ∈ ns, ∃ v, mapGet m n = some v ∧ Der .field v.toks v) →
    Der .fielded ("struct".toList :: "<".toList :: fieldToks (toksEntries m) ns)
      (.mk "struct".toList (some (rebuild m ns)) ns) := by
  intro ns
  induction ns using List.reverseRecOn with
  | nil => intro h; exact absurd rfl h
  | append_singleton l a ih =>
    intro _ h
    obtain ⟨v, hv, hd⟩ := h a (List.mem_append_right _ (List.mem_singleton_self a))
    have hR : (mapGet (toksEntries m) a).getD [] = v.toks := by
      rw [mapGet_toksEntries, hv]; rfl
    by_cases hl : l = []
    · subst hl
      have := Der.addField a Der.structOpen hd
      simp only [List.nil_append, fieldToks, hR]
      have e : rebuild m [a] = mapSet [] a v := by
        simp only [rebuild, List.foldl_cons, List.foldl_nil, hv, Option.getD_some]
      rw [e]
      exact this
    · have h1 := ih hl (fun n hn => h n (List.mem_append_left _ hn))
      have := Der.addField a (Der.comma h1) hd
      rw [rebuild_append_singleton, hv, fieldToks_snoc _ _ _ hl, hR]
      simp only [List.cons_append, List.append_assoc, List.nil_append, Option.getD_some] at this ⊢
      exact this

theorem closed_rt {T : UnicodeTables} {t : SchemaType} (h : FieldsRoundTrip T t)
    (hne : t.FieldOrder ≠ []) : RoundTrips T .closed t := by
  obtain ⟨typ, fields, order⟩ := t
  obtain ⟨hTyp, hF, hnames, hkeys, hvals⟩ := h
  change typ = "struct".toList at hTyp
  subst hTyp
  change order ≠ [] at hne
  cases fields with
  | none => cases hF
  | some m =>
    change m.map Prod.fst = firstSeen order at hkeys
    change ∀ n ∈ order, UnitShape T n at hnames
    change ∀ p ∈ m, RoundTrips T .field p.2 at hvals
    have hget : ∀ n ∈ order, ∃ v, mapGet m n = some v ∧ RoundTrips T .field v := by
      intro n hn
      have : n ∈ m.map Prod.fst := by rw [hkeys, mem_firstSeen]; exact hn
      obtain ⟨v, hv1, hv2⟩ := mapGet_of_mem_keys this
      exact ⟨v, hv1, hvals _ hv2⟩
    have hm : m ≠ [] := by
      intro e
      subst e
      cases order with
      | nil => exact hne rfl
      | cons a l =>
        obtain ⟨v, hv, _⟩ := hget a (List.mem_cons_self _ _)
        cases hv
    obtain ⟨f, fs, rfl⟩ := List.exists_cons_of_ne_nil hm
    have hsa : ¬ "struct".toList = "array".toList := by decide
    have htoks : (SchemaType.mk "struct".toList (some (f :: fs)) order).toks =
        "struct".toList :: "<".toList :: fieldToks (toksEntries (f :: fs)) order ++
          [">".toList] := by
      simp only [SchemaType.toks, if_neg hsa]
    refine ⟨?_, ?_, ?_⟩
    · rw [htoks]
      have := Der.close (der_fields (f :: fs) order hne
        (fun n hn => (hget n hn).imp fun v hv => ⟨hv.1, hv.2.1⟩))
      rw [rebuild_eq _ _ hkeys] at this
      exact this
    · rw [htoks]
      have hs := fieldStrs_eq (stringEntries (f :: fs))
        (fun n => ((mapGet (toksEntries (f :: fs)) n).getD []).flatten) order
        (by
          intro n hn
          obtain ⟨v, hv, hrt⟩ := hget n hn
          show mapGet (stringEntries (f :: fs)) n =
            some (some ((mapGet (toksEntries (f :: fs)) n).getD []).flatten)
          rw [mapGet_stringEntries, mapGet_toksEntries, hv]
          simp only [Option.map_some', Option.getD_some, hrt.2.1])
      simp only [SchemaType.String, if_neg hsa, hs, List.cons_append, List.flatten_cons,
        List.flatten_append, fieldToks_flatten, List.flatten_nil, List.append_nil,
        List.append_assoc]
      rfl
    · rw [htoks]
      refine good_wrap (Or.inr (Or.inl (identRun_struct T))) (good_fieldToks _ _ ?_)
      intro n hn
      obtain ⟨v, hv, hrt⟩ := hget n hn
      refine ⟨hnames n hn, ?_⟩
      rw [mapGet_toksEntries, hv]
      exact hrt.2.2

theorem toks_leaf (u : Str) : (SchemaType.mk u none []).toks = [u] := by
  simp only [SchemaType.toks]

theorem string_leaf (u : Str) : (SchemaType.mk u none []).String = some u := by
  simp only [SchemaType.String]

theorem leaf_rt {T : UnicodeTables} {k : Kind} {u : Str} (hd : Der k [u] (.mk u none []))
    (hu : UnitShape T u) : RoundTrips T k (.mk u none []) := by
  refine ⟨?_, ?_, ?_⟩
  · rw [toks_leaf]; exact hd
  · rw [toks_leaf, string_leaf, List.flatten_cons, List.flatten_nil, List.append_nil]
  · rw [toks_leaf]; exact good_singleton hu

theorem array_rt {T : UnicodeTables} {e : SchemaType} (h : RoundTrips T .elem e) :
    RoundTrips T .closed (.mk "array".toList (some [([], e)]) [[]]) := by
  obtain ⟨hd, hstr, hg⟩ := h
  have htoks : (SchemaType.mk "array".toList (some [([], e)]) [[]]).toks =
      "array".toList :: "<".toList :: e.toks ++ [">".toList] := by
    simp only [SchemaType.toks, toksEntries, mapGet, if_true, Option.getD_some]
  refine ⟨?_, ?_, ?_⟩
  · rw [htoks]; exact Der.array hd
  · rw [htoks]
    simp only [SchemaType.String, stringEntries, mapGet, if_true, hstr, List.cons_append,
      List.flatten_cons, List.flatten_append, List.flatten_nil, List.append_nil,
      List.append_assoc]
    rfl
  · rw [htoks]
    exact good_wrap (Or.inr (Or.inl (identRun_array T))) hg

theorem addField_rt {T : UnicodeTables} {m : List (Str × SchemaType)} {order : List Str}
    {v : SchemaType} {name : Str} (h0 : FieldsRoundTrip T (.mk "struct".toList (some m) order))
    (hv : RoundTrips T .field v) (hn : UnitShape T name) :
    FieldsRoundTrip T (.mk "struct".toList (some (mapSet m name v)) (order ++ [name])) := by
  obtain ⟨_, _, hnames, hkeys, hvals⟩ := h0
  change ∀ n ∈ order, UnitShape T n at hnames
  change m.map Prod.fst = firstSeen order at hkeys
  change ∀ p ∈ m, RoundTrips T .field p.2 at hvals
  refine ⟨rfl, rfl, ?_, ?_, ?_⟩
  · show ∀ n ∈ order ++ [name], UnitShape T n
    intro n h
    rw [List.mem_append, List.mem_singleton] at h
    rcases h with h | rfl
    · exact hnames n h
    · exact hn
  · show (mapSet m name v).map Prod.fst = firstSeen (order ++ [name])
    rw [keys_mapSet, firstSeen_append_singleton, hkeys]
  · show ∀ p ∈ mapSet m name v, RoundTrips T .field p.2
    intro p hp
    rcases mem_mapSet hp with h | rfl
    · exact hvals p h
    · exact hv

theorem der_rt (T : UnicodeTables) {k : Kind} {ts : List Str} {t : SchemaType}
    (h : Der k ts t) : (∀ u ∈ ts, UnitShape T u) → RT T k t := by
  induction h with
  | fieldLeaf u hu =>
    intro hs
    exact leaf_rt (Der.fieldLeaf u hu) (hs u (List.mem_singleton_self u))
  | fieldNode h ih =>
    intro hs
    exact ⟨Der.fieldNode (ih hs).1, (ih hs).2⟩
  | elemLeaf u str h h1 h2 =>
    intro hs
    exact leaf_rt (Der.elemLeaf str str (peakView_idem h) h1 h2)
      (peakView_shape h (hs u (List.mem_singleton_self u)))
  | elemNode h ih =>
    intro hs
    exact ⟨Der.elemNode (ih hs).1, (ih hs).2⟩
  | array h ih =>
    intro hs
    refine array_rt (ih fun u hu => hs u ?_)
    simp only [List.cons_append, List.mem_cons, List.mem_append]
    exact Or.inr (Or.inr (Or.inl hu))
  | structOpen =>
    intro _
    exact ⟨rfl, rfl, fun n hn => absurd hn (List.not_mem_nil n), rfl,
      fun p hp => absurd hp (List.not_mem_nil p)⟩
  | addField name h0 hv ih0 ihv =>
    intro hs
    refine ⟨addField_rt (ih0 fun u hu => hs u (List.mem_append_left _ hu))
      (ihv fun u hu => hs u ?_) (hs name ?_), ?_⟩
    · simp only [List.mem_append, List.mem_cons]
      exact Or.inr (Or.inr (Or.inr hu))
    · exact List.mem_append_right _ (List.mem_cons_self _ _)
    · show _ ++ [name] ≠ []
      simp
  | comma h ih =>
    intro hs
    exact (ih fun u hu => hs u (List.mem_append_left _ hu)).1
  | close h ih =>
    intro hs
    have := ih fun u hu => hs u (List.mem_append_left _ hu)
    exact closed_rt this.1 this.2

end GlueSchema


namespace GlueSchema

/-! ## Round trip of the debug form -/

theorem der_head {k : Kind} {ts : List Str} {t : SchemaType} (h : Der k ts t) :
    k = .closed ∨ k = .opened ∨ k = .fielded → ∃ ts1, ts = t.Typ :: ts1 := by
  induction h with
  | fieldLeaf u hu => intro hk; rcases hk with hk | hk | hk <;> cases hk
  | fieldNode h ih => intro hk; rcases hk with hk | hk | hk <;> cases hk
  | elemLeaf u str h h1 h2 => intro hk; rcases hk with hk | hk | hk <;> cases hk
  | elemNode h ih => intro hk; rcases hk with hk | hk | hk <;> cases hk
  | array h ih => intro _; exact ⟨_, rfl⟩
  | structOpen => intro _; exact ⟨_, rfl⟩
  | addField name h0 hv ih0 ihv =>
    intro _
    obtain ⟨ts1, h1⟩ := ih0 (Or.inr (Or.inl rfl))
    exact ⟨_, by rw [h1]; rfl⟩
  | comma h ih =>
    intro _
    obtain ⟨ts1, h1⟩ := ih (Or.inr (Or.inr rfl))
    exact ⟨_, by rw [h1]; rfl⟩
  | close h ih =>
    intro _
    obtain ⟨ts1, h1⟩ := ih (Or.inr (Or.inr rfl))
    exact ⟨_, by rw [h1]; rfl⟩

theorem tokStruct_ok_head {fuel : Nat} {l : List Str} {t : SchemaType} {rest : List Str}
    (h : tokStruct fuel l = .ok t rest) : ∃ l1, l = "struct".toList :: l1 := by
  cases fuel with
  | zero => simp [tokStruct] at h
  | succ fuel =>
    rw [tokStruct_succ] at h
    obtain ⟨l1, h1, _⟩ := expectTok_ok h
    exact ⟨l1, h1⟩

theorem extend_nil_eq_ok {r : TokRes} {t : SchemaType} {rest : List Str}
    (h : r.extend [] = .ok t rest) : r = .ok t rest := by
  cases r with
  | ok t1 rest1 =>
    simp only [TokRes.extend, List.append_nil] at h
    exact h
  | fail => cases h
  | panic => cases h
  | outOfFuel => cases h

/-- The values view reads the values of a derivation of a struct as its tree,
whatever follows them, on a budget of one more than the number of values. -/
theorem tokStruct_of_der {ts : List Str} {t : SchemaType} (hd : Der .closed ts t)
    (hhead : ∃ ts1, ts = "struct".toList :: ts1) (rest : List Str) :
    tokStruct ((ts ++ rest).length + 1) (ts ++ rest) = .ok t rest := by
  obtain ⟨ts1, hts1⟩ := hhead
  rcases der_complete hd with ⟨ts3, h3, _⟩ | ⟨ts3, _, F, hF⟩
  · rw [hts1] at h3
    simp only [List.cons.injEq] at h3
    exact absurd h3.1 (by decide)
  · have hbig := hF (max F ((ts ++ rest).length + 1)) (le_max_left _ _) rest
    have hne : tokStruct ((ts ++ rest).length + 1) (ts ++ rest) ≠ .outOfFuel :=
      ((tok_prog ((ts ++ rest).length + 1)).1 (ts ++ rest)).2 (Nat.lt_succ_self _)
    have hext := (tok_ext ((ts ++ rest).length + 1) (max F ((ts ++ rest).length + 1))
      (le_max_right _ _)).1 (ts ++ rest) [] hne (fun _ => rfl)
    rw [List.append_nil, hbig] at hext
    exact extend_nil_eq_ok hext.symm

/-- A tree the values view returned for a struct has the type name `struct`,
and the values read begin with it. -/
theorem tokStruct_ok_der {fuel : Nat} {l rest : List Str} {t : SchemaType}
    (h : tokStruct fuel l = .ok t rest) :
    ∃ ts, l = ts ++ rest ∧ Der .closed ts t ∧ t.Typ = "struct".toList ∧
      ∃ ts1, ts = "struct".toList :: ts1 := by
  obtain ⟨ts, hl, hd⟩ := (tok_sound fuel).1 l t rest h
  obtain ⟨l1, hl1⟩ := tokStruct_ok_head h
  obtain ⟨ts1, hts1⟩ := der_head hd (Or.inl rfl)
  have htyp : t.Typ = "struct".toList := by
    rw [hl, hts1] at hl1
    simp only [List.cons_append, List.cons.injEq] at hl1
    exact hl1.1
  exact ⟨ts, hl, hd, htyp, ts1, by rw [hts1, htyp]⟩

/-- The values view reads the units of the debug form of a struct it has
returned as that struct, on a budget of one more than the number of units. -/
theorem tokStruct_toks (T : UnicodeTables) {l rest : List Str} {t : SchemaType} {fuel : Nat}
    (h : tokStruct fuel l = .ok t rest) (hs : ∀ u ∈ l, UnitShape T u) :
    RoundTrips T .closed t ∧ tokStruct (t.toks.length + 1) t.toks = .ok t [] := by
  obtain ⟨ts, hl, hd, htyp, _⟩ := tokStruct_ok_der h
  have hrt : RoundTrips T .closed t :=
    der_rt T hd (fun u hu => hs u (by rw [hl]; exact List.mem_append_left _ hu))
  refine ⟨hrt, ?_⟩
  obtain ⟨ts2, hts2⟩ := der_head hrt.1 (Or.inl rfl)
  have := tokStruct_of_der hrt.1 ⟨ts2, by rw [hts2, htyp]⟩ []
  rw [List.append_nil] at this
  exact this

/-- C1.  Round trip of the debug form: when `parseStruct` returns the tree `t`
on the scanner `NewSvcScanner` builds over a text, `String` returns a text for
`t` (it does not panic), and lexing that text with `NewSvcScanner`, whatever
the value of the package-level brace counter, and parsing it with `parseStruct`
returns a tree equal to `t`: the same `Typ`, the same entries of `Fields` and
the same `FieldOrder` at every node. -/
theorem C1_debug_form_round_trip (T : UnicodeTables) (b b1 : Int) (r : List Char)
    (scn s : SvcScanner) (t : SchemaType) (hlex : NewSvcScanner T b r = .ok scn b1)
    (hparse : parseStruct scn = .ok t s) :
    ∃ str, t.String = some str ∧ ∀ b2 : Int, ∃ scn2 b3 s2,
      NewSvcScanner T b2 str = .ok scn2 b3 ∧ parseStruct scn2 = .ok t s2 := by
  rw [newSvcScanner_eq] at hlex
  cases hlex
  obtain ⟨q, _, htok⟩ := parseStruct_ok_tok rfl hparse
  have hvals := lexUnits_values T r.length r b 1 (le_refl _)
  simp only at htok
  rw [hvals] at htok
  obtain ⟨⟨_, hstr, hgood⟩, hback⟩ :=
    tokStruct_toks T htok (lexList_shape T r.length r (le_refl _))
  refine ⟨t.toks.flatten, hstr, fun b2 => ?_⟩
  have hlex2 := lexList_join T t.toks hgood.1 hgood.2
  have hvals2 := lexUnits_values T t.toks.flatten.length t.toks.flatten b2 1 (le_refl _)
  rw [hlex2] at hvals2
  have hsim := parseStruct_sim
    { BraceLevel := 0, Buf := lexUnits T b2 1 t.toks.flatten, UnitPos := 0, lineNo := 0 } rfl
  simp only at hsim
  have hlen : (lexUnits T b2 1 t.toks.flatten).length = t.toks.length := by
    have := congrArg List.length hvals2
    rw [List.length_map] at this
    exact this
  rw [hvals2, hlen, hback] at hsim
  obtain ⟨q2, s2, hok, _⟩ := hsim
  exact ⟨_, _, s2, newSvcScanner_eq T b2 _, hok⟩

/-- C1 at the second text of the test: its tree is the one the test expects,
and the debug form of that tree lexes and parses back to it. -/
theorem C1_debug_form_round_trip_witness :
    NewSvcScanner latin1Tables 0
      "struct<likes:array<struct<name:string,place:string,favorite:boolean>>>".toList =
      .ok likesScanner 0 ∧
    parseStruct likesScanner = .ok likesTree { likesScanner with UnitPos := 22, lineNo := 1 } ∧
    ∃ str, likesTree.String = some str ∧ ∀ b2 : Int, ∃ scn2 b3 s2,
      NewSvcScanner latin1Tables b2 str = .ok scn2 b3 ∧ parseStruct scn2 = .ok likesTree s2 :=
  ⟨by decide, by decide!,
    C1_debug_form_round_trip latin1Tables 0 0
      "struct<likes:array<struct<name:string,place:string,favorite:boolean>>>".toList
      likesScanner { likesScanner with UnitPos := 22, lineNo := 1 } likesTree (by decide)
      (by decide!)⟩

end GlueSchema


namespace GlueSchema

/-! ## Text after the struct -/

theorem takeWhile_append_of_dropWhile {α : Type} (p : α → Bool) (w : List α) :
    ∀ cs : List α, cs.dropWhile p ≠ [] →
      (cs ++ w).takeWhile p = cs.takeWhile p ∧ (cs ++ w).dropWhile p = cs.dropWhile p ++ w := by
  intro cs
  induction cs with
  | nil => intro h; exact absurd rfl h
  | cons x cs ih =>
    intro h
    by_cases hx : p x = true
    · simp only [List.dropWhile_cons, hx, if_true] at h
      have := ih h
      simp only [List.cons_append, List.takeWhile_cons, List.dropWhile_cons, hx, if_true,
        this.1, this.2, and_self]
    · simp only [List.cons_append, List.takeWhile_cons, List.dropWhile_cons, hx,
        Bool.false_eq_true, if_false, and_self]

theorem nextUnit_append_right (T : UnicodeTables) (c : Char) (cs w : List Char)
    (h : (nextUnit T c cs).2 ≠ [] ∨ IsSingle T (nextUnit T c cs).1) :
    nextUnit T c (cs ++ w) = ((nextUnit T c cs).1, (nextUnit T c cs).2 ++ w) := by
  unfold nextUnit at h ⊢
  by_cases hs : unicodeIsSpace c = true
  · simp only [if_pos hs] at h ⊢
    rcases h with h | h
    · have := takeWhile_append_of_dropWhile unicodeIsSpace w cs h
      rw [this.1, this.2]
    · obtain ⟨d, hd, hd1, _⟩ := h
      simp only [List.cons.injEq] at hd
      rw [hd.1] at hs; rw [hs] at hd1; cases hd1
  · simp only [if_neg hs] at h ⊢
    by_cases hi : isIdent T c = true
    · simp only [if_pos hi] at h ⊢
      rcases h with h | h
      · have := takeWhile_append_of_dropWhile (isIdent T) w cs h
        rw [this.1, this.2]
      · obtain ⟨d, hd, _, hd2⟩ := h
        simp only [List.cons.injEq] at hd
        rw [hd.1] at hi; rw [hi] at hd2; cases hd2
    · simp only [if_neg hi]

/-- The units of a text up to a unit that is a single rune, neither white
space nor an identifier rune, are the first units of the text with any text
added at its end. -/
theorem lexList_append_of_single (T : UnicodeTables) (w : List Char) (n : Nat) :
    ∀ (r : List Char), r.length ≤ n → ∀ (ts : List Str) (u : Str) (rest : List Str),
      lexList T r = ts ++ u :: rest → IsSingle T u →
      ∃ rest2, lexList T (r ++ w) = ts ++ u :: rest2 := by
  induction n with
  | zero =>
    intro r hr ts u rest h _
    have : r = [] := List.length_eq_zero.mp (by omega)
    subst this
    rw [lexList_nil] at h
    cases ts <;> cases h
  | succ n ih =>
    intro r hr ts u rest h hu
    cases r with
    | nil =>
      rw [lexList_nil] at h
      cases ts <;> cases h
    | cons c cs =>
      rw [lexList_cons] at h
      rw [List.cons_append, lexList_cons]
      cases ts with
      | nil =>
        simp only [List.nil_append, List.cons.injEq] at h
        rw [nextUnit_append_right T c cs w (Or.inr (h.1 ▸ hu))]
        exact ⟨lexList T ((nextUnit T c cs).2 ++ w), by simp only [List.nil_append, h.1]⟩
      | cons v ts1 =>
        simp only [List.cons_append, List.cons.injEq] at h
        have hne : (nextUnit T c cs).2 ≠ [] := by
          intro e
          rw [e, lexList_nil] at h
          have := h.2
          cases ts1 <;> cases this
        rw [nextUnit_append_right T c cs w (Or.inl hne)]
        have hlen := nextUnit_length_le T c cs
        obtain ⟨rest2, h2⟩ := ih (nextUnit T c cs).2
          (by simp only [List.length_cons] at hr; omega) ts1 u rest h.2 hu
        exact ⟨rest2, by simp only [List.cons_append, h.1, h2]⟩

theorem der_last {k : Kind} {ts : List Str} {t : SchemaType} (h : Der k ts t) :
    k = .closed → ∃ ts1, ts = ts1 ++ [">".toList] := by
  cases h with
  | fieldLeaf u hu => intro hk; cases hk
  | fieldNode h => intro hk; cases hk
  | elemLeaf u str h h1 h2 => intro hk; cases hk
  | elemNode h => intro hk; cases hk
  | array h => intro _; exact ⟨_, rfl⟩
  | structOpen => intro hk; cases hk
  | addField name h0 hv => intro hk; cases hk
  | comma h => intro hk; cases hk
  | close h => intro _; exact ⟨_, rfl⟩

/-- C3, amended.  White space between the units of the schema is not skipped
(the text `struct< created_time : bigint >` is rejected); what follows the
`>` that closes the struct is never read.  When `parseStruct` returns the tree
`t` on the scanner built over the text `r`, it returns the same tree on the
scanner built over `r` followed by any text `w`, white space or not. -/
theorem C3_text_after_struct_is_ignored (T : UnicodeTables) (b b1 : Int) (r w : List Char)
    (scn s : SvcScanner) (t : SchemaType) (hlex : NewSvcScanner T b r = .ok scn b1)
    (hparse : parseStruct scn = .ok t s) :
    ∀ b2 : Int, ∃ scn2 b3 s2,
      NewSvcScanner T b2 (r ++ w) = .ok scn2 b3 ∧ parseStruct scn2 = .ok t s2 := by
  rw [newSvcScanner_eq] at hlex
  cases hlex
  obtain ⟨q, _, htok⟩ := parseStruct_ok_tok rfl hparse
  have hvals := lexUnits_values T r.length r b 1 (le_refl _)
  simp only at htok
  rw [hvals] at htok
  obtain ⟨ts, hl, hd, _, hhead⟩ := tokStruct_ok_der htok
  obtain ⟨ts1, hts1⟩ := der_last hd rfl
  intro b2
  obtain ⟨rest2, h2⟩ := lexList_append_of_single T w r.length r (le_refl _) ts1 ">".toList
    (valuesFrom (lexUnits T b 1 r) q) (by rw [hl, hts1, List.append_assoc]; rfl) (single_gt T)
  have h3 : lexList T (r ++ w) = ts ++ rest2 := by
    rw [h2, hts1, List.append_assoc]; rfl
  have hvals2 := lexUnits_values T (r ++ w).length (r ++ w) b2 1 (le_refl _)
  rw [h3] at hvals2
  have hsim := parseStruct_sim
    { BraceLevel := 0, Buf := lexUnits T b2 1 (r ++ w), UnitPos := 0, lineNo := 0 } rfl
  simp only at hsim
  have hlen : (lexUnits T b2 1 (r ++ w)).length = (ts ++ rest2).length := by
    have := congrArg List.length hvals2
    rw [List.length_map] at this
    exact this
  rw [hvals2, hlen, tokStruct_of_der hd hhead rest2] at hsim
  obtain ⟨q2, s2, hok, _⟩ := hsim
  exact ⟨_, _, s2, newSvcScanner_eq T b2 _, hok⟩

/-- C3 amended, at the text `struct<created_time:bigint>` followed by a space
and a newline, as `echo` would send it. -/
theorem C3_text_after_struct_witness :
    NewSvcScanner latin1Tables 0 "struct<created_time:bigint>".toList = .ok createdScanner 0 ∧
    parseStruct createdScanner =
      .ok createdTree { createdScanner with UnitPos := 6, lineNo := 1 } ∧
    ∀ b2 : Int, ∃ scn2 b3 s2,
      NewSvcScanner latin1Tables b2 ("struct<created_time:bigint>".toList ++ " \n".toList) =
        .ok scn2 b3 ∧ parseStruct scn2 = .ok createdTree s2 :=
  ⟨by decide, by decide!,
    C3_text_after_struct_is_ignored latin1Tables 0 0 "struct<created_time:bigint>".toList
      " \n".toList createdScanner { createdScanner with UnitPos := 6, lineNo := 1 } createdTree
      (by decide) (by decide!)⟩

/-- C3 as stated fails: the text `struct<created_time:bigint>` parses to its
tree, and the same text with a space after `<`, around `:` and before `>` is
lexed with the four runs of white space as units and rejected, the first run
being read as the field name and `created_time` where the colon should be. -/
theorem C3_embedded_whitespace_rejected :
    NewSvcScanner latin1Tables 0 "struct<created_time:bigint>".toList = .ok createdScanner 0 ∧
    (parseStruct createdScanner).value? = some createdTree ∧
    NewSvcScanner latin1Tables 0 "struct< created_time : bigint >".toList =
      .ok spacedScanner 0 ∧
    (parseStruct spacedScanner).value? = none ∧
    (parseStruct spacedScanner).error? =
      some (.expected ":".toList "created_time".toList 3 1 []) :=
  ⟨by decide, by decide!, by decide, by decide!, by decide!⟩

end GlueSchema


namespace GlueSchema

/-! ## The JSON form as a JSON text -/

theorem jsonChars_cons (c : Char) (rest : Str) (h1 : c ≠ '\\') (h2 : c ≠ '"')
    (h3 : ¬ c.toNat < 0x20) : jsonChars (c :: rest) = jsonChars rest := by
  conv => lhs; unfold jsonChars
  simp only [if_neg h1, if_neg h2, if_neg h3]

theorem jsonChars_safe {n : Str} (h : SafeName n) : IsJsonChars n := by
  induction n with
  | nil => unfold IsJsonChars jsonChars; rfl
  | cons c rest ih =>
    obtain ⟨h3, h2, h1, _⟩ := h c (List.mem_cons_self _ _)
    unfold IsJsonChars
    rw [jsonChars_cons c rest h1 h2 h3]
    exact ih (fun d hd => h d (List.mem_cons_of_mem _ hd))

theorem jsonChars_no_quote : ∀ (cs : Str), '\\' ∉ cs → jsonChars cs = true → '"' ∉ cs := by
  intro cs
  induction cs with
  | nil => intro _ _; exact List.not_mem_nil _
  | cons c rest ih =>
    intro hb hj
    have h1 : c ≠ '\\' := fun e => hb (e ▸ List.mem_cons_self _ _)
    have hb1 : '\\' ∉ rest := fun e => hb (List.mem_cons_of_mem _ e)
    by_cases h2 : c = '"'
    · subst h2
      unfold jsonChars at hj
      simp only [if_neg h1, if_true] at hj
      cases hj
    · by_cases h3 : c.toNat < 0x20
      · unfold jsonChars at hj
        simp only [if_neg h1, if_neg h2, if_pos h3] at hj
        cases hj
      · rw [jsonChars_cons c rest h1 h2 h3] at hj
        intro hm
        rcases List.mem_cons.mp hm with e | e
        · exact h2 e.symm
        · exact ih hb1 hj e

theorem doPrintf_of_no_percent : ∀ (s : Str) (fuel : Nat), s.length < fuel → '%' ∉ s →
    doPrintf fuel s = s := by
  intro s
  induction s with
  | nil =>
    intro fuel hf _
    cases fuel with
    | zero => omega
    | succ fuel => rfl
  | cons c rest ih =>
    intro fuel hf hp
    cases fuel with
    | zero => omega
    | succ fuel =>
      have hc : c ≠ '%' := fun e => hp (e ▸ List.mem_cons_self _ _)
      simp only [doPrintf, if_neg hc]
      rw [ih fuel (by simp only [List.length_cons] at hf; omega)
        (fun e => hp (List.mem_cons_of_mem _ e))]

theorem sprintf0_of_no_percent {s : Str} (h : '%' ∉ s) : Sprintf0 s = s :=
  doPrintf_of_no_percent s _ (Nat.lt_succ_self _) h

theorem isWs_nil : IsWs [] := fun c hc => absurd hc (List.not_mem_nil c)

theorem isWs_space : IsWs [' '] := by
  intro c hc
  rw [List.mem_singleton] at hc
  exact Or.inl hc

theorem count_ws {w : Str} (h : IsWs w) : w.count '"' = 0 := by
  rw [List.count_eq_zero]
  intro hm
  rcases h _ hm with e | e | e | e <;> cases e

theorem number_no_quote {s : Str} (h : IsJsonNumber s) : s.count '"' = 0 := by
  rw [List.count_eq_zero]
  obtain ⟨m, i, f, e, rfl, hm, hi, hf, he⟩ := h
  have hd : ∀ ds : Str, (∀ c ∈ ds, c.isDigit = true) → '"' ∉ ds := by
    intro ds h1 h2
    have := h1 _ h2
    revert this
    decide
  simp only [List.mem_append, not_or]
  refine ⟨⟨⟨?_, ?_⟩, ?_⟩, ?_⟩
  · rcases hm with rfl | rfl <;> decide
  · rcases hi with rfl | ⟨d, ds, rfl, h1, _, h2⟩
    · decide
    · apply hd
      intro c hc
      rcases List.mem_cons.mp hc with rfl | hc
      · exact h1
      · exact h2 c hc
  · rcases hf with rfl | ⟨ds, rfl, h1⟩
    · decide
    · intro hm
      rcases List.mem_cons.mp hm with e | hm
      · cases e
      · exact hd ds h1.2 hm
  · rcases he with rfl | ⟨e, sign, ds, rfl, h1, h2, h3⟩
    · decide
    · intro hm
      rcases List.mem_cons.mp hm with e1 | hm
      · rcases h1 with rfl | rfl <;> cases e1
      · rcases List.mem_append.mp hm with hm | hm
        · rcases h2 with rfl | rfl | rfl <;> revert hm <;> decide
        · exact hd ds h3.2 hm

theorem json_quotes_even {p : JsonPart} {s : Str} (h : JsonText p s) :
    '\\' ∉ s → s.count '"' % 2 = 0 := by
  induction h with
  | litNull => intro _; decide
  | litTrue => intro _; decide
  | litFalse => intro _; decide
  | number s h => intro _; rw [number_no_quote h]
  | string cs h =>
    intro hb
    have hb1 : '\\' ∉ cs := fun e => hb (List.mem_cons_of_mem _ (List.mem_append_left _ e))
    have := List.count_eq_zero.mpr (jsonChars_no_quote cs hb1 h)
    simp [List.count_cons, List.count_append, this]
  | emptyObject w hw =>
    intro _
    simp [List.count_cons, List.count_append, count_ws hw]
  | object ms h ih =>
    intro hb
    have := ih (fun e => hb (List.mem_cons_of_mem _ (List.mem_append_left _ e)))
    simp [List.count_cons, List.count_append, this]
  | emptyArray w hw =>
    intro _
    simp [List.count_cons, List.count_append, count_ws hw]
  | array es h ih =>
    intro hb
    have := ih (fun e => hb (List.mem_cons_of_mem _ (List.mem_append_left _ e)))
    simp [List.count_cons, List.count_append, this]
  | member w1 k w2 w3 v w4 h1 hk h2 h3 hv h4 ih =>
    intro hb
    simp only [List.mem_append, List.mem_cons, not_or] at hb
    have hk0 := List.count_eq_zero.mpr (jsonChars_no_quote k hb.1.1.1.1.2.2 hk)
    have := ih hb.1.2
    simp [List.count_cons, List.count_append, count_ws h1, count_ws h2, count_ws h3,
      count_ws h4, hk0]
    omega
  | membersOne m h ih => exact ih
  | membersCons m ms h hs ih ihs =>
    intro hb
    simp only [List.mem_append, List.mem_cons, not_or] at hb
    have h1 := ih hb.1
    have h2 := ihs hb.2.2
    simp [List.count_cons, List.count_append]
    omega
  | element w1 v w2 h1 hv h2 ih =>
    intro hb
    simp only [List.mem_append, not_or] at hb
    have := ih hb.1.2
    simp [List.count_append, count_ws h1, count_ws h2, this]
  | elementsOne e h ih => exact ih
  | elementsCons e es h hs ih ihs =>
    intro hb
    simp only [List.mem_append, List.mem_cons, not_or] at hb
    have h1 := ih hb.1
    have h2 := ihs hb.2.2
    simp [List.count_cons, List.count_append]
    omega
  | text w1 v w2 h1 hv h2 ih =>
    intro hb
    simp only [List.mem_append, not_or] at hb
    have := ih hb.1.2
    simp [List.count_append, count_ws h1, count_ws h2, this]

theorem table_value (typ : Str) :
    IsJsonChars ((mapGet TableTypeToJSONType typ).getD []) ∧
      '%' ∉ (mapGet TableTypeToJSONType typ).getD [] := by
  have hall : ∀ p ∈ TableTypeToJSONType, jsonChars p.2 = true ∧ '%' ∉ p.2 := by decide
  generalize TableTypeToJSONType = L at hall
  induction L with
  | nil => exact ⟨rfl, List.not_mem_nil _⟩
  | cons hd tl ih =>
    obtain ⟨k, v⟩ := hd
    by_cases hk : k = typ
    · simp only [mapGet, if_pos hk, Option.getD_some]
      exact hall (k, v) (List.mem_cons_self _ _)
    · simp only [mapGet, if_neg hk]
      exact ih (fun p hp => hall p (List.mem_cons_of_mem _ hp))

theorem json_member (w k v : Str) (hw : IsWs w) (hk : IsJsonChars k)
    (hv : JsonText .value v) :
    JsonText .member (w ++ ('"' :: (k ++ ('"' :: ':' :: ' ' :: v)))) := by
  have := JsonText.member w k [] [' '] v [] hw hk isWs_nil isWs_space hv isWs_nil
  simp only [List.append_assoc, List.cons_append, List.nil_append, List.append_nil] at this
  exact this

theorem json_object_of_member {m : Str} (h : JsonText .member m) :
    JsonText .value ('\x7b' :: m ++ ['\x7d']) :=
  .object m (.membersOne m h)

/-- An object of two members, the first one named `type`. -/
theorem json_typed_object (a k v : Str) (ha : IsJsonChars a) (hk : IsJsonChars k)
    (hv : JsonText .value v) :
    JsonText .value ("\x7b\"type\": \"".toList ++ (a ++ ("\", \"".toList ++
      (k ++ ("\": ".toList ++ (v ++ "\x7d".toList)))))) := by
  have h1 := json_member [] "type".toList _ isWs_nil (show jsonChars _ = true by decide)
    (JsonText.string a ha)
  have h2 := json_member [' '] k v isWs_space hk hv
  have := JsonText.object _ (.membersCons _ _ h1 (.membersOne _ h2))
  simp only [List.append_assoc, List.cons_append, List.nil_append, List.append_nil] at this
  exact this

end GlueSchema


namespace GlueSchema

/-! ## The JSON form of the trees the parser returns -/

theorem not_mem_append3 {c : Char} {a b d : Str} (ha : c ∉ a) (hb : c ∉ b) (hd : c ∉ d) :
    c ∉ a ++ b ++ d := by
  simp only [List.mem_append, not_or]
  exact ⟨⟨ha, hb⟩, hd⟩

theorem leaf_json (typ : Str) (order : List Str) : JsonOut (.mk typ none order) := by
  intro ord path
  obtain ⟨hx, hp⟩ := table_value typ
  have hdoc : (SchemaType.mk typ none order).Json ord path =
      some ("\x7b\"type\": \"".toList ++ (mapGet TableTypeToJSONType typ).getD [] ++
        "\"\x7d".toList) := by
    simp only [SchemaType.Json]
  refine ⟨_, hdoc, ?_, ?_⟩
  · have := json_object_of_member
      (json_member [] "type".toList _ isWs_nil (show jsonChars _ = true by decide)
        (JsonText.string _ hx))
    simp only [List.append_assoc, List.cons_append, List.nil_append] at this
    simp only [List.append_assoc]
    exact this
  · exact not_mem_append3 (by decide) hp (by decide)

theorem array_json {e : SchemaType} (h : JsonOut e) :
    JsonOut (.mk "array".toList (some [([], e)]) [[]]) := by
  intro ord path
  obtain ⟨items, hj, hv, hp⟩ := h ord (path ++ [[]])
  have hdoc : (SchemaType.mk "array".toList (some [([], e)]) [[]]).Json ord path =
      some ("\x7b\"type\": \"array\", \"items\": \x7b\"type\": ".toList ++ items ++
        "\x7d\x7d".toList) := by
    simp only [SchemaType.Json, jsonEntries, mapGet, if_true, hj]
  refine ⟨_, hdoc, ?_, ?_⟩
  · have := json_typed_object "array".toList "items".toList _ (show jsonChars _ = true by decide)
      (show jsonChars _ = true by decide)
      (json_object_of_member
        (json_member [] "type".toList items isWs_nil (show jsonChars _ = true by decide) hv))
    simp only [List.append_assoc, List.cons_append, List.nil_append] at this
    simp only [List.append_assoc]
    exact this
  · exact not_mem_append3 (by decide) hp (by decide)

theorem mem_jsonEntries (ord : MapOrder) (path : List Str) : ∀ (m : List (Str × SchemaType))
    (x : Str × Option Str), x ∈ jsonEntries ord path m →
    ∃ p ∈ m, x = (p.1, p.2.Json ord (path ++ [p.1])) := by
  intro m
  induction m with
  | nil => intro x hx; simp only [jsonEntries, List.not_mem_nil] at hx
  | cons hd tl ih =>
    obtain ⟨k, v⟩ := hd
    intro x hx
    simp only [jsonEntries, List.mem_cons] at hx
    rcases hx with rfl | hx
    · exact ⟨(k, v), List.mem_cons_self _ _, rfl⟩
    · obtain ⟨p, hp, e⟩ := ih x hx
      exact ⟨p, List.mem_cons_of_mem _ hp, e⟩

/-- A property the way `Json` writes it: the name between quotation marks, a
colon, a space, and a JSON value, without a percent sign. -/
theorem propertyStrs_ok : ∀ (L : List (Str × Option Str)),
    (∀ x ∈ L, ∃ doc, x.2 = some doc ∧ SafeName x.1 ∧ JsonText .value doc ∧ '%' ∉ doc) →
    ∃ props, propertyStrs L = some props ∧ (L ≠ [] → props ≠ []) ∧
      ∀ p ∈ props, (∃ k v, p = '"' :: (k ++ ('"' :: ':' :: ' ' :: v)) ∧ IsJsonChars k ∧
        JsonText .value v) ∧ '%' ∉ p := by
  intro L
  induction L with
  | nil => intro _; exact ⟨[], rfl, fun h => absurd rfl h, fun p hp => absurd hp (List.not_mem_nil p)⟩
  | cons hd tl ih =>
    intro h
    obtain ⟨fn, o⟩ := hd
    obtain ⟨doc, hdoc, hsafe, hv, hp⟩ := h (fn, o) (List.mem_cons_self _ _)
    simp only at hdoc
    subst hdoc
    obtain ⟨props, hprops, _, hall⟩ := ih (fun x hx => h x (List.mem_cons_of_mem _ hx))
    have hstrs : propertyStrs ((fn, some doc) :: tl) =
        some (("\"".toList ++ fn ++ "\": ".toList ++ doc) :: props) := by
      simp only [propertyStrs, hprops]
    refine ⟨_, hstrs, fun _ => List.cons_ne_nil _ _, ?_⟩
    intro p hpm
    rcases List.mem_cons.mp hpm with rfl | hpm
    · refine ⟨⟨fn, doc, ?_, jsonChars_safe hsafe, hv⟩, ?_⟩
      · simp only [List.append_assoc, List.cons_append, List.nil_append]
        rfl
      · have hfn : '%' ∉ fn := fun hm => (hsafe _ hm).2.2.2 rfl
        simp only [List.mem_append, not_or]
        exact ⟨⟨⟨by decide, hfn⟩, by decide⟩, hp⟩
    · exact hall p hpm

theorem json_members_join : ∀ (props : List Str) (w : Str), IsWs w → props ≠ [] →
    (∀ p ∈ props, ∃ k v, p = '"' :: (k ++ ('"' :: ':' :: ' ' :: v)) ∧ IsJsonChars k ∧
      JsonText .value v) →
    JsonText .members (w ++ stringsJoin props ", ".toList) := by
  intro props
  induction props with
  | nil => intro w _ h; exact absurd rfl h
  | cons p rest ih =>
    intro w hw _ h
    obtain ⟨k, v, rfl, hk, hv⟩ := h p (List.mem_cons_self _ _)
    cases rest with
    | nil =>
      simp only [stringsJoin]
      exact .membersOne _ (json_member w k v hw hk hv)
    | cons q rest =>
      have h1 := ih [' '] isWs_space (List.cons_ne_nil _ _)
        (fun x hx => h x (List.mem_cons_of_mem _ hx))
      have := JsonText.membersCons _ _ (json_member w k v hw hk hv) h1
      simp only [stringsJoin]
      simp only [List.append_assoc, List.cons_append, List.nil_append] at this ⊢
      exact this

theorem stringsJoin_no_percent : ∀ (props : List Str), (∀ p ∈ props, '%' ∉ p) →
    '%' ∉ stringsJoin props ", ".toList := by
  intro props
  induction props with
  | nil => intro _; exact List.not_mem_nil _
  | cons p rest ih =>
    intro h
    cases rest with
    | nil => simp only [stringsJoin]; exact h p (List.mem_cons_self _ _)
    | cons q rest =>
      simp only [stringsJoin]
      exact not_mem_append3 (h p (List.mem_cons_self _ _)) (by decide)
        (ih (fun x hx => h x (List.mem_cons_of_mem _ hx)))

theorem struct_json {m : List (Str × SchemaType)} {order : List Str} (hm : m ≠ [])
    (hkeys : ∀ n ∈ m.map Prod.fst, SafeName n) (hvals : ∀ p ∈ m, JsonOut p.2) :
    JsonOut (.mk "struct".toList (some m) order) := by
  intro ord path
  obtain ⟨f, fs, rfl⟩ := List.exists_cons_of_ne_nil hm
  have hL : ∀ x ∈ ord.order path (jsonEntries ord path (f :: fs)),
      ∃ doc, x.2 = some doc ∧ SafeName x.1 ∧ JsonText .value doc ∧ '%' ∉ doc := by
    intro x hx
    rw [(ord.perm path _).mem_iff] at hx
    obtain ⟨p, hp, rfl⟩ := mem_jsonEntries ord path _ x hx
    obtain ⟨doc, hd, hv, hpc⟩ := hvals p hp ord (path ++ [p.1])
    exact ⟨doc, hd, hkeys _ (List.mem_map_of_mem _ hp), hv, hpc⟩
  obtain ⟨props, hprops, hne, hall⟩ := propertyStrs_ok _ hL
  have hne1 : props ≠ [] := by
    apply hne
    intro e
    have := (ord.perm path (jsonEntries ord path (f :: fs))).length_eq
    rw [e] at this
    obtain ⟨k, v⟩ := f
    simp only [jsonEntries, List.length_nil, List.length_cons] at this
    omega
  have hnp := stringsJoin_no_percent props (fun p hp => (hall p hp).2)
  have hms := json_members_join props [] isWs_nil hne1 (fun p hp => (hall p hp).1)
  rw [List.nil_append] at hms
  have hsa : ¬ "struct".toList = "array".toList := by decide
  have hdoc : (SchemaType.mk "struct".toList (some (f :: fs)) order).Json ord path =
      some ("\x7b\"type\": \"object\", \"properties\": \x7b".toList ++
        stringsJoin props ", ".toList ++ "\x7d\x7d".toList) := by
    simp only [SchemaType.Json, if_neg hsa, if_true, hprops, sprintf0_of_no_percent hnp]
  refine ⟨_, hdoc, ?_, ?_⟩
  · have := json_typed_object "object".toList "properties".toList _
      (show jsonChars _ = true by decide) (show jsonChars _ = true by decide)
      (JsonText.object _ hms)
    simp only [List.append_assoc, List.cons_append, List.nil_append] at this
    simp only [List.append_assoc]
    exact this
  · exact not_mem_append3 (by decide) hnp (by decide)

theorem der_inv9 {k : Kind} {ts : List Str} {t : SchemaType} (h : Der k ts t) : Inv9 k t := by
  induction h with
  | fieldLeaf u hu => exact fun _ => leaf_json u []
  | fieldNode h ih => exact ih
  | elemLeaf u str hp h1 h2 => exact fun _ => leaf_json str []
  | elemNode h ih => exact ih
  | array h ih =>
    intro hF
    exact array_json (ih (((forall_mk _ _ _ _).mp hF).2 _ (List.mem_singleton_self _)))
  | structOpen =>
    exact ⟨rfl, rfl, fun p hp => absurd hp (List.not_mem_nil p)⟩
  | addField name h0 hv ih0 ihv =>
    obtain ⟨_, _, hvals⟩ := ih0
    refine ⟨rfl, rfl, mapSet_ne_nil _ _ _, ?_⟩
    intro p hp
    rcases mem_mapSet hp with h | rfl
    · exact hvals p h
    · exact ihv
  | comma h ih => exact ⟨ih.1, ih.2.1, ih.2.2.2⟩
  | close h ih =>
    rename_i ts1 t1
    obtain ⟨hTyp, hFields, hne, hvals⟩ := ih
    obtain ⟨typ, fields, order⟩ := t1
    change typ = "struct".toList at hTyp
    subst hTyp
    cases fields with
    | none => cases hFields
    | some m =>
      intro hF
      have hF1 := (forall_mk _ _ _ _).mp hF
      exact struct_json hne (hF1.1 rfl) (fun p hp => hvals p hp (hF1.2 p hp))

/-- C9, amended.  `Json` writes a field name between quotation marks as it is,
so a name with a quotation mark in it gives a string that is not JSON.  When
no field name of a struct anywhere in the tree `parseStruct` returned holds a
control character, a quotation mark, a backslash or a percent sign, `Json`
returns a syntactically valid JSON document, under every map iteration order. -/
theorem C9_json_valid_for_plain_names (scn s : SvcScanner) (t : SchemaType)
    (hparse : parseStruct scn = .ok t s) (hnames : t.Forall SafeNames) (ord : MapOrder)
    (path : List Str) : ∃ doc, t.Json ord path = some doc ∧ IsJson doc := by
  obtain ⟨ts, hd, _⟩ := parseStruct_der hparse
  obtain ⟨doc, hj, hv, _⟩ := der_inv9 hd hnames ord path
  refine ⟨doc, hj, ?_⟩
  have := JsonText.text [] doc [] isWs_nil hv isWs_nil
  rw [List.nil_append, List.append_nil] at this
  exact this

end GlueSchema


namespace GlueSchema

/-! ## The JSON Schema form -/

/-- Whatever the iteration order, a map with one entry yields that entry. -/
theorem MapOrder.order_singleton (ord : MapOrder) (path : List Str) (e : Str × Option Str) :
    ord.order path [e] = [e] :=
  List.perm_singleton.mp (ord.perm path [e])

/-- C2, the code at the test input `struct<birthdays:array<int>>`: the input
parses to `birthdaysTree`, and whatever the map iteration order, `Json` wraps
the element of the array in a second `{"type": ...}` object, which is not the
document the test expects. -/
theorem C2_array_json_wraps_items (ord : MapOrder) :
    (parseText latin1Tables 0 "struct<birthdays:array<int>>".toList).value? =
      some birthdaysTree ∧
    birthdaysTree.Json ord [] = some ("\x7b\"type\": \"object\", \"properties\": " ++
      "\x7b\"birthdays\": \x7b\"type\": \"array\", \"items\": " ++
      "\x7b\"type\": \x7b\"type\": \"number\"\x7d\x7d\x7d\x7d\x7d").toList ∧
    birthdaysTree.Json ord [] ≠ some ("\x7b\"type\": \"object\", \"properties\": " ++
      "\x7b\"birthdays\": \x7b\"type\": \"array\", \"items\": " ++
      "\x7b\"type\": \"number\"\x7d\x7d\x7d\x7d").toList := by
  have hl : NewSvcScanner latin1Tables 0 "struct<birthdays:array<int>>".toList = .ok
      ⟨0, [⟨0, 1, "struct".toList⟩, ⟨1, 1, "<".toList⟩, ⟨1, 1, "birthdays".toList⟩,
        ⟨1, 1, ":".toList⟩, ⟨1, 1, "array".toList⟩, ⟨2, 1, "<".toList⟩, ⟨2, 1, "int".toList⟩,
        ⟨1, 1, ">".toList⟩, ⟨0, 1, ">".toList⟩], 0, 0⟩ 0 := by decide
  refine ⟨?_, ?_, ?_⟩
  · unfold parseText
    rw [hl]
    decide!
  · simp only [birthdaysTree, SchemaType.Json, jsonEntries, MapOrder.order_singleton]
    decide
  · simp only [birthdaysTree, SchemaType.Json, jsonEntries, MapOrder.order_singleton]
    decide

/-- C4, the code at the text `struct<a:int,b:int>`: the parser returns the
struct with the names `a, b` in that order, and `Json` lists the properties in
the order in which the map yields them: `b` before `a` under an iteration that
runs against insertion order, `a` before `b` under one that follows it.  The
document is not a function of the tree. -/
theorem C4_json_follows_map_iteration :
    NewSvcScanner latin1Tables 0 "struct<a:int,b:int>".toList = .ok abScanner 0 ∧
    (parseStruct abScanner).value? = some abTree ∧
    abTree.FieldOrder = ["a".toList, "b".toList] ∧
    abTree.Json MapOrder.reversed [] = some ("\x7b\"type\": \"object\", \"properties\": " ++
      "\x7b\"b\": \x7b\"type\": \"number\"\x7d, \"a\": \x7b\"type\": \"number\"\x7d\x7d\x7d").toList ∧
    abTree.Json MapOrder.insertion [] = some ("\x7b\"type\": \"object\", \"properties\": " ++
      "\x7b\"a\": \x7b\"type\": \"number\"\x7d, \"b\": \x7b\"type\": \"number\"\x7d\x7d\x7d").toList :=
  ⟨by decide, by decide!, rfl, by decide!, by decide!⟩

/-- C6, the code at the text `struct<x:array<foo>>`: the parser returns a tree
whose array element is the childless node `foo`, a name that is not approved
(and not a key of `ValidTypes`), while the same name as the type of a struct
field, `struct<x:foo>`, is rejected. -/
theorem C6_array_element_not_validated :
    NewSvcScanner latin1Tables 0 "struct<x:array<foo>>".toList = .ok fooScanner 0 ∧
    (parseStruct fooScanner).value? = some fooTree ∧
    "foo".toList ∉ approvedTypes ∧ (mapGet ValidTypes "foo".toList).isNone = true ∧
    (parseStruct
      { fooScanner with Buf := [⟨0, 1, "struct".toList⟩, ⟨1, 1, "<".toList⟩,
          ⟨1, 1, "x".toList⟩, ⟨1, 1, ":".toList⟩, ⟨1, 1, "foo".toList⟩,
          ⟨0, 1, ">".toList⟩] }).error? = some (.notApproved "foo".toList) :=
  ⟨by decide, by decide!, by decide, by decide, by decide!⟩

/-- C10.  JSON form of a primitive: a childless node (`Fields` nil or empty)
whose name is approved serializes to `{"type": "T"}`, with T `string` for
string, `boolean` for boolean and `number` for int, bigint and double, whatever
the map iteration order and wherever the node stands. -/
theorem C10_primitive_json (ord : MapOrder) (path : List Str) (typ : Str)
    (fields : Option (List (Str × SchemaType))) (order : List Str)
    (hleaf : (SchemaType.mk typ fields order).isLeaf) (htyp : typ ∈ approvedTypes) :
    (SchemaType.mk typ fields order).Json ord path =
      some ("\x7b\"type\": \"".toList ++ claimedJsonType typ ++ "\"\x7d".toList) := by
  have hj : (SchemaType.mk typ fields order).Json ord path =
      some ("\x7b\"type\": \"".toList ++ (mapGet TableTypeToJSONType typ).getD [] ++
        "\"\x7d".toList) := by
    rcases hleaf with h | h <;> simp only [SchemaType.Fields] at h <;> subst h <;>
      simp only [SchemaType.Json]
  rw [hj]
  simp only [approvedTypes, List.mem_cons, List.mem_singleton, List.not_mem_nil, or_false] at htyp
  rcases htyp with h | h | h | h | h <;> subst h <;> decide

/-- C10 at the name `bigint`, and at the tree of the text
`struct<created_time:bigint>`, which serializes to the document of the test
under every map iteration order. -/
theorem C10_primitive_json_witness :
    (SchemaType.mk "bigint".toList none []).Json MapOrder.insertion ["created_time".toList] =
      some "\x7b\"type\": \"number\"\x7d".toList ∧
    NewSvcScanner latin1Tables 0 "struct<created_time:bigint>".toList = .ok createdScanner 0 ∧
    (parseStruct createdScanner).value? = some createdTree ∧
    ∀ ord : MapOrder, createdTree.Json ord [] = some ("\x7b\"type\": \"object\", " ++
      "\"properties\": \x7b\"created_time\": \x7b\"type\": \"number\"\x7d\x7d\x7d").toList := by
  refine ⟨?_, by decide, by decide!, ?_⟩
  · exact C10_primitive_json MapOrder.insertion ["created_time".toList] "bigint".toList none []
      (Or.inl rfl) (by decide)
  · intro ord
    simp only [createdTree, SchemaType.Json, jsonEntries, MapOrder.order_singleton]
    decide

end GlueSchema


namespace GlueSchema

/-- C9 amended, at the second text of the test, with the maps iterated against
insertion order. -/
theorem C9_json_valid_witness :
    parseStruct likesScanner = .ok likesTree { likesScanner with UnitPos := 22, lineNo := 1 } ∧
    likesTree.Forall SafeNames ∧
    ∃ doc, likesTree.Json MapOrder.reversed [] = some doc ∧ IsJson doc := by
  have hnames : likesTree.Forall SafeNames := by
    simp only [likesTree, forall_mk, forall_leaf, List.mem_cons, List.mem_singleton,
      List.not_mem_nil, or_false, forall_eq_or_imp, forall_eq]
    decide
  exact ⟨by decide!, hnames,
    C9_json_valid_for_plain_names likesScanner { likesScanner with UnitPos := 22, lineNo := 1 }
      likesTree (by decide!) hnames MapOrder.reversed []⟩

/-- C9 as stated fails: the text `struct<":int>` is accepted, its field is
named by a quotation mark, and `Json` returns, under every map iteration order,
a string in which the name closes its own quotation marks; the string is not a
JSON document. -/
theorem C9_quote_in_field_name :
    NewSvcScanner latin1Tables 0 "struct<\":int>".toList = .ok quoteScanner 0 ∧
    (parseStruct quoteScanner).value? = some quoteTree ∧
    (∀ ord : MapOrder, quoteTree.Json ord [] = some quoteJson) ∧
    ¬ IsJson quoteJson := by
  refine ⟨by decide, by decide!, ?_, ?_⟩
  · intro ord
    simp only [quoteTree, SchemaType.Json, jsonEntries, MapOrder.order_singleton]
    decide
  · intro h
    have := json_quotes_even h (by decide)
    revert this
    decide

end GlueSchema


namespace GlueSchema

/-! ## C12: array nodes -/

theorem arrayShape_of_ne {typ : Str} (fields : Option (List (Str × SchemaType)))
    (order : List Str) (h : typ ≠ "array".toList) : ArrayShape (.mk typ fields order) :=
  fun h1 => absurd h1 h

theorem approved_ne_array {u : Str} (h : u ∈ approvedTypes) : u ≠ "array".toList := by
  intro e
  subst e
  revert h
  decide

theorem der_inv12 {k : Kind} {ts : List Str} {t : SchemaType} (h : Der k ts t) : Inv12 k t := by
  induction h with
  | fieldLeaf u hu =>
    exact (forall_leaf _ _ _).mpr (arrayShape_of_ne _ _ (approved_ne_array hu))
  | fieldNode h ih => exact ih
  | elemLeaf u str hp h1 h2 => exact (forall_leaf _ _ _).mpr (arrayShape_of_ne _ _ h1)
  | elemNode h ih => exact ih
  | array h ih =>
    refine (forall_mk _ _ _ _).mpr ⟨fun _ => ⟨_, rfl, rfl⟩, ?_⟩
    intro p hp
    rw [List.mem_singleton] at hp
    subst hp
    exact ih
  | structOpen =>
    exact ⟨rfl, (forall_mk _ _ _ _).mpr
      ⟨arrayShape_of_ne _ _ (by decide), fun p hp => absurd hp (List.not_mem_nil p)⟩⟩
  | addField name h0 hv ih0 ihv =>
    refine ⟨rfl, (forall_mk _ _ _ _).mpr ⟨arrayShape_of_ne _ _ (by decide), ?_⟩⟩
    intro p hp
    rcases mem_mapSet hp with h | rfl
    · exact ((forall_mk _ _ _ _).mp ih0.2).2 p h
    · exact ihv
  | comma h ih => exact ih
  | close h ih => exact ih.2

/-- A tree returned by `parseArray`, from any cursor, is derived from the
values at the cursor. -/
theorem parseArray_der {scn s : SvcScanner} {t : SchemaType} (h : parseArray scn = .ok t s) :
    ∃ ts, Der .closed ts t ∧ ∃ ts1, ts = "array".toList :: ts1 := by
  have hpos : 0 ≤ scn.UnitPos ∧ scn.UnitPos < scn.Buf.length := by
    have h1 : parseArrayFuel (scn.Buf.length + 1) scn = .ok t s := h
    rw [parseArrayFuel, VerifyExpecting, VerifyExpectingStr] at h1
    cases hr : scn.ReadUnit with
    | ok u s1 => exact readUnit_ok_pos hr
    | error e s1 =>
      rw [hr] at h1
      by_cases he : e = .EOF <;> simp [checkPanic, he] at h1
    | panic => rw [hr] at h1; simp [checkPanic] at h1
    | outOfFuel => rw [hr] at h1; simp [checkPanic] at h1
  have hat : AtPos scn.Buf scn.UnitPos.toNat scn := ⟨rfl, by omega, by omega⟩
  have hs := (parser_sim (scn.Buf.length + 1)).2.2 scn.Buf _ scn hat
  rw [show parseArrayFuel (scn.Buf.length + 1) scn = .ok t s from h] at hs
  cases hr : tokArray (scn.Buf.length + 1) (valuesFrom scn.Buf scn.UnitPos.toNat) with
  | ok t1 rest =>
    rw [hr] at hs
    obtain ⟨q, s1, h2, _, _, _⟩ := hs
    cases h2
    obtain ⟨ts, h5, h6⟩ := (tok_sound _).2.2 _ _ _ hr
    rw [tokArray_succ] at hr
    obtain ⟨l1, hl1, _⟩ := expectTok_ok hr
    obtain ⟨ts1, hts1⟩ := der_head h6 (Or.inl rfl)
    refine ⟨ts, h6, ts1, ?_⟩
    rw [h5, hts1] at hl1
    simp only [List.cons_append, List.cons.injEq] at hl1
    rw [hts1, hl1.1]
  | fail => rw [hr] at hs; obtain ⟨e, s1, h2⟩ := hs; cases h2
  | panic => rw [hr] at hs; cases hs
  | outOfFuel => rw [hr] at hs; cases hs

theorem der_array_inv {ts : List Str} {t : SchemaType} (h : Der .closed ts t)
    (hh : ∃ ts1, ts = "array".toList :: ts1) :
    ∃ tse e, Der .elem tse e ∧ ts = "array".toList :: "<".toList :: tse ++ [">".toList] ∧
      t = .mk "array".toList (some [([], e)]) [[]] := by
  cases h with
  | array h1 => exact ⟨_, _, h1, rfl, rfl⟩
  | close h1 =>
    obtain ⟨ts1, h2⟩ := hh
    obtain ⟨ts2, h3⟩ := der_head h1 (Or.inr (Or.inr rfl))
    exfalso
    have ht := (der_inv12 h1).1
    rw [h3] at h2
    simp only [List.cons_append, List.cons.injEq] at h2
    rw [ht] at h2
    exact absurd h2.1 (by decide)

/-- C12.  Array nodes have exactly one element.  In every tree `parseStruct`
returns, every node of type `array` has a map `Fields` with exactly one entry,
under the empty key, and the name sequence `FieldOrder` is `[""]`.  A tree
`parseArray` returns is such a node, the entry being the tree read between
`array<` and `>` as the element type, and its nodes of type `array` have the
same shape. -/
theorem C12_array_nodes_have_one_element :
    (∀ (scn s : SvcScanner) (t : SchemaType), parseStruct scn = .ok t s →
      t.Forall ArrayShape) ∧
    (∀ (scn s : SvcScanner) (t : SchemaType), parseArray scn = .ok t s →
      ∃ tse e, Der .elem tse e ∧ t = .mk "array".toList (some [([], e)]) [[]] ∧
        t.Forall ArrayShape) := by
  constructor
  · intro scn s t h
    obtain ⟨ts, hd, _⟩ := parseStruct_der h
    exact der_inv12 hd
  · intro scn s t h
    obtain ⟨ts, hd, hh⟩ := parseArray_der h
    obtain ⟨tse, e, he, _, ht⟩ := der_array_inv hd hh
    exact ⟨tse, e, he, ht, der_inv12 hd⟩

/-- C12 at the third text of the test: its tree is the one the test expects,
with the element `int` as the one entry of the array. -/
theorem C12_array_nodes_witness :
    NewSvcScanner latin1Tables 0 "struct<birthdays:array<int>>".toList =
      .ok birthdaysScanner 0 ∧
    parseStruct birthdaysScanner =
      .ok birthdaysTree { birthdaysScanner with UnitPos := 9, lineNo := 1 } ∧
    birthdaysTree.Forall ArrayShape :=
  ⟨by decide, by decide!,
    C12_array_nodes_have_one_element.1 birthdaysScanner
      { birthdaysScanner with UnitPos := 9, lineNo := 1 } birthdaysTree (by decide!)⟩

end GlueSchema


namespace GlueSchema

/-! ## C13: stepping the unit cursor back -/

theorem unreadUnit_zero (scn : SvcScanner) (h : scn.UnitPos = 0) :
    scn.UnreadUnit = .error .cannotUnread scn := by
  unfold SvcScanner.UnreadUnit
  rw [if_pos h]

theorem unreadUnit_one (scn : SvcScanner) (h : scn.UnitPos = 1) : scn.UnreadUnit = .panic := by
  unfold SvcScanner.UnreadUnit
  have h0 : ¬ scn.UnitPos = 0 := by omega
  simp only [if_neg h0, if_pos h, goIndex]
  rfl

theorem unreadUnit_ge_two (scn : SvcScanner) (p : Nat) (u : ScanUnit)
    (h : scn.UnitPos = (p : Int) + 2) (hu : scn.Buf[p]? = some u) :
    scn.UnreadUnit = .ok () ⟨u.BraceLevel, scn.Buf, (p : Int) + 1, u.LineNo⟩ := by
  unfold SvcScanner.UnreadUnit
  have h0 : ¬ scn.UnitPos = 0 := by omega
  have h1 : ¬ scn.UnitPos = 1 := by omega
  have e1 : scn.UnitPos - 1 = (p : Int) + 1 := by omega
  have e : (p : Int) + 1 - 1 = (p : Int) := by omega
  simp only [if_neg h0, if_neg h1, e1, e, goIndex_natCast, hu]

/-- C13, the code at the first unit.  `UnreadUnit` with the cursor at unit 1
resets the cursor to unit 0, depth 0 and line 0, and then goes on: it steps the
cursor to -1 and indexes the buffer at -2, which panics, whatever the buffer.
With the cursor at 0 it returns the error and leaves the cursor as it was, and
with the cursor at `p + 2` it leaves the cursor at `p + 1` with the depth and
line of unit `p`, as the claim says. -/
theorem C13_unread_at_first_unit_panics :
    (∀ (B : List ScanUnit) (bl ln : Int), SvcScanner.UnreadUnit ⟨bl, B, 1, ln⟩ = .panic) ∧
    (∀ (B : List ScanUnit) (bl ln : Int),
      SvcScanner.UnreadUnit ⟨bl, B, 0, ln⟩ = .error .cannotUnread ⟨bl, B, 0, ln⟩) ∧
    (∀ (B : List ScanUnit) (bl ln : Int) (p : Nat) (u : ScanUnit), B[p]? = some u →
      SvcScanner.UnreadUnit ⟨bl, B, (p : Int) + 2, ln⟩ =
        .ok () ⟨u.BraceLevel, B, (p : Int) + 1, u.LineNo⟩) ∧
    xIntScanner.ReadUnit = .ok "struct".toList xIntAfterOne ∧
    xIntAfterOne.UnreadUnit = .panic := by
  refine ⟨fun B bl ln => unreadUnit_one _ rfl, fun B bl ln => unreadUnit_zero _ rfl, ?_,
    by decide, by decide⟩
  intro B bl ln p u hu
  exact unreadUnit_ge_two ⟨bl, B, (p : Int) + 2, ln⟩ p u rfl hu

end GlueSchema


namespace GlueSchema

/-! ## C14: the character source steps back over what it read -/

theorem newRuneReader_wellFormed (r : List Char) : (NewRuneReader r).WellFormed :=
  ⟨rfl, le_refl _, Int.natCast_nonneg _⟩

theorem readRune_wellFormed {rr rr1 : RuneReader} {c : Char} (h : rr.WellFormed)
    (hr : rr.ReadRune = .ok c rr1) : rr1.WellFormed := by
  obtain ⟨h1, h2, h3⟩ := h
  unfold RuneReader.ReadRune at hr
  by_cases hlt : rr.RunePos < rr.ContentLen
  · rw [if_pos hlt] at hr
    cases hg : goIndex rr.Contents rr.RunePos with
    | none => rw [hg] at hr; cases hr
    | some d =>
      rw [hg] at hr
      simp only [Outcome.ok.injEq] at hr
      obtain ⟨_, rfl⟩ := hr
      by_cases hd : d = '\n'
      · simp only [if_pos hd]
        exact ⟨h1, by show 0 ≤ rr.RunePos + 1; omega, by show rr.RunePos + 1 ≤ rr.ContentLen; omega⟩
      · simp only [if_neg hd]
        exact ⟨h1, by show 0 ≤ rr.RunePos + 1; omega, by show rr.RunePos + 1 ≤ rr.ContentLen; omega⟩
  · rw [if_neg hlt] at hr; cases hr

theorem readRune_error_state {rr rr1 : RuneReader} {e : GoError}
    (hr : rr.ReadRune = .error e rr1) : rr1 = rr := by
  unfold RuneReader.ReadRune at hr
  by_cases hlt : rr.RunePos < rr.ContentLen
  · rw [if_pos hlt] at hr
    cases hg : goIndex rr.Contents rr.RunePos with
    | none => rw [hg] at hr; cases hr
    | some d => rw [hg] at hr; cases hr
  · rw [if_neg hlt] at hr
    simp only [Outcome.error.injEq] at hr
    exact hr.2.symm

theorem unreadRune_wellFormed {rr rr1 : RuneReader} (h : rr.WellFormed)
    (hr : rr.UnreadRune = .ok () rr1) : rr1.WellFormed := by
  obtain ⟨h1, h2, h3⟩ := h
  unfold RuneReader.UnreadRune at hr
  by_cases h0 : rr.RunePos = 0
  · rw [if_pos h0] at hr; cases hr
  · rw [if_neg h0] at hr
    simp only at hr
    cases hg : goIndex rr.Contents (rr.RunePos - 1) with
    | none => rw [hg] at hr; cases hr
    | some d =>
      rw [hg] at hr
      by_cases hd : d = '\n'
      · simp only [if_pos hd, Outcome.ok.injEq, true_and] at hr
        subst hr
        exact ⟨h1, by show 0 ≤ rr.RunePos - 1; omega, by show rr.RunePos - 1 ≤ rr.ContentLen; omega⟩
      · simp only [if_neg hd, Outcome.ok.injEq, true_and] at hr
        subst hr
        exact ⟨h1, by show 0 ≤ rr.RunePos - 1; omega, by show rr.RunePos - 1 ≤ rr.ContentLen; omega⟩

theorem unreadRune_error_state {rr rr1 : RuneReader} {e : GoError}
    (hr : rr.UnreadRune = .error e rr1) : rr1 = rr := by
  unfold RuneReader.UnreadRune at hr
  by_cases h0 : rr.RunePos = 0
  · rw [if_pos h0] at hr
    simp only [Outcome.error.injEq] at hr
    exact hr.2.symm
  · rw [if_neg h0] at hr
    simp only at hr
    cases hg : goIndex rr.Contents (rr.RunePos - 1) with
    | none => rw [hg] at hr; cases hr
    | some d =>
      rw [hg] at hr
      by_cases hd : d = '\n'
      · simp only [if_pos hd] at hr; cases hr
      · simp only [if_neg hd] at hr; cases hr

/-- Every state of the reader satisfies its invariant. -/
theorem reachable_wellFormed {rr : RuneReader} (h : rr.Reachable) : rr.WellFormed := by
  induction h with
  | new r => exact newRuneReader_wellFormed r
  | read _ hr ih => exact readRune_wellFormed ih hr
  | readError _ hr ih => rw [readRune_error_state hr]; exact ih
  | unread _ hr ih => exact unreadRune_wellFormed ih hr
  | unreadError _ hr ih => rw [unreadRune_error_state hr]; exact ih

theorem read_then_unread (rr : RuneReader) (h : rr.WellFormed)
    (hlt : rr.RunePos < rr.ContentLen) :
    ∃ c rr1, goIndex rr.Contents rr.RunePos = some c ∧ rr.ReadRune = .ok c rr1 ∧
      rr1.RunePos = rr.RunePos + 1 ∧
      rr1.LineNo = rr.LineNo + (if c = '\n' then 1 else 0) ∧
      rr1.UnreadRune = .ok () rr := by
  obtain ⟨h1, h2, h3⟩ := h
  obtain ⟨contents, len, pos, line⟩ := rr
  simp only at h1 h2 h3 hlt
  subst h1
  obtain ⟨p, rfl⟩ := Int.eq_ofNat_of_zero_le h2
  have hp : p < contents.length := by exact_mod_cast hlt
  have hg : goIndex contents (p : Int) = some contents[p] := by
    rw [goIndex_natCast, List.getElem?_eq_getElem hp]
  refine ⟨contents[p], ⟨contents, (contents.length : Nat), (p : Int) + 1,
    line + (if contents[p] = '\n' then 1 else 0)⟩, hg, ?_, rfl, rfl, ?_⟩
  · by_cases hd : contents[p] = '\n' <;>
      simp [RuneReader.ReadRune, hlt, hg, hd]
  · have hne : ¬ ((p : Int) + 1 = 0) := by omega
    have e : (p : Int) + 1 - 1 = (p : Int) := by omega
    by_cases hd : contents[p] = '\n' <;>
      simp [RuneReader.UnreadRune, hd, hne, e, hg]

/-- C14.  Character source undo.  In every state of a reader (one built by
`NewRuneReader` and moved by `ReadRune` and `UnreadRune`) with `RunePos <
ContentLen`, `ReadRune` returns the rune at `RunePos` and moves to `RunePos + 1`,
with the line counter one up when the rune is a newline and unchanged
otherwise, and `UnreadRune` then returns the reader to exactly the state it
started from. -/
theorem C14_read_then_unread_restores (rr : RuneReader) (h : rr.Reachable)
    (hlt : rr.RunePos < rr.ContentLen) :
    ∃ c rr1, goIndex rr.Contents rr.RunePos = some c ∧ rr.ReadRune = .ok c rr1 ∧
      rr1.RunePos = rr.RunePos + 1 ∧
      rr1.LineNo = rr.LineNo + (if c = '\n' then 1 else 0) ∧
      rr1.UnreadRune = .ok () rr :=
  read_then_unread rr (reachable_wellFormed h) hlt

/-- C14 at the reader over `a`, newline, `b` that has read the `a`: reading the
newline moves to line 2, and stepping back returns to line 1. -/
theorem C14_read_then_unread_witness :
    lineReader.Reachable ∧
    lineReader.ReadRune =
      .ok '\n' { Contents := "a\nb".toList, ContentLen := 3, RunePos := 2, LineNo := 2 } ∧
    RuneReader.UnreadRune
      { Contents := "a\nb".toList, ContentLen := 3, RunePos := 2, LineNo := 2 } =
      .ok () lineReader ∧
    ∃ c rr1, goIndex lineReader.Contents lineReader.RunePos = some c ∧
      lineReader.ReadRune = .ok c rr1 ∧ rr1.RunePos = lineReader.RunePos + 1 ∧
      rr1.LineNo = lineReader.LineNo + (if c = '\n' then 1 else 0) ∧
      rr1.UnreadRune = .ok () lineReader :=
  have hreach : lineReader.Reachable :=
    RuneReader.Reachable.read (RuneReader.Reachable.new "a\nb".toList)
      (show (NewRuneReader "a\nb".toList).ReadRune = .ok 'a' lineReader by decide)
  ⟨hreach, by decide, by decide,
    C14_read_then_unread_restores lineReader hreach (by decide)⟩

end GlueSchema


namespace GlueSchema

/-! ## C18: the units of a text, written one after the other, are the text -/

theorem lexList_flatten (T : UnicodeTables) (n : Nat) : ∀ r : List Char, r.length ≤ n →
    (lexList T r).flatten = r := by
  induction n with
  | zero =>
    intro r h
    have : r = [] := List.length_eq_zero.mp (by omega)
    subst this
    rw [lexList_nil]; rfl
  | succ n ih =>
    intro r h
    cases r with
    | nil => rw [lexList_nil]; rfl
    | cons c cs =>
      have hlen := nextUnit_length_le T c cs
      rw [lexList_cons, List.flatten_cons, ih _ (by simp only [List.length_cons] at h; omega),
        nextUnit_append]

/-- C18.  Lossless tokenization: for every text and every value of the depth
counter, `NewSvcScanner` returns a scanner, and the values of the units of its
buffer, written one after the other in buffer order, are the text. -/
theorem C18_units_concatenate_to_input (T : UnicodeTables) (c : Int) (r : List Char) :
    ∃ scn c1, NewSvcScanner T c r = .ok scn c1 ∧ (scn.Buf.map (·.Value)).flatten = r := by
  refine ⟨_, _, newSvcScanner_eq T c r, ?_⟩
  show ((lexUnits T c 1 r).map (·.Value)).flatten = r
  rw [lexUnits_values T r.length r c 1 (le_refl _), lexList_flatten T r.length r (le_refl _)]

/-! ## C17: the depth recorded on a unit -/

theorem depthOf_nil (c : Int) : depthOf c [] = c := by
  simp [depthOf]

theorem depthOf_cons (c : Int) (v : Str) (vs : List Str) :
    depthOf c (v :: vs) = depthOf (c + unitDelta v) vs := by
  unfold depthOf unitDelta
  by_cases h1 : v = "<".toList
  · subst h1
    have h2 : ">".toList ≠ "<".toList := by decide
    rw [List.count_cons_self, List.count_cons_of_ne h2, if_pos rfl]
    push_cast
    omega
  · by_cases h2 : v = ">".toList
    · subst h2
      have h3 : "<".toList ≠ ">".toList := by decide
      rw [List.count_cons_self, List.count_cons_of_ne h3, if_neg h1, if_pos rfl]
      push_cast
      omega
    · have h3 : "<".toList ≠ v := fun e => h1 e.symm
      have h4 : ">".toList ≠ v := fun e => h2 e.symm
      rw [List.count_cons_of_ne h3, List.count_cons_of_ne h4, if_neg h1, if_neg h2]
      omega

theorem depthOf_eq_sum (c : Int) (vs : List Str) :
    c + (vs.map unitDelta).sum = depthOf c vs := by
  induction vs generalizing c with
  | nil => simp [depthOf_nil]
  | cons v vs ih =>
    rw [depthOf_cons, ← ih, List.map_cons, List.sum_cons]
    omega

theorem lexUnits_braceLevel (T : UnicodeTables) (n : Nat) :
    ∀ (r : List Char) (b l : Int) (k : Nat) (u : ScanUnit), r.length ≤ n →
      (lexUnits T b l r)[k]? = some u →
      u.BraceLevel = depthOf b ((lexList T r).take (k + 1)) := by
  induction n with
  | zero =>
    intro r b l k u h hu
    have : r = [] := List.length_eq_zero.mp (by omega)
    subst this
    rw [lexUnits_nil] at hu
    simp at hu
  | succ n ih =>
    intro r b l k u h hu
    cases r with
    | nil => rw [lexUnits_nil] at hu; simp at hu
    | cons c cs =>
      have hlen := nextUnit_length_le T c cs
      rw [lexUnits_cons] at hu
      rw [lexList_cons, List.take_succ_cons, depthOf_cons]
      cases k with
      | zero =>
        simp only [List.getElem?_cons_zero, Option.some.injEq] at hu
        subst hu
        simp only [List.take_zero, depthOf_nil]
      | succ k =>
        simp only [List.getElem?_cons_succ] at hu
        exact ih _ _ _ k u (by simp only [List.length_cons] at h; omega) hu

theorem newSvcScanner_depth (T : UnicodeTables) (c : Int) (r : List Char) :
    NewSvcScanner T c r =
      .ok { BraceLevel := 0, Buf := lexUnits T c 1 r, UnitPos := 0, lineNo := 0 }
        (depthOf c ((lexUnits T c 1 r).map (·.Value))) ∧
    ∀ (k : Nat) (u : ScanUnit), (lexUnits T c 1 r)[k]? = some u →
      u.BraceLevel = depthOf c (((lexUnits T c 1 r).map (·.Value)).take (k + 1)) := by
  rw [lexUnits_values T r.length r c 1 (le_refl _)]
  refine ⟨?_, fun k u hu => lexUnits_braceLevel T r.length r c 1 k u (le_refl _) hu⟩
  rw [newSvcScanner_eq, braceAfter, depthOf_eq_sum]

/-- C17.  Recorded nesting depth: for every text `r` and every value `c` of
the package-level counter, the depth recorded on unit `k` of the buffer
`NewSvcScanner` builds is `c` plus the number of `<` units minus the number of
`>` units among the units 0 to `k`.  The constructor leaves the counter at the
value of the last unit, and a second call, on any text `r2`, records its depths
from that value. -/
theorem C17_recorded_depth (T : UnicodeTables) (c : Int) (r r2 : List Char) :
    ∃ scn c1, NewSvcScanner T c r = .ok scn c1 ∧
      c1 = depthOf c (scn.Buf.map (·.Value)) ∧
      (∀ (k : Nat) (u : ScanUnit), scn.Buf[k]? = some u →
        u.BraceLevel = depthOf c ((scn.Buf.map (·.Value)).take (k + 1))) ∧
      ∃ scn2 c2, NewSvcScanner T c1 r2 = .ok scn2 c2 ∧
        ∀ (k : Nat) (u : ScanUnit), scn2.Buf[k]? = some u →
          u.BraceLevel = depthOf c1 ((scn2.Buf.map (·.Value)).take (k + 1)) := by
  obtain ⟨h1, h2⟩ := newSvcScanner_depth T c r
  obtain ⟨h3, h4⟩ := newSvcScanner_depth T (depthOf c ((lexUnits T c 1 r).map (·.Value))) r2
  exact ⟨_, _, h1, rfl, h2, _, _, h3, h4⟩

end GlueSchema


namespace GlueSchema

/-! ## C15: the shapes of the units -/

theorem spaceRun_head {u : Str} (h : IsSpaceRun u) :
    ∃ c cs, u = c :: cs ∧ unicodeIsSpace c = true := by
  obtain ⟨hne, hall⟩ := h
  cases u with
  | nil => exact absurd rfl hne
  | cons c cs => exact ⟨c, cs, rfl, hall c (List.mem_cons_self _ _)⟩

theorem identRun_head {T : UnicodeTables} {u : Str} (h : IsIdentRun T u) :
    ∃ c cs, u = c :: cs ∧ unicodeIsSpace c = false ∧ isIdent T c = true := by
  obtain ⟨⟨c, cs, rfl, hc⟩, hall⟩ := h
  exact ⟨c, cs, rfl, hc, hall c (List.mem_cons_self _ _)⟩

theorem single_head {T : UnicodeTables} {u : Str} (h : IsSingle T u) :
    ∃ c cs, u = c :: cs ∧ unicodeIsSpace c = false ∧ isIdent T c = false := by
  obtain ⟨c, rfl, h1, h2⟩ := h
  exact ⟨c, [], rfl, h1, h2⟩

theorem exactlyOne_of_shape {T : UnicodeTables} {u : Str} (h : UnitShape T u) :
    ExactlyOneShape T u := by
  rcases h with h | h | h
  · refine Or.inl ⟨h, ?_, ?_⟩
    · intro h1
      obtain ⟨c, cs, e, hc⟩ := spaceRun_head h
      obtain ⟨d, ds, e1, hd, _⟩ := identRun_head h1
      rw [e] at e1
      simp only [List.cons.injEq] at e1
      rw [e1.1, hd] at hc
      cases hc
    · intro h1
      obtain ⟨c, cs, e, hc⟩ := spaceRun_head h
      obtain ⟨d, ds, e1, hd, _⟩ := single_head h1
      rw [e] at e1
      simp only [List.cons.injEq] at e1
      rw [e1.1, hd] at hc
      cases hc
  · refine Or.inr (Or.inl ⟨?_, h, ?_⟩)
    · intro h1
      obtain ⟨c, cs, e, hc⟩ := spaceRun_head h1
      obtain ⟨d, ds, e1, hd, _⟩ := identRun_head h
      rw [e] at e1
      simp only [List.cons.injEq] at e1
      rw [e1.1, hd] at hc
      cases hc
    · intro h1
      obtain ⟨c, cs, e, _, hc⟩ := identRun_head h
      obtain ⟨d, ds, e1, _, hd⟩ := single_head h1
      rw [e] at e1
      simp only [List.cons.injEq] at e1
      rw [e1.1, hd] at hc
      cases hc
  · refine Or.inr (Or.inr ⟨?_, ?_, h⟩)
    · intro h1
      obtain ⟨c, cs, e, hc⟩ := spaceRun_head h1
      obtain ⟨d, ds, e1, hd, _⟩ := single_head h
      rw [e] at e1
      simp only [List.cons.injEq] at e1
      rw [e1.1, hd] at hc
      cases hc
    · intro h1
      obtain ⟨c, cs, e, _, hc⟩ := identRun_head h1
      obtain ⟨d, ds, e1, _, hd⟩ := single_head h
      rw [e] at e1
      simp only [List.cons.injEq] at e1
      rw [e1.1, hd] at hc
      cases hc

theorem nextUnit_fst_head (T : UnicodeTables) (c : Char) (cs : List Char) :
    ∃ us, (nextUnit T c cs).1 = c :: us := by
  unfold nextUnit
  split
  · exact ⟨_, rfl⟩
  · split
    · exact ⟨_, rfl⟩
    · exact ⟨_, rfl⟩

theorem dropWhile_head_false {α : Type} (p : α → Bool) (l : List α) :
    ∀ d ∈ (l.dropWhile p).head?, p d = false := by
  induction l with
  | nil => intro d hd; simp at hd
  | cons x l ih =>
    intro d hd
    by_cases hx : p x = true
    · simp only [List.dropWhile_cons, hx, if_true] at hd
      exact ih d hd
    · simp only [List.dropWhile_cons, hx, Bool.false_eq_true, if_false, List.head?_cons,
        Option.mem_def, Option.some.injEq] at hd
      subst hd
      simpa using hx

/-- The rune after a run does not continue the run. -/
theorem nextUnit_snd_head (T : UnicodeTables) (c : Char) (cs : List Char) :
    (unicodeIsSpace c = true → ∀ d ∈ (nextUnit T c cs).2.head?, unicodeIsSpace d = false) ∧
    (unicodeIsSpace c = false → isIdent T c = true →
      ∀ d ∈ (nextUnit T c cs).2.head?, isIdent T d = false) := by
  unfold nextUnit
  constructor
  · intro hs
    simp only [if_pos hs]
    exact dropWhile_head_false _ _
  · intro hs hi
    have hs1 : ¬ unicodeIsSpace c = true := by simp [hs]
    simp only [if_neg hs1, if_pos hi]
    exact dropWhile_head_false _ _

theorem lexList_maximal (T : UnicodeTables) (n : Nat) : ∀ r : List Char, r.length ≤ n →
    List.Chain' (Maximal T) (lexList T r) := by
  induction n with
  | zero =>
    intro r h
    have : r = [] := List.length_eq_zero.mp (by omega)
    subst this
    rw [lexList_nil]
    exact List.chain'_nil
  | succ n ih =>
    intro r h
    cases r with
    | nil => rw [lexList_nil]; exact List.chain'_nil
    | cons c cs =>
      have hlen := nextUnit_length_le T c cs
      have htail := ih (nextUnit T c cs).2 (by simp only [List.length_cons] at h; omega)
      rw [lexList_cons]
      obtain ⟨us, hus⟩ := nextUnit_fst_head T c cs
      obtain ⟨hsp, hid⟩ := nextUnit_snd_head T c cs
      cases hrest : (nextUnit T c cs).2 with
      | nil => rw [lexList_nil]; exact List.chain'_singleton _
      | cons d ds =>
        rw [hrest] at htail hsp hid
        rw [lexList_cons] at htail ⊢
        refine List.Chain'.cons ⟨?_, ?_⟩ htail
        · rintro ⟨h1, h2⟩
          obtain ⟨c1, cs1, e1, hc1⟩ := spaceRun_head h1
          obtain ⟨d1, ds1, e2, hd1⟩ := spaceRun_head h2
          obtain ⟨vs, hvs⟩ := nextUnit_fst_head T d ds
          rw [hus] at e1
          rw [hvs] at e2
          simp only [List.cons.injEq] at e1 e2
          have := hsp (by rw [e1.1]; exact hc1) d (by simp)
          rw [e2.1, hd1] at this
          cases this
        · rintro ⟨h1, h2⟩
          obtain ⟨c1, cs1, e1, hc1, hi1⟩ := identRun_head h1
          obtain ⟨d1, ds1, e2, _, hd1⟩ := identRun_head h2
          obtain ⟨vs, hvs⟩ := nextUnit_fst_head T d ds
          rw [hus] at e1
          rw [hvs] at e2
          simp only [List.cons.injEq] at e1 e2
          have := hid (by rw [e1.1]; exact hc1) (by rw [e1.1]; exact hi1) d (by simp)
          rw [e2.1, hd1] at this
          cases this

/-- C15.  Lexical unit shapes: for every text, every unit of the buffer
`NewSvcScanner` builds is non-empty and is of exactly one of three shapes: a
run of white space, a run of identifier runes (letter, digit, underscore) that
does not begin with white space, or a single rune that is neither; and the runs
are maximal: no two neighbours are both runs of white space or both runs of
identifier runes. -/
theorem C15_unit_shapes (T : UnicodeTables) (c : Int) (r : List Char) :
    ∃ scn c1, NewSvcScanner T c r = .ok scn c1 ∧
      (∀ u ∈ scn.Buf, u.Value ≠ [] ∧ ExactlyOneShape T u.Value) ∧
      List.Chain' (fun u v => Maximal T u.Value v.Value) scn.Buf := by
  refine ⟨_, _, newSvcScanner_eq T c r, ?_, ?_⟩
  · intro u hu
    have hv : u.Value ∈ lexList T r := by
      rw [← lexUnits_values T r.length r c 1 (le_refl _)]
      exact List.mem_map_of_mem _ hu
    have hs := lexList_shape T r.length r (le_refl _) _ hv
    exact ⟨hs.ne_nil, exactlyOne_of_shape hs⟩
  · have := lexList_maximal T r.length r (le_refl _)
    rw [← lexUnits_values T r.length r c 1 (le_refl _), List.chain'_map] at this
    exact this

end GlueSchema


namespace GlueSchema

/-! ## C16: the lookahead -/

/-- The lookahead computed: the canonical view of the unit at the cursor, and
the cursor with the depth and line of the unit before it. -/
theorem peak_exact (s : SvcScanner) (p : Nat) (u0 u : ScanUnit) (v0 : Char) (vs : Str)
    (hpos : s.UnitPos = (p : Int) + 1) (h0 : s.Buf[p]? = some u0)
    (h1 : s.Buf[p + 1]? = some u) (hv : u.Value = v0 :: vs) :
    peak s = .ok (if unicodeIsSpace v0 = true then
        (if (v0 :: vs).contains '\n' = true then ['\n'] else [' ']) else v0 :: vs)
      ⟨u0.BraceLevel, s.Buf, (p : Int) + 1, u0.LineNo⟩ := by
  have hlt : p + 1 < s.Buf.length := by
    by_contra hc
    rw [List.getElem?_eq_none (by omega)] at h1
    cases h1
  have hread : s.ReadUnit = .ok u.Value ⟨u.BraceLevel, s.Buf, (p : Int) + 2, u.LineNo⟩ := by
    unfold SvcScanner.ReadUnit
    have e : (p : Int) + 1 = ((p + 1 : Nat) : Int) := by push_cast; rfl
    have e2 : s.UnitPos + 1 = (p : Int) + 2 := by omega
    rw [if_pos (by rw [hpos]; omega), hpos, e, goIndex_natCast, h1]
    simp only [Outcome.ok.injEq, true_and, SvcScanner.mk.injEq, and_true]
    push_cast
    omega
  have hun := unreadUnit_ge_two ⟨u.BraceLevel, s.Buf, (p : Int) + 2, u.LineNo⟩ p u0 rfl h0
  unfold peak
  rw [hread, hv]
  simp only
  rw [hun]

theorem contains_newline_iff (l : Str) : l.contains '\n' = true ↔ '\n' ∈ l := by
  simp [List.contains_iff_exists_mem_beq]

/-- C16.  Peek is a non-consuming canonicalized lookahead.  On a buffer that
`NewSvcScanner` built, with the cursor at unit `p + 1` (at least one unit has
been read, and a unit is left to read) and the depth and line of the cursor
those of unit `p`, `peak` returns a single space when unit `p + 1` is a run of
white space without a newline, a single newline when it is a run of white space
with a newline, and the text of the unit itself otherwise; and it leaves the
cursor exactly as it was. -/
theorem C16_peak_is_a_canonical_lookahead (T : UnicodeTables) (c c1 : Int) (r : List Char)
    (scn0 s : SvcScanner) (p : Nat) (u0 u : ScanUnit)
    (hlex : NewSvcScanner T c r = .ok scn0 c1) (hbuf : s.Buf = scn0.Buf)
    (hpos : s.UnitPos = (p : Int) + 1) (h0 : s.Buf[p]? = some u0)
    (h1 : s.Buf[p + 1]? = some u) (hbl : s.BraceLevel = u0.BraceLevel)
    (hln : s.lineNo = u0.LineNo) :
    ∃ str, peak s = .ok str s ∧
      (IsSpaceRun u.Value → '\n' ∉ u.Value → str = [' ']) ∧
      (IsSpaceRun u.Value → '\n' ∈ u.Value → str = ['\n']) ∧
      (¬ IsSpaceRun u.Value → str = u.Value) := by
  rw [newSvcScanner_eq] at hlex
  cases hlex
  simp only at hbuf
  have hmem : u.Value ∈ lexList T r := by
    rw [← lexUnits_values T r.length r c 1 (le_refl _), ← hbuf]
    exact List.mem_map_of_mem _ (List.getElem?_mem h1)
  have hshape := lexList_shape T r.length r (le_refl _) _ hmem
  obtain ⟨v0, vs, hv⟩ := List.exists_cons_of_ne_nil hshape.ne_nil
  have hpk := peak_exact s p u0 u v0 vs hpos h0 h1 hv
  have hs : (⟨u0.BraceLevel, s.Buf, (p : Int) + 1, u0.LineNo⟩ : SvcScanner) = s := by
    obtain ⟨bl, B, pos, ln⟩ := s
    simp only at hpos hbl hln
    rw [hpos, hbl, hln]
  rw [hs] at hpk
  refine ⟨_, hpk, ?_, ?_, ?_⟩
  · intro hsp hnl
    obtain ⟨d, ds, e, hd⟩ := spaceRun_head hsp
    rw [hv] at e hnl
    simp only [List.cons.injEq] at e
    rw [if_pos (by rw [e.1]; exact hd), if_neg (by rw [contains_newline_iff]; exact hnl)]
  · intro hsp hnl
    obtain ⟨d, ds, e, hd⟩ := spaceRun_head hsp
    rw [hv] at e hnl
    simp only [List.cons.injEq] at e
    rw [if_pos (by rw [e.1]; exact hd), if_pos (by rw [contains_newline_iff]; exact hnl)]
  · intro hns
    have hv0 : ¬ unicodeIsSpace v0 = true := by
      intro hsp
      apply hns
      rcases hshape with h | h | h
      · exact h
      · obtain ⟨d, ds, e, hd, _⟩ := identRun_head h
        rw [hv] at e
        simp only [List.cons.injEq] at e
        rw [e.1, hd] at hsp
        cases hsp
      · obtain ⟨d, ds, e, hd, _⟩ := single_head h
        rw [hv] at e
        simp only [List.cons.injEq] at e
        rw [e.1, hd] at hsp
        cases hsp
    rw [if_neg hv0, hv]

/-- C16 at the buffer of `struct< created_time : bigint >` with the cursor
after `struct<`: the unit at the cursor is a space, `peak` returns a single
space and the cursor stays where it was. -/
theorem C16_peak_witness :
    NewSvcScanner latin1Tables 0 "struct< created_time : bigint >".toList =
      .ok spacedScanner 0 ∧
    peak spacedAfterTwo = .ok " ".toList spacedAfterTwo ∧
    ∃ str, peak spacedAfterTwo = .ok str spacedAfterTwo ∧
      (IsSpaceRun " ".toList → '\n' ∉ " ".toList → str = [' ']) ∧
      (IsSpaceRun " ".toList → '\n' ∈ " ".toList → str = ['\n']) ∧
      (¬ IsSpaceRun " ".toList → str = " ".toList) :=
  ⟨by decide, by decide,
    C16_peak_is_a_canonical_lookahead latin1Tables 0 0
      "struct< created_time : bigint >".toList spacedScanner spacedAfterTwo 1
      ⟨1, 1, "<".toList⟩ ⟨1, 1, " ".toList⟩ (by decide) rfl rfl rfl rfl rfl rfl⟩

end GlueSchema


namespace GlueSchema

/-! ## C19: no panic on the buffer of a text -/

theorem safe_fail_aux {r : TokRes} (h : r = .fail) :
    r ≠ .panic ∧ ∀ t rest, r = .ok t rest → ∀ u ∈ rest, u ≠ ([] : Str) := by
  subst h
  exact ⟨fun h => (by cases h), fun t rest h => (by cases h)⟩

theorem safe_expectTok {k : List Str → TokRes} (h : Safe k) (e : Str) :
    Safe (fun l => expectTok e l k) := by
  intro l hl
  cases l with
  | nil => exact safe_fail_aux rfl
  | cons u rest =>
    by_cases hu : u = e
    · subst hu
      simp only [expectTok_self]
      exact h rest (fun v hv => hl v (List.mem_cons_of_mem _ hv))
    · exact safe_fail_aux (expectTok_ne hu rest k)

theorem safe_readTok {K : Str → List Str → TokRes} (h : ∀ name, Safe (K name)) :
    Safe (fun l => match l with | [] => .fail | name :: l1 => K name l1) := by
  intro l hl
  cases l with
  | nil => exact safe_fail_aux rfl
  | cons u rest => exact h u rest (fun v hv => hl v (List.mem_cons_of_mem _ hv))

theorem safe_andThen {f : List Str → TokRes} {k : SchemaType → List Str → TokRes}
    (hf : Safe f) (hk : ∀ t, Safe (k t)) : Safe (fun l => (f l).andThen k) := by
  intro l hl
  obtain ⟨h1, h2⟩ := hf l hl
  simp only
  cases hr : f l with
  | ok t rest =>
    simp only [tokRes_andThen_ok]
    exact hk t rest (h2 t rest hr)
  | fail => exact safe_fail_aux rfl
  | panic => exact absurd hr h1
  | outOfFuel => exact ⟨fun h => (by cases h), fun t rest h => (by cases h)⟩

theorem peakView_ne_none {u : Str} (h : u ≠ []) : ∃ str, peakView u = some str := by
  cases u with
  | nil => exact absurd rfl h
  | cons u0 us => exact ⟨_, rfl⟩

theorem safe_rest_aux {u : Str} {rest : List Str} {t : SchemaType}
    (hl : ∀ v ∈ u :: rest, v ≠ ([] : Str)) :
    TokRes.ok t rest ≠ .panic ∧
      ∀ t1 rest1, TokRes.ok t rest = .ok t1 rest1 → ∀ v ∈ rest1, v ≠ ([] : Str) := by
  refine ⟨fun h => (by cases h), fun t1 rest1 h v hv => ?_⟩
  simp only [TokRes.ok.injEq] at h
  rw [← h.2] at hv
  exact hl v (List.mem_cons_of_mem _ hv)

theorem safe_fieldType {tA tS : List Str → TokRes} (hA : Safe tA) (hS : Safe tS) :
    Safe (tokFieldType tA tS) := by
  intro l hl
  cases l with
  | nil => exact safe_fail_aux rfl
  | cons u rest =>
    obtain ⟨str, hp⟩ := peakView_ne_none (hl u (List.mem_cons_self _ _))
    simp only [tokFieldType, hp]
    by_cases h1 : str = "array".toList
    · simp only [h1, if_true]; exact hA (u :: rest) hl
    · simp only [h1, if_false]
      by_cases h2 : str = "struct".toList
      · simp only [h2, if_true]; exact hS (u :: rest) hl
      · simp only [h2, if_false]
        by_cases h3 : (mapGet ValidTypes u).isNone = true
        · simp only [h3, if_true]
          exact safe_fail_aux rfl
        · simp only [h3, Bool.false_eq_true, if_false]
          exact safe_rest_aux hl

theorem safe_elemType {tA tS : List Str → TokRes} (hA : Safe tA) (hS : Safe tS) :
    Safe (tokElemType tA tS) := by
  intro l hl
  cases l with
  | nil => exact safe_fail_aux rfl
  | cons u rest =>
    obtain ⟨str, hp⟩ := peakView_ne_none (hl u (List.mem_cons_self _ _))
    simp only [tokElemType, hp]
    by_cases h1 : str = "array".toList
    · simp only [h1, if_true]; exact hA (u :: rest) hl
    · simp only [h1, if_false]
      by_cases h2 : str = "struct".toList
      · simp only [h2, if_true]; exact hS (u :: rest) hl
      · simp only [h2, if_false]
        exact safe_rest_aux hl

theorem safe_afterField {tL : List Str → TokRes} (hL : Safe tL) (t : SchemaType) :
    Safe (tokAfterField tL t) := by
  intro l hl
  cases l with
  | nil => exact safe_fail_aux rfl
  | cons u rest =>
    obtain ⟨str, hp⟩ := peakView_ne_none (hl u (List.mem_cons_self _ _))
    simp only [tokAfterField, hp]
    by_cases h1 : str = ">".toList
    · simp only [h1, if_true]
      by_cases h2 : u = ">".toList
      · simp only [h2, if_true]
        exact safe_rest_aux (u := u) hl
      · simp only [h2, if_false]
        exact safe_fail_aux rfl
    · simp only [h1, if_false]
      by_cases h2 : u = ",".toList
      · simp only [h2, if_true]
        exact hL rest (fun v hv => hl v (List.mem_cons_of_mem _ hv))
      · simp only [h2, if_false]
        exact safe_fail_aux rfl

theorem safe_ok (t : SchemaType) : Safe (fun l => .ok t l) := by
  intro l hl
  refine ⟨fun h => (by cases h), fun t1 rest h v hv => ?_⟩
  simp only [TokRes.ok.injEq] at h
  rw [← h.2] at hv
  exact hl v hv

theorem safe_outOfFuel : Safe (fun _ => .outOfFuel) :=
  fun _ _ => ⟨fun h => (by cases h), fun t rest h => (by cases h)⟩

/-- The values view does not panic on non-empty values. -/
theorem tok_safe (fuel : Nat) :
    Safe (tokStruct fuel) ∧ (∀ m order, Safe (fun l => tokFields fuel l m order)) ∧
    Safe (tokArray fuel) := by
  induction fuel with
  | zero =>
    refine ⟨?_, ?_, ?_⟩
    · intro l _
      exact ⟨by simp [tokStruct], fun t r h => by simp [tokStruct] at h⟩
    · intro m order l _
      exact ⟨by simp [tokFields], fun t r h => by simp [tokFields] at h⟩
    · intro l _
      exact ⟨by simp [tokArray], fun t r h => by simp [tokArray] at h⟩
  | succ fuel ih =>
    obtain ⟨ihS, ihL, ihA⟩ := ih
    refine ⟨?_, ?_, ?_⟩
    · rw [tokStruct_succ]
      exact safe_expectTok (safe_expectTok (ihL [] []) _) _
    · intro m order
      rw [tokFields_succ]
      exact safe_readTok fun name => safe_expectTok
        (safe_andThen (safe_fieldType ihA ihS) fun v => safe_afterField (ihL _ _) _) _
    · rw [tokArray_succ]
      exact safe_expectTok (safe_expectTok
        (safe_andThen (safe_elemType ihA ihS) fun e => safe_expectTok (safe_ok _) _) _) _

/-- C19.  The parser never aborts: for every text and every value of the depth
counter, `NewSvcScanner` returns a scanner with the cursor at unit 0, and
`parseStruct` on it returns a tree or an error.  It does not panic, neither in
`checkPanic`, nor at `Buf[UnitPos-1]` in `UnreadUnit`, nor at `unit[0]` in
`peak`, and the model does not run out of its call budget. -/
theorem C19_parser_never_aborts (T : UnicodeTables) (c : Int) (r : List Char) :
    ∃ scn c1, NewSvcScanner T c r = .ok scn c1 ∧ scn.UnitPos = 0 ∧
      ((∃ t s, parseStruct scn = .ok t s) ∨ (∃ e s, parseStruct scn = .error e s)) := by
  refine ⟨_, _, newSvcScanner_eq T c r, rfl, ?_⟩
  have hsim := parseStruct_sim
    { BraceLevel := 0, Buf := lexUnits T c 1 r, UnitPos := 0, lineNo := 0 } rfl
  simp only at hsim
  have hvals := lexUnits_values T r.length r c 1 (le_refl _)
  have hne : ∀ u ∈ (lexUnits T c 1 r).map (·.Value), u ≠ [] := by
    intro u hu
    rw [hvals] at hu
    exact (lexList_shape T r.length r (le_refl _) u hu).ne_nil
  have hsafe := ((tok_safe ((lexUnits T c 1 r).length + 1)).1 _ hne).1
  have hfuel := ((tok_prog ((lexUnits T c 1 r).length + 1)).1
    ((lexUnits T c 1 r).map (·.Value))).2 (by simp)
  cases hr : tokStruct ((lexUnits T c 1 r).length + 1) ((lexUnits T c 1 r).map (·.Value)) with
  | ok t rest =>
    rw [hr] at hsim
    obtain ⟨q, s, h1, _⟩ := hsim
    exact Or.inl ⟨t, s, h1⟩
  | fail =>
    rw [hr] at hsim
    exact Or.inr hsim
  | panic => exact absurd hr hsafe
  | outOfFuel => exact absurd hr hfuel

end GlueSchema


namespace GlueSchema

/-! ## C20: the units after the struct -/

theorem values_take_append (B : List ScanUnit) (q : Nat) :
    B.map (·.Value) = (B.take q).map (·.Value) ++ valuesFrom B q := by
  unfold valuesFrom
  rw [← List.map_append, List.take_append_drop]

/-- C20.  Trailing input is ignored: when `parseStruct`, started at the first
unit of a buffer, returns the tree `t` with the cursor after `n` units, then on
every buffer whose first `n` units are the same it returns the same tree `t`,
again with the cursor after `n` units. -/
theorem C20_trailing_units_are_ignored (scn s : SvcScanner) (t : SchemaType)
    (B2 : List ScanUnit) (n : Nat) (h0 : scn.UnitPos = 0) (hok : parseStruct scn = .ok t s)
    (hn : s.UnitPos = (n : Int)) (hpre : B2.take n = scn.Buf.take n) :
    ∃ s2, parseStruct { scn with Buf := B2 } = .ok t s2 ∧ s2.UnitPos = (n : Int) := by
  obtain ⟨q, ⟨_, hq, hqle⟩, htok⟩ := parseStruct_ok_tok h0 hok
  have hqn : q = n := by rw [hq] at hn; exact_mod_cast hn
  subst hqn
  obtain ⟨ts, hl, hd, _, hhead⟩ := tokStruct_ok_der htok
  have hts : ts = (scn.Buf.take q).map (·.Value) := by
    have := values_take_append scn.Buf q
    rw [hl] at this
    exact List.append_cancel_right this
  have hq2 : q ≤ B2.length := by
    have := congrArg List.length hpre
    rw [List.length_take, List.length_take] at this
    omega
  have hvals2 : B2.map (·.Value) = ts ++ valuesFrom B2 q := by
    rw [hts, ← hpre]
    exact values_take_append B2 q
  have hsim := parseStruct_sim { scn with Buf := B2 } h0
  simp only at hsim
  have hlen : B2.length = (ts ++ valuesFrom B2 q).length := by
    rw [← hvals2, List.length_map]
  rw [hvals2, hlen, tokStruct_of_der hd hhead (valuesFrom B2 q)] at hsim
  obtain ⟨q2, s2, hok2, ⟨_, hpos2, hle2⟩, _, hrest⟩ := hsim
  refine ⟨s2, hok2, ?_⟩
  have := congrArg List.length hrest
  rw [valuesFrom_length, valuesFrom_length] at this
  rw [hpos2]
  have : q2 = q := by omega
  rw [this]

/-- C20 at the text `struct<x:int>` and the same text followed by `,y`: both
buffers give the tree of `struct<x:int>` with the cursor after six units. -/
theorem C20_trailing_units_witness :
    NewSvcScanner latin1Tables 0 "struct<x:int>".toList = .ok xIntScanner 0 ∧
    NewSvcScanner latin1Tables 0 "struct<x:int>,y".toList = .ok xIntTrailingScanner 0 ∧
    parseStruct xIntScanner = .ok xIntTree { xIntScanner with UnitPos := 6, lineNo := 1 } ∧
    ∃ s2, parseStruct xIntTrailingScanner = .ok xIntTree s2 ∧ s2.UnitPos = 6 :=
  ⟨by decide, by decide, by decide!,
    C20_trailing_units_are_ignored xIntScanner { xIntScanner with UnitPos := 6, lineNo := 1 }
      xIntTree xIntTrailingScanner.Buf 6 rfl (by decide!) rfl (by decide)⟩

end GlueSchema


namespace GlueSchema

/-! ## C11: the depth counter over a well-formed text -/

theorem depthOf_append (c : Int) (a b : List Str) :
    depthOf c (a ++ b) = depthOf (depthOf c a) b := by
  induction a generalizing c with
  | nil => rw [List.nil_append, depthOf_nil]
  | cons v vs ih => rw [List.cons_append, depthOf_cons, depthOf_cons, ih]

theorem depthOf_single (c : Int) (v : Str) : depthOf c [v] = c + unitDelta v := by
  rw [depthOf_cons, depthOf_nil]

theorem nonNeg_nil {c : Int} (h : 0 ≤ c) : NonNeg c [] := by
  intro k
  rw [List.take_nil, depthOf_nil]
  exact h

theorem nonNeg_cons {c : Int} {v : Str} {vs : List Str} (h : 0 ≤ c)
    (hvs : NonNeg (c + unitDelta v) vs) : NonNeg c (v :: vs) := by
  intro k
  cases k with
  | zero => rw [List.take_zero, depthOf_nil]; exact h
  | succ k => rw [List.take_succ_cons, depthOf_cons]; exact hvs k

theorem nonNeg_append {c : Int} {a b : List Str} (ha : NonNeg c a)
    (hb : NonNeg (depthOf c a) b) : NonNeg c (a ++ b) := by
  intro k
  rw [List.take_append_eq_append_take, depthOf_append]
  by_cases hk : k ≤ a.length
  · have : k - a.length = 0 := by omega
    rw [this, List.take_zero, depthOf_nil]
    exact ha k
  · rw [List.take_of_length_le (by omega)]
    exact hb _

theorem unitDelta_lt : unitDelta "<".toList = 1 := by decide

theorem unitDelta_gt : unitDelta ">".toList = -1 := by decide

theorem unitDelta_other {v : Str} (h1 : v ≠ "<".toList) (h2 : v ≠ ">".toList) :
    unitDelta v = 0 := by
  unfold unitDelta
  rw [if_neg h1, if_neg h2]

theorem approved_not_bracket {u : Str} (h : u ∈ approvedTypes) :
    u ≠ "<".toList ∧ u ≠ ">".toList := by
  constructor <;> (intro e; subst e; revert h; decide)

theorem bracketsOnly_left {a b : List Str} (h : BracketsOnly (a ++ b)) : BracketsOnly a :=
  (List.chain'_append.mp h).1

theorem bracketsOnly_right {a b : List Str} (h : BracketsOnly (a ++ b)) : BracketsOnly b :=
  (List.chain'_append.mp h).2.1

theorem bracketsOnly_tail {a : Str} {b : List Str} (h : BracketsOnly (a :: b)) :
    BracketsOnly b :=
  List.Chain'.tail h

/-- A type ends the way it began: one value of depth change zero. -/
theorem leaf_depth {u : Str} (h1 : u ≠ "<".toList) (h2 : u ≠ ">".toList) (c : Int)
    (hc : 0 ≤ c) : depthOf c [u] = c ∧ NonNeg c [u] := by
  have hd := unitDelta_other h1 h2
  refine ⟨by rw [depthOf_single, hd]; omega, nonNeg_cons hc ?_⟩
  rw [hd]
  exact nonNeg_nil (by omega)

theorem der_inv11 {k : Kind} {ts : List Str} {t : SchemaType} (h : Der k ts t) :
    Inv11 k ts := by
  induction h with
  | fieldLeaf u hu =>
    intro _ c hc
    exact leaf_depth (approved_not_bracket hu).1 (approved_not_bracket hu).2 c hc
  | fieldNode h ih => exact ih
  | elemLeaf u str hp h1 h2 =>
    intro hbr c hc
    have hpair : BracketPair "<".toList u := (List.chain'_cons.mp hbr).1
    refine leaf_depth ?_ ?_ c hc
    · intro e
      rcases hpair.1 e with h | h <;> exact absurd h (by decide)
    · exact hpair.2.1 rfl
  | elemNode h ih =>
    intro hbr
    exact ih (bracketsOnly_tail hbr)
  | array h ih =>
    rename_i ts1 e
    intro hbr c hc
    have hbr1 : BracketsOnly ("<".toList :: ts1) :=
      bracketsOnly_left (b := [">".toList]) (bracketsOnly_tail hbr)
    obtain ⟨hd, hn⟩ := ih hbr1 (c + 1) (by omega)
    have e1 : "array".toList :: "<".toList :: ts1 ++ [">".toList] =
        "array".toList :: "<".toList :: (ts1 ++ [">".toList]) := rfl
    have hda : unitDelta "array".toList = 0 := by decide
    rw [e1]
    constructor
    · rw [depthOf_cons, depthOf_cons, depthOf_append, hda, unitDelta_lt, Int.add_zero, hd,
        depthOf_single, unitDelta_gt]
      omega
    · refine nonNeg_cons hc (nonNeg_cons (by rw [hda]; omega) ?_)
      rw [hda, unitDelta_lt, Int.add_zero]
      refine nonNeg_append hn ?_
      rw [hd]
      refine nonNeg_cons (by omega) ?_
      rw [unitDelta_gt]
      exact nonNeg_nil (by omega)
  | structOpen =>
    refine ⟨⟨["struct".toList], "<".toList, rfl, Or.inl rfl⟩, ?_⟩
    intro _ c hc
    have hds : unitDelta "struct".toList = 0 := by decide
    constructor
    · rw [depthOf_cons, depthOf_single, hds, unitDelta_lt]
      omega
    · refine nonNeg_cons hc (nonNeg_cons (by rw [hds]; omega) ?_)
      rw [hds, unitDelta_lt]
      exact nonNeg_nil (by omega)
  | addField name h0 hv ih0 ihv =>
    rename_i ts0 ts1 m order v
    intro hbr c hc
    obtain ⟨⟨pre, x, hts0, hx⟩, ih0⟩ := ih0
    obtain ⟨hd0, hn0⟩ := ih0 (bracketsOnly_left hbr) c hc
    have hbr2 : BracketsOnly (name :: ":".toList :: ts1) := bracketsOnly_right hbr
    have hbr3 : BracketsOnly ts1 := bracketsOnly_tail (bracketsOnly_tail hbr2)
    obtain ⟨hd1, hn1⟩ := ihv hbr3 (c + 1) (by omega)
    have hp1 : BracketPair x name := by
      have := (List.chain'_append.mp hbr).2.2 x (by rw [hts0]; simp) name (by simp)
      exact this
    have hp2 : BracketPair name ":".toList := (List.chain'_cons.mp hbr2).1
    have hname1 : name ≠ "<".toList := by
      intro e
      rcases hp1.1 e with h | h <;> rcases hx with rfl | rfl <;> exact absurd h (by decide)
    have hname2 : name ≠ ">".toList := by
      intro e
      rcases hx with rfl | rfl
      · exact hp1.2.1 rfl e
      · exact hp2.2.2 e rfl
    have hdn := unitDelta_other hname1 hname2
    have hdc : unitDelta ":".toList = 0 := by decide
    constructor
    · rw [depthOf_append, hd0, depthOf_cons, depthOf_cons, hdn, hdc, Int.add_zero,
        Int.add_zero, hd1]
    · refine nonNeg_append hn0 ?_
      rw [hd0]
      refine nonNeg_cons (by omega) (nonNeg_cons (by rw [hdn]; omega) ?_)
      rw [hdn, hdc, Int.add_zero, Int.add_zero]
      exact hn1
  | comma h ih =>
    rename_i ts1 t1
    refine ⟨⟨ts1, ",".toList, rfl, Or.inr rfl⟩, ?_⟩
    intro hbr c hc
    obtain ⟨hd, hn⟩ := ih (bracketsOnly_left hbr) c hc
    have hdc : unitDelta ",".toList = 0 := by decide
    constructor
    · rw [depthOf_append, hd, depthOf_single, hdc]
      omega
    · refine nonNeg_append hn ?_
      rw [hd]
      refine nonNeg_cons (by omega) ?_
      rw [hdc]
      exact nonNeg_nil (by omega)
  | close h ih =>
    intro hbr c hc
    obtain ⟨hd, hn⟩ := ih (bracketsOnly_left hbr) c hc
    constructor
    · rw [depthOf_append, hd, depthOf_single, unitDelta_gt]
      omega
    · refine nonNeg_append hn ?_
      rw [hd]
      refine nonNeg_cons (by omega) ?_
      rw [unitDelta_gt]
      exact nonNeg_nil (by omega)

/-- C11, amended.  The lexer counts every unit `<` and `>`, also one that is
a field name or the element type of an array (the text `struct<>:int>` is
accepted and its last unit records -1).  When `<` and `>` are brackets only
(every `<` follows a `struct` or `array` unit, no `>` follows a `<`, no `>`
is followed by a colon), a text that `parseStruct` accepts, reading the whole
buffer, and that was lexed with the counter at 0, has a depth that is not
negative on any unit and is 0 on the last unit, and the counter is left at 0. -/
theorem C11_brackets_balance (T : UnicodeTables) (r : List Char) (scn s : SvcScanner)
    (c1 : Int) (t : SchemaType) (hlex : NewSvcScanner T 0 r = .ok scn c1)
    (hparse : parseStruct scn = .ok t s) (hall : s.UnitPos = (scn.Buf.length : Nat))
    (hbr : BracketsOnly (scn.Buf.map (·.Value))) :
    (∀ u ∈ scn.Buf, 0 ≤ u.BraceLevel) ∧
    (∀ u, scn.Buf.getLast? = some u → u.BraceLevel = 0) ∧ c1 = 0 := by
  obtain ⟨hlex1, hdepth⟩ := newSvcScanner_depth T 0 r
  rw [hlex1] at hlex
  simp only [Outcome.ok.injEq] at hlex
  obtain ⟨rfl, rfl⟩ := hlex
  simp only at hall hbr
  obtain ⟨q, ⟨_, hq, _⟩, htok⟩ := parseStruct_ok_tok rfl hparse
  simp only at htok
  have hqn : q = (lexUnits T 0 1 r).length := by rw [hq] at hall; exact_mod_cast hall
  obtain ⟨ts, hl, hd, _, _⟩ := tokStruct_ok_der htok
  have hrest : valuesFrom (lexUnits T 0 1 r) q = [] := by
    apply List.eq_nil_of_length_eq_zero
    rw [valuesFrom_length, hqn]
    omega
  rw [hrest, List.append_nil] at hl
  rw [← hl] at hd
  obtain ⟨hzero, hnn⟩ := der_inv11 hd hbr 0 (le_refl _)
  refine ⟨?_, ?_, hzero⟩
  · intro u hu
    obtain ⟨k, hk⟩ := List.mem_iff_getElem?.mp hu
    rw [hdepth k u hk]
    exact hnn (k + 1)
  · intro u hu
    simp only at hu
    rw [List.getLast?_eq_getElem?] at hu
    rw [hdepth _ u hu]
    have hne : (lexUnits T 0 1 r).length ≠ 0 := by
      intro e
      rw [List.getElem?_eq_none (by omega)] at hu
      cases hu
    have e : (lexUnits T 0 1 r).length - 1 + 1 =
        ((lexUnits T 0 1 r).map (·.Value)).length := by
      rw [List.length_map]; omega
    rw [e, List.take_length]
    exact hzero

/-- C11 amended, at the second text of the test: its brackets are brackets
only, every unit records a depth of 0 or more and the last unit records 0. -/
theorem C11_brackets_balance_witness :
    NewSvcScanner latin1Tables 0
      "struct<likes:array<struct<name:string,place:string,favorite:boolean>>>".toList =
      .ok likesScanner 0 ∧
    parseStruct likesScanner = .ok likesTree { likesScanner with UnitPos := 22, lineNo := 1 } ∧
    BracketsOnly (likesScanner.Buf.map (·.Value)) ∧
    (∀ u ∈ likesScanner.Buf, 0 ≤ u.BraceLevel) ∧
    (∀ u, likesScanner.Buf.getLast? = some u → u.BraceLevel = 0) ∧ (0 : Int) = 0 :=
  have hbr : BracketsOnly (likesScanner.Buf.map (·.Value)) := by
    simp only [BracketsOnly, likesScanner, List.map_cons, List.map_nil, List.chain'_cons,
      List.chain'_singleton, and_true]
    decide
  ⟨by decide, by decide!, hbr,
    C11_brackets_balance latin1Tables
      "struct<likes:array<struct<name:string,place:string,favorite:boolean>>>".toList
      likesScanner { likesScanner with UnitPos := 22, lineNo := 1 } 0 likesTree
      (by decide) (by decide!) rfl hbr⟩

/-- C11 as stated fails: the text `struct<>:int>`, lexed with the counter at
0, is accepted by `parseStruct`, which reads all six units of the buffer; its
field is named `>`, and the depth recorded on the last unit is -1, neither 0
nor non-negative. -/
theorem C11_bracket_as_field_name :
    NewSvcScanner latin1Tables 0 "struct<>:int>".toList = .ok gtNameScanner (-1) ∧
    parseStruct gtNameScanner =
      .ok gtNameTree { gtNameScanner with BraceLevel := -1, UnitPos := 6, lineNo := 1 } ∧
    gtNameScanner.Buf.length = 6 ∧
    gtNameScanner.Buf.getLast? = some ⟨-1, 1, ">".toList⟩ ∧
    ¬ (∀ u ∈ gtNameScanner.Buf, 0 ≤ u.BraceLevel) :=
  ⟨by decide, by decide!, by decide, by decide, by decide⟩

end GlueSchema
